import Mathlib

/-!
Shallow embedding of the red-black tree package (`redblacktree`) of the
repository: the node graph, `Put`, `Get`, `Remove`, `Floor`, `Ceiling`,
`Keys`, `Clear`, the insertion/deletion fix-up cases and the stateful
in-order iterator, together with proofs of the specification claims.

The Go code works on a heap of `Node` records with `Parent` pointers.  The
node graph reachable from the root is always a tree, so a node pointer is
represented here by a focused subtree (`RBNode`) together with its context
(`Path`): the list of ancestors from the immediate parent outwards, each
entry recording on which side the focus hangs and the data and off-path
subtree of that ancestor.  `Parent`-pointer navigation becomes popping one
`Path` entry.  The comparator (package `utils`, an external collaborator of
this repository) is required by the specification to be a strict total
order, so keys are taken in a `LinearOrder` and the comparator is the
function `cmp` below, which mirrors `utils.IntComparator`: negative, zero
or positive according to the order of its arguments.
-/

namespace GodsRBT

/-- Node colors. In Go: `type color bool; black, red = true, false`. -/
inductive Color where
  | red
  | black
deriving DecidableEq, Repr

/-- Source `Node[T, P]`: key, value, color and the two child links.
The Go `Parent` pointer is represented by the `Path` context below. -/
inductive RBNode (α β : Type) where
  | nil
  | node (key : α) (value : β) (c : Color) (left : RBNode α β) (right : RBNode α β)
deriving Repr

/-- One ancestor of the focused node: on which side the focus hangs, the
ancestor's key, value and color, and its off-path subtree (the sibling of
the focus). `.left k v c r` means: the focus is the `Left` child of a node
with key `k`, value `v`, color `c`, and right subtree `r`. -/
inductive PathEntry (α β : Type) where
  | left (key : α) (value : β) (c : Color) (right : RBNode α β)
  | right (key : α) (value : β) (c : Color) (left : RBNode α β)
deriving Repr

/-- Ancestors of the focus, innermost (immediate parent) first. -/
abbrev Path (α β : Type) := List (PathEntry α β)

namespace RBNode

/-- Pointer test `node == nil`. -/
def isNil : RBNode α β → Bool
  | .nil => true
  | .node _ _ _ _ _ => false

/-- Projection `node.Left`; on `nil` the Go code would dereference a nil pointer, the
total model returns `nil`. -/
def left : RBNode α β → RBNode α β
  | .nil => .nil
  | .node _ _ _ l _ => l

/-- Projection `node.Right`; on `nil` the Go code would dereference a nil pointer, the
total model returns `nil`. -/
def right : RBNode α β → RBNode α β
  | .nil => .nil
  | .node _ _ _ _ r => r

/-- Projection `node.Key` as an optional value (`nil` has no key). -/
def keyQ : RBNode α β → Option α
  | .nil => none
  | .node k _ _ _ _ => some k

/-- Projection `node.Value` as an optional value (`nil` has no value). -/
def valueQ : RBNode α β → Option β
  | .nil => none
  | .node _ v _ _ _ => some v

/-- Assignment `node.color = c`; on `nil` the Go code would dereference a nil pointer,
the total model returns `nil` unchanged. -/
def paint (c : Color) : RBNode α β → RBNode α β
  | .nil => .nil
  | .node k v _ l r => .node k v c l r

end RBNode

/-- Go `func nodeColor(node) color`: `nil` nodes count as black. -/
def nodeColor : RBNode α β → Color
  | .nil => .black
  | .node _ _ c _ _ => c

namespace PathEntry

/-- The color of the parent node recorded in the entry. -/
def color : PathEntry α β → Color
  | .left _ _ c _ => c
  | .right _ _ c _ => c

/-- The key of the parent node recorded in the entry. -/
def key : PathEntry α β → α
  | .left k _ _ _ => k
  | .right k _ _ _ => k

/-- The off-path subtree of the entry: the sibling of the focus. -/
def sib : PathEntry α β → RBNode α β
  | .left _ _ _ r => r
  | .right _ _ _ l => l

/-- Recolor the parent node recorded in the entry. -/
def setColor (c : Color) : PathEntry α β → PathEntry α β
  | .left k v _ r => .left k v c r
  | .right k v _ l => .right k v c l

/-- Replace the off-path subtree of the entry. -/
def setSib (s : RBNode α β) : PathEntry α β → PathEntry α β
  | .left k v c _ => .left k v c s
  | .right k v c _ => .right k v c s

end PathEntry

/-- Rebuild the parent node from the focus and one context entry. -/
def plugStep (n : RBNode α β) : PathEntry α β → RBNode α β
  | .left k v c r => .node k v c n r
  | .right k v c l => .node k v c l n

/-- Rebuild the whole tree from a focus and its context. -/
def plug : RBNode α β → Path α β → RBNode α β
  | n, [] => n
  | n, e :: p => plug (plugStep n e) p

/-- The comparator: mirrors `utils.IntComparator` for any linear order
(negative when `a < b`, positive when `a > b`, zero otherwise). -/
def cmp [LinearOrder α] (a b : α) : Int :=
  if a < b then -1 else if b < a then 1 else 0

/-- Source `Tree[T, P]`: root and size (the comparator is the `LinearOrder`
instance on the key type). Go stores `size` as an `int`. -/
structure Tree (α β : Type) where
  root : RBNode α β
  size : Int
deriving Repr

/-- Constructor (`NewWith…`): the empty tree. -/
def Tree.new : Tree α β := ⟨.nil, 0⟩

variable {α β : Type} [LinearOrder α]

/-! ## Put and the insertion fix-up

`insertCase4` and `insertCase5` are non-recursive; `insertCase1`–`insertCase3`
form the recursive loop (`insertCase3` restarts `insertCase1` at the
grandparent, two context entries up).  Each function receives the focused
node and its context and returns the rebuilt whole tree.  Rotations
(`rotateLeft`/`rotateRight`/`replaceNode` in the source) are heap-pointer
surgery; on the zipper they appear as the corresponding reshuffling of the
focus and its first two context entries. -/

/-- Go `insertCase5`: the parent becomes black and the grandparent red, then
the grandparent is rotated away from the (outer-child) focus.  The
mixed-side branches recolor without rotating, exactly as the Go code (its
two rotation guards both fail there).  With fewer than two ancestors the Go
code dereferences a nil grandparent (unreachable: `insertCase5` only runs
below a red parent, and the root is black); the model returns the tree
unchanged. -/
def insertCase5 (n : RBNode α β) : Path α β → RBNode α β
  | .left pk pv _ pr :: .left gk gv _ gr :: p =>
      plug (.node pk pv .black n (.node gk gv .red pr gr)) p
  | .right pk pv _ pl :: .right gk gv _ gl :: p =>
      plug (.node pk pv .black (.node gk gv .red gl pl) n) p
  | .left pk pv _ pr :: .right gk gv _ gl :: p =>
      plug n (.left pk pv .black pr :: .right gk gv .red gl :: p)
  | .right pk pv _ pl :: .left gk gv _ gr :: p =>
      plug n (.right pk pv .black pl :: .left gk gv .red gr :: p)
  | p => plug n p

/-- Go `insertCase4`: an inner-child focus is rotated outward (rotation at the
parent), the focus moving down to its former parent; then `insertCase5`.
With fewer than two ancestors the Go code dereferences a nil grandparent
(unreachable, as for `insertCase5`); the model falls through to
`insertCase5` which leaves the tree unchanged. -/
def insertCase4 (n : RBNode α β) : Path α β → RBNode α β
  | .right pk pv pc pl :: .left gk gv gc gr :: p =>
      match n with
      | .node nk nv nc nl nr =>
          insertCase5 (.node pk pv pc pl nl)
            (.left nk nv nc nr :: .left gk gv gc gr :: p)
      | .nil => insertCase5 .nil (.right pk pv pc pl :: .left gk gv gc gr :: p)
  | .left pk pv pc pr :: .right gk gv gc gl :: p =>
      match n with
      | .node nk nv nc nl nr =>
          insertCase5 (.node pk pv pc nr pr)
            (.right nk nv nc nl :: .right gk gv gc gl :: p)
      | .nil => insertCase5 .nil (.left pk pv pc pr :: .right gk gv gc gl :: p)
  | p => insertCase5 n p

mutual

/-- Go `insertCase1`: at the root the node is painted black, otherwise
`insertCase2`. -/
def insertCase1 : RBNode α β → Path α β → RBNode α β
  | n, [] => n.paint .black
  | n, e :: rest => insertCase2 n (e :: rest)
termination_by n p => 3 * p.length + 2

/-- Go `insertCase2`: nothing to do below a black parent. -/
def insertCase2 : RBNode α β → Path α β → RBNode α β
  | n, e :: rest =>
      if e.color = .black then plug n (e :: rest) else insertCase3 n (e :: rest)
  | n, [] => plug n []
termination_by n p => 3 * p.length + 1

/-- Go `insertCase3`: a red uncle is repainted black together with the parent,
the grandparent becomes red and the fix-up restarts there; otherwise
`insertCase4`.  A red parent with no grandparent would make the Go code
dereference nil inside `insertCase4` (unreachable: the root is black); the
model returns the tree unchanged. -/
def insertCase3 : RBNode α β → Path α β → RBNode α β
  | n, e1 :: e2 :: tail =>
      if nodeColor e2.sib = .red then
        insertCase1
          (plugStep (plugStep n (e1.setColor .black))
            ((e2.setColor .red).setSib (e2.sib.paint .black)))
          tail
      else insertCase4 n (e1 :: e2 :: tail)
  | n, p => plug n p
termination_by n p => 3 * p.length

end

/-- The descent loop of `Put` on a nonempty subtree: either the key is
found and overwritten in place (`updated`, carrying the rebuilt tree), or a
red leaf is created at the first nil link met (`inserted`, carrying the
context of the new leaf). -/
inductive PutResult (α β : Type) where
  | updated (t : RBNode α β)
  | inserted (p : Path α β)

/-- The `for loop` of `Put`: descend by comparator, overwrite in place on
an equal key (the Go code re-assigns both `node.Key` and `node.Value`),
otherwise insert at the first nil child.  Calling it on `nil` cannot happen
in `Put` (the empty root is handled separately); the model inserts at the
hole. -/
def putLoop (k : α) (v : β) : RBNode α β → Path α β → PutResult α β
  | .nil, p => .inserted p
  | .node nk nv c l r, p =>
      if cmp k nk = 0 then .updated (plug (.node k v c l r) p)
      else if cmp k nk < 0 then
        match l with
        | .nil => .inserted (.left nk nv c r :: p)
        | .node lk lv lc ll lr => putLoop k v (.node lk lv lc ll lr) (.left nk nv c r :: p)
      else
        match r with
        | .nil => .inserted (.right nk nv c l :: p)
        | .node rk rv rc rl rr => putLoop k v (.node rk rv rc rl rr) (.right nk nv c l :: p)

/-- Go `Tree.Put`: empty tree gets a red root which `insertCase1` immediately
paints black; otherwise descend, and either overwrite in place (size
unchanged) or attach a red leaf and run the fix-up (size incremented). -/
def Tree.Put (t : Tree α β) (k : α) (v : β) : Tree α β :=
  match t.root with
  | .nil => ⟨insertCase1 (.node k v .red .nil .nil) [], t.size + 1⟩
  | .node nk nv c l r =>
      match putLoop k v (.node nk nv c l r) [] with
      | .updated t2 => ⟨t2, t.size⟩
      | .inserted p => ⟨insertCase1 (.node k v .red .nil .nil) p, t.size + 1⟩

/-! ## Lookup-style queries -/

/-- Go `Tree.lookup`, additionally recording the context of the found node
(the Go code reaches the same information through `Parent` pointers). -/
def lookupZip (k : α) : RBNode α β → Path α β → Option (RBNode α β × Path α β)
  | .nil, _ => none
  | .node nk nv c l r, p =>
      if cmp k nk = 0 then some (.node nk nv c l r, p)
      else if cmp k nk < 0 then lookupZip k l (.left nk nv c r :: p)
      else lookupZip k r (.right nk nv c l :: p)

/-- Go `Tree.Get`: the value at the key, `none` when the key is absent (Go
returns a zero value together with `found = false`). -/
def Tree.Get (t : Tree α β) (k : α) : Option β :=
  (lookupZip k t.root []).bind fun x => x.1.valueQ

/-- Go `Node.maximumNode`, recording the context of the maximum (descend right
to the last non-nil node). -/
def maximumNode : RBNode α β → Path α β → RBNode α β × Path α β
  | .nil, p => (.nil, p)
  | .node k v c l .nil, p => (.node k v c l .nil, p)
  | .node k v c l (.node rk rv rc rl rr), p =>
      maximumNode (.node rk rv rc rl rr) (.right k v c l :: p)

/-- Go `Tree.Floor` descent loop with the best `≤ k` candidate seen so far. -/
def floorLoop (k : α) : RBNode α β → Option (RBNode α β) → Option (RBNode α β)
  | .nil, cand => cand
  | .node nk nv c l r, cand =>
      if cmp k nk = 0 then some (.node nk nv c l r)
      else if cmp k nk < 0 then floorLoop k l cand
      else floorLoop k r (some (.node nk nv c l r))

/-- Go `Tree.Floor`: the node with the largest key `≤ k`, `none` when no floor
exists (Go returns `(nil, false)`). -/
def Tree.Floor (t : Tree α β) (k : α) : Option (RBNode α β) :=
  floorLoop k t.root none

/-- Go `Tree.Ceiling` descent loop with the best `≥ k` candidate seen so far. -/
def ceilingLoop (k : α) : RBNode α β → Option (RBNode α β) → Option (RBNode α β)
  | .nil, cand => cand
  | .node nk nv c l r, cand =>
      if cmp k nk = 0 then some (.node nk nv c l r)
      else if cmp k nk < 0 then ceilingLoop k l (some (.node nk nv c l r))
      else ceilingLoop k r cand

/-- Go `Tree.Ceiling`: the node with the smallest key `≥ k`, `none` when no
ceiling exists. -/
def Tree.Ceiling (t : Tree α β) (k : α) : Option (RBNode α β) :=
  ceilingLoop k t.root none

/-- Go `Tree.Left`: the left-most (minimum) node, `nil` on the empty tree. -/
def Tree.LeftNode (t : Tree α β) : RBNode α β :=
  go t.root
where
  /-- the `for current != nil` loop keeping the previous node -/
  go : RBNode α β → RBNode α β
  | .nil => .nil
  | .node k v c .nil r => .node k v c .nil r
  | .node _ _ _ (.node lk lv lc ll lr) _ => go (.node lk lv lc ll lr)

/-- Go `Tree.Right`: the right-most (maximum) node, `nil` on the empty tree. -/
def Tree.RightNode (t : Tree α β) : RBNode α β :=
  go t.root
where
  go : RBNode α β → RBNode α β
  | .nil => .nil
  | .node k v c l .nil => .node k v c l .nil
  | .node _ _ _ _ (.node rk rv rc rl rr) => go (.node rk rv rc rl rr)

/-- Go `Tree.Clear`: drop the root, reset the size. -/
def Tree.Clear (_t : Tree α β) : Tree α β := ⟨.nil, 0⟩

/-- Go `Tree.Empty`. -/
def Tree.Empty (t : Tree α β) : Bool := t.size = 0

/-! ## Remove and the deletion fix-up

`deleteCase4`–`deleteCase6` are non-recursive; `deleteCase1`–`deleteCase3`
form the recursive loop (`deleteCase3` restarts `deleteCase1` at the
parent).  The fix-up runs while the doomed node is still linked; no case
reads the focused node itself, only its ancestors and their off-path
subtrees, so each function takes the context of the focus and returns the
focus's new context within the rebuilt tree (the focused subtree itself is
unchanged).  `Remove` afterwards replaces the focus by its only child. -/

/-- Go `deleteCase6`: the sibling takes the parent's color, the parent becomes
black, and when the sibling's distal child is red it is painted black and
the parent is rotated toward the focus.  On a left focus with a black
right-nephew and red left-nephew, the Go code rotates the parent right —
lifting the focus itself, a state this context-only representation cannot
express and the algorithm never reaches (`deleteCase5` has already oriented
the red nephew outward); the model keeps the recoloring and skips that
rotation.  A nil sibling or missing parent would be a nil dereference in Go
(unreachable); the model returns the context unchanged. -/
def deleteCase6 (p : Path α β) : Path α β :=
  match p with
  | .left pk pv pc s :: tail =>
      match s with
      | .node sk sv _ sl sr =>
          if nodeColor sr = .red then
            .left pk pv .black sl :: .left sk sv pc (sr.paint .black) :: tail
          else if nodeColor sl = .red then
            .left pk pv .black (.node sk sv pc (sl.paint .black) sr) :: tail
          else
            .left pk pv .black (.node sk sv pc sl sr) :: tail
      | .nil => p
  | .right pk pv pc s :: tail =>
      match s with
      | .node sk sv _ sl sr =>
          if nodeColor sl = .red then
            .right pk pv .black sr :: .right sk sv pc (sl.paint .black) :: tail
          else
            .right pk pv .black (.node sk sv pc sl sr) :: tail
      | .nil => p
  | [] => p

/-- Go `deleteCase5`: a black sibling whose red child faces the focus (and
whose other child is black) is rotated away so that the red child faces
outward, then `deleteCase6`.  A missing parent would be a nil dereference
in Go (unreachable). -/
def deleteCase5 (p : Path α β) : Path α β :=
  match p with
  | .left pk pv pc s :: tail =>
      if nodeColor s = .black ∧ nodeColor s.left = .red ∧ nodeColor s.right = .black then
        match s with
        | .node sk sv _ (.node slk slv _ sll slr) sr =>
            deleteCase6 (.left pk pv pc
              (.node slk slv .black sll (.node sk sv .red slr sr)) :: tail)
        | _ => deleteCase6 (.left pk pv pc s :: tail)
      else deleteCase6 (.left pk pv pc s :: tail)
  | .right pk pv pc s :: tail =>
      if nodeColor s = .black ∧ nodeColor s.right = .red ∧ nodeColor s.left = .black then
        match s with
        | .node sk sv _ sl (.node srk srv _ srl srr) =>
            deleteCase6 (.right pk pv pc
              (.node srk srv .black (.node sk sv .red sl srl) srr) :: tail)
        | _ => deleteCase6 (.right pk pv pc s :: tail)
      else deleteCase6 (.right pk pv pc s :: tail)
  | [] => deleteCase6 []

/-- Go `deleteCase4`: red parent, black sibling with two black children — swap
those two colors and stop.  Otherwise `deleteCase5`. -/
def deleteCase4 (p : Path α β) : Path α β :=
  match p with
  | e :: tail =>
      if e.color = .red ∧ nodeColor e.sib = .black ∧
          nodeColor e.sib.left = .black ∧ nodeColor e.sib.right = .black then
        (e.setColor .black).setSib (e.sib.paint .red) :: tail
      else deleteCase5 p
  | [] => deleteCase5 p

/-- Termination measure of the deletion fix-up loop: a `deleteCase2`
rotation lengthens the context by one entry but always leaves a red
innermost entry, after which `deleteCase3` cannot recurse (its guard wants
a black parent), so red-headed contexts weigh nothing. -/
def delMeasure : Path α β → Nat
  | [] => 0
  | e :: tail => if e.color = .red then 0 else 3 * tail.length + 3

omit [LinearOrder α] in
theorem delMeasure_le (p : Path α β) : delMeasure p ≤ 3 * p.length := by
  cases p with
  | nil => simp [delMeasure]
  | cons e tail =>
      simp only [delMeasure, List.length_cons]
      split <;> omega

omit [LinearOrder α] in
theorem delMeasure_cons_black {e : PathEntry α β} {t : Path α β}
    (hb : e.color = .black) : delMeasure t + 2 < delMeasure (e :: t) := by
  have hle := delMeasure_le t
  have hc : delMeasure (e :: t) = 3 * t.length + 3 := by
    simp only [delMeasure, hb, reduceCtorEq, if_false]
  omega

mutual

/-- Go `deleteCase1`: done at the root, otherwise `deleteCase2`. -/
def deleteCase1 : RBNode α β → Path α β → Path α β
  | _, [] => []
  | n, e :: rest => deleteCase2 n (e :: rest)
termination_by n p => delMeasure p + 2
decreasing_by omega

/-- Go `deleteCase2`: a red sibling is rotated up (parent red, sibling black),
then `deleteCase3`. -/
def deleteCase2 : RBNode α β → Path α β → Path α β
  | n, .left pk pv _ (.node sk sv .red sl sr) :: tail =>
      deleteCase3 n (.left pk pv .red sl :: .left sk sv .black sr :: tail)
  | n, .right pk pv _ (.node sk sv .red sl sr) :: tail =>
      deleteCase3 n (.right pk pv .red sr :: .right sk sv .black sl :: tail)
  | n, p => deleteCase3 n p
termination_by n p => delMeasure p + 1
decreasing_by
  all_goals simp [delMeasure, PathEntry.color]

/-- Go `deleteCase3`: black parent, black sibling with two black children —
repaint the sibling red and push the deficit to the parent, restarting
`deleteCase1` one level up.  Otherwise `deleteCase4`.  A nil sibling would
make the Go code dereference nil (unreachable: the sibling of a node of
positive black height is never nil). -/
def deleteCase3 : RBNode α β → Path α β → Path α β
  | n, e :: tail =>
      if h : e.color = .black ∧ nodeColor e.sib = .black ∧
          nodeColor e.sib.left = .black ∧ nodeColor e.sib.right = .black then
        e.setSib (e.sib.paint .red) ::
          deleteCase1 (plugStep n (e.setSib (e.sib.paint .red))) tail
      else deleteCase4 (e :: tail)
  | _, [] => deleteCase4 []
termination_by n p => delMeasure p
decreasing_by
  exact delMeasure_cons_black h.1

end

/-- The two-children step of Go `Tree.Remove`: when the located node has
two children, its key and value are overwritten with those of the
predecessor (the maximum of its left subtree, `node.Left.maximumNode()`)
and the removal continues against that predecessor; otherwise the node
itself stays the target.  The continuation target is returned as a zipper
location (the overwritten node becomes a `.left` context entry carrying the
predecessor's key and value). -/
def removeTarget : RBNode α β → Path α β → RBNode α β × Path α β
  | .node nk nv c (.node lk lv lc ll lr) (.node rk rv rc rl rr), p =>
      (match maximumNode (.node lk lv lc ll lr) [] with
      | (.node pdk pdv pdc pdl pdr, mp) =>
          (.node pdk pdv pdc pdl pdr,
            mp ++ (.left pdk pdv c (.node rk rv rc rl rr) :: p))
      | (.nil, _) =>
          (.node nk nv c (.node lk lv lc ll lr) (.node rk rv rc rl rr), p))
  | nd, p => (nd, p)

/-- The final `replaceNode(node, child)` of Go `Tree.Remove`, plus the
root-blackening of a non-nil child that became the root (`node.Parent ==
nil && child != nil`); painting `nil` is the identity, so the nil check
needs no separate branch. -/
def removeFinish (t : Tree α β) (child : RBNode α β) : Path α β → Tree α β
  | [] => ⟨child.paint .black, t.size - 1⟩
  | e :: tail => ⟨plug child (e :: tail), t.size - 1⟩

/-- The unlink step of Go `Tree.Remove` on the continuation target: the
target has at most one child (`child`); when the target is black its color
is first set to the child's color and the deletion fix-up runs
(`deleteCase1`), returning the target's final context; then the child
replaces the target there.  The guard-false branch (both children present)
and a nil target are unreachable and leave the node graph unchanged. -/
def removeUnlink (t : Tree α β) : RBNode α β × Path α β → Tree α β
  | (.node k2 v2 c2 l2 r2, p2) =>
      if l2.isNil ∨ r2.isNil then
        removeFinish t (if r2.isNil then l2 else r2)
          (if c2 = .black then
            deleteCase1 ((RBNode.node k2 v2 c2 l2 r2).paint
              (nodeColor (if r2.isNil then l2 else r2))) p2
          else p2)
      else ⟨plug (.node k2 v2 c2 l2 r2) p2, t.size - 1⟩
  | (.nil, _) => ⟨t.root, t.size - 1⟩

/-- Go `Tree.Remove`: locate the node (no-op when absent); when it has two
children copy the predecessor's key and value into it and unlink the
predecessor instead; run the deletion fix-up when the unlinked node is
black, replace it by its only child, and repaint a non-nil child black when
it became the root.  Decrements `size` whenever the key was found. -/
def Tree.Remove (t : Tree α β) (k : α) : Tree α β :=
  match lookupZip k t.root [] with
  | none => t
  | some (nd, p) => removeUnlink t (removeTarget nd p)

/-! ## Views and invariants

The in-order listing of the node graph, the reachable-node count, and the
invariants named by the specification: BST ordering, root-blackness, no red
node with a red child, and black-height uniformity. -/

/-- In-order listing of the key/value pairs of a subtree. -/
def inorder : RBNode α β → List (α × β)
  | .nil => []
  | .node k v _ l r => inorder l ++ (k, v) :: inorder r

/-- Keys in in-order. -/
def keyList (n : RBNode α β) : List α := (inorder n).map Prod.fst

/-- Number of nodes reachable from a subtree root. -/
def count : RBNode α β → Nat
  | .nil => 0
  | .node _ _ _ l r => count l + count r + 1

/-- Lower-bound constraint of a bounded BST (no bound when `none`). -/
def lbelow : Option α → α → Prop
  | none, _ => True
  | some a, k => a < k

/-- Upper-bound constraint of a bounded BST (no bound when `none`). -/
def habove : Option α → α → Prop
  | none, _ => True
  | some b, k => k < b

instance (o : Option α) (k : α) : Decidable (lbelow o k) :=
  match o with
  | none => .isTrue trivial
  | some a => decidable_of_iff (a < k) Iff.rfl

instance (o : Option α) (k : α) : Decidable (habove o k) :=
  match o with
  | none => .isTrue trivial
  | some b => decidable_of_iff (k < b) Iff.rfl

/-- Bounded binary-search-tree ordering: every key in a left subtree
compares less than its ancestor key, every key in a right subtree greater
(spec invariant 1). -/
def bsted (lo hi : Option α) : RBNode α β → Prop
  | .nil => True
  | .node k _ _ l r => lbelow lo k ∧ habove hi k ∧ bsted lo (some k) l ∧ bsted (some k) hi r

instance bstedDec (lo hi : Option α) : (n : RBNode α β) → Decidable (bsted lo hi n)
  | .nil => .isTrue trivial
  | .node k v c l r =>
      have : Decidable (bsted lo (some k) l) := bstedDec lo (some k) l
      have : Decidable (bsted (some k) hi r) := bstedDec (some k) hi r
      decidable_of_iff
        (lbelow lo k ∧ habove hi k ∧ bsted lo (some k) l ∧ bsted (some k) hi r)
        (by simp [bsted])

/-- Unbounded BST ordering of a subtree. -/
def BST (n : RBNode α β) : Prop := bsted none none n

instance (n : RBNode α β) : Decidable (BST n) := bstedDec none none n

/-- No red node has a red child (spec invariant 3, middle clause). -/
def ok : RBNode α β → Prop
  | .nil => True
  | .node _ _ c l r =>
      (c = .red → nodeColor l = .black ∧ nodeColor r = .black) ∧ ok l ∧ ok r

instance okDec : (n : RBNode α β) → Decidable (ok n)
  | .nil => .isTrue trivial
  | .node k v c l r =>
      have : Decidable (ok l) := okDec l
      have : Decidable (ok r) := okDec r
      decidable_of_iff
        ((c = .red → nodeColor l = .black ∧ nodeColor r = .black) ∧ ok l ∧ ok r)
        (by simp [ok])

/-- Black height along the left spine (the number of black nodes down to
the leftmost null reference). -/
def bh : RBNode α β → Nat
  | .nil => 0
  | .node _ _ c l _ => bh l + (if c = .black then 1 else 0)

/-- Black-height uniformity: every path from any node to a descendant null
reference passes through the same number of black nodes (spec invariant 3,
last clause). -/
def balanced : RBNode α β → Prop
  | .nil => True
  | .node _ _ _ l r => bh l = bh r ∧ balanced l ∧ balanced r

instance balancedDec : (n : RBNode α β) → Decidable (balanced n)
  | .nil => .isTrue trivial
  | .node k v c l r =>
      have : Decidable (balanced l) := balancedDec l
      have : Decidable (balanced r) := balancedDec r
      decidable_of_iff (bh l = bh r ∧ balanced l ∧ balanced r) (by simp [balanced])

/-- Size bookkeeping and BST ordering (spec invariants 1, 2 and 4). -/
def Tree.WF (t : Tree α β) : Prop :=
  BST t.root ∧ t.size = (count t.root : Int)

instance (t : Tree α β) : Decidable t.WF := by unfold Tree.WF; infer_instance

/-- All structural invariants of the specification: BST ordering, size
bookkeeping, black root, no red-red edge, uniform black height. -/
def Tree.RB (t : Tree α β) : Prop :=
  t.WF ∧ nodeColor t.root = .black ∧ ok t.root ∧ balanced t.root

instance (t : Tree α β) : Decidable t.RB := by unfold Tree.RB; infer_instance

/-! ## Iterator

The Go iterator stores a tree pointer, a node pointer and a position
(`begin`, `between`, `end`).  The node pointer is a zipper location here;
the `Parent`-pointer walks of `Next`/`Prev` pop context entries. -/

/-- Iterator positions; `ending` is Go `end` (one-past-the-last). -/
inductive IterPos where
  | begin
  | between
  | ending
deriving DecidableEq, Repr

/-- Go `Iterator[T, P]`: the tree, the current node (a zipper location;
`none` at the sentinels) and the position. -/
structure Iterator (α β : Type) where
  tree : Tree α β
  node : Option (RBNode α β × Path α β)
  position : IterPos

/-- Go `tree.Iterator()`: a fresh iterator one before the first element
(lower-case here so the method name does not shadow the type). -/
def Tree.iterator (t : Tree α β) : Iterator α β := ⟨t, none, .begin⟩

/-- Go `tree.IteratorAt(node)`: an iterator already positioned at a node. -/
def Tree.iteratorAt (t : Tree α β) (loc : RBNode α β × Path α β) : Iterator α β :=
  ⟨t, some loc, .between⟩

/-- Descend to the leftmost node of a subtree, extending the context: the
loop of Go `tree.Left()` and of the right-subtree branch of `Next`. Only a
nil subtree yields `none`. -/
def leftmostZip : RBNode α β → Path α β → Option (RBNode α β × Path α β)
  | .nil, _ => none
  | .node k v c .nil r, p => some (.node k v c .nil r, p)
  | .node k v c (.node lk lv lc ll lr) r, p =>
      leftmostZip (.node lk lv lc ll lr) (.left k v c r :: p)

/-- Descend to the rightmost node of a subtree: the loop of Go
`tree.Right()` and of the left-subtree branch of `Prev`. -/
def rightmostZip : RBNode α β → Path α β → Option (RBNode α β × Path α β)
  | .nil, _ => none
  | .node k v c l .nil, p => some (.node k v c l .nil, p)
  | .node k v c l (.node rk rv rc rl rr), p =>
      rightmostZip (.node rk rv rc rl rr) (.right k v c l :: p)

/-- The parent-walk of `Next`: climb while the saved key `k0` compares
greater than the ancestor's key, stopping at the first ancestor with
`Comparator(k0, ancestor.Key) <= 0`; `none` when the walk runs out of
ancestors (the iterator is exhausted). -/
def ascendNext (k0 : α) : RBNode α β → Path α β → Option (RBNode α β × Path α β)
  | _, [] => none
  | m, e :: p =>
      if cmp k0 e.key ≤ 0 then some (plugStep m e, p)
      else ascendNext k0 (plugStep m e) p

/-- The parent-walk of `Prev`: climb to the first ancestor with
`Comparator(k0, ancestor.Key) >= 0`. -/
def ascendPrev (k0 : α) : RBNode α β → Path α β → Option (RBNode α β × Path α β)
  | _, [] => none
  | m, e :: p =>
      if 0 ≤ cmp k0 e.key then some (plugStep m e, p)
      else ascendPrev k0 (plugStep m e) p

/-- Go `Iterator.Next`: from `begin` jump to the minimum; from a node with
a right child descend to that subtree's minimum; otherwise climb to the
first ancestor reached from its left side; exhaust to `end` when none
exists.  A `between` iterator with no node would be a nil dereference in
Go (unreachable); the model exhausts. -/
def Iterator.next (it : Iterator α β) : Bool × Iterator α β :=
  match it.position with
  | .ending => (false, ⟨it.tree, none, .ending⟩)
  | .begin =>
      match leftmostZip it.tree.root [] with
      | none => (false, ⟨it.tree, none, .ending⟩)
      | some loc => (true, ⟨it.tree, some loc, .between⟩)
  | .between =>
      match it.node with
      | some (.node k v c l (.node rk rv rc rl rr), p) =>
          match leftmostZip (.node rk rv rc rl rr) (.right k v c l :: p) with
          | some loc => (true, ⟨it.tree, some loc, .between⟩)
          | none => (false, ⟨it.tree, none, .ending⟩)
      | some (.node k v c l .nil, p) =>
          match ascendNext k (.node k v c l .nil) p with
          | some loc => (true, ⟨it.tree, some loc, .between⟩)
          | none => (false, ⟨it.tree, none, .ending⟩)
      | some (.nil, _) => (false, ⟨it.tree, none, .ending⟩)
      | none => (false, ⟨it.tree, none, .ending⟩)

/-- Go `Iterator.Prev`: the mirror of `next`. -/
def Iterator.prev (it : Iterator α β) : Bool × Iterator α β :=
  match it.position with
  | .begin => (false, ⟨it.tree, none, .begin⟩)
  | .ending =>
      match rightmostZip it.tree.root [] with
      | none => (false, ⟨it.tree, none, .begin⟩)
      | some loc => (true, ⟨it.tree, some loc, .between⟩)
  | .between =>
      match it.node with
      | some (.node k v c (.node lk lv lc ll lr) r, p) =>
          match rightmostZip (.node lk lv lc ll lr) (.left k v c r :: p) with
          | some loc => (true, ⟨it.tree, some loc, .between⟩)
          | none => (false, ⟨it.tree, none, .begin⟩)
      | some (.node k v c .nil r, p) =>
          match ascendPrev k (.node k v c .nil r) p with
          | some loc => (true, ⟨it.tree, some loc, .between⟩)
          | none => (false, ⟨it.tree, none, .begin⟩)
      | some (.nil, _) => (false, ⟨it.tree, none, .begin⟩)
      | none => (false, ⟨it.tree, none, .begin⟩)

/-- Go `Iterator.Key`: the current node's key; at a sentinel position the
Go code dereferences nil (a documented caller error), modelled by `none`. -/
def Iterator.key (it : Iterator α β) : Option α :=
  it.node.bind fun loc => loc.1.keyQ

/-- Go `Iterator.Value`: the current node's value, `none` at sentinels. -/
def Iterator.value (it : Iterator α β) : Option β :=
  it.node.bind fun loc => loc.1.valueQ

/-- Go `Iterator.Begin`: reset to one-before-first. -/
def Iterator.reset (it : Iterator α β) : Iterator α β := ⟨it.tree, none, .begin⟩

/-- Go `Iterator.End`: move past the last element. -/
def Iterator.resetEnd (it : Iterator α β) : Iterator α β := ⟨it.tree, none, .ending⟩

/-- Go `Iterator.First`: `Begin()` then `Next()`. -/
def Iterator.first (it : Iterator α β) : Bool × Iterator α β := it.reset.next

/-- Go `Iterator.Last`: `End()` then `Prev()`. -/
def Iterator.last (it : Iterator α β) : Bool × Iterator α β := it.resetEnd.prev

/-- The collection loop of Go `Tree.Keys`: repeatedly `Next`, reading the
key each time.  The fuel is the array length `tree.size`; in Go an
iteration beyond it would panic on the array write (unreachable in a
well-formed tree), here it is cut off. -/
def iterKeys : Nat → Iterator α β → List α
  | 0, _ => []
  | fuel + 1, it =>
      match it.next with
      | (true, it2) =>
          match it2.key with
          | some k => k :: iterKeys fuel it2
          | none => []
      | (false, _) => []

/-- Go `Tree.Keys`: an array of length `tree.size` filled in-order by the
iterator; positions the iterator never reaches keep the zero value of the
element type (Go `make([]T, size)`), modelled by `default`. -/
def Tree.Keys [Inhabited α] (t : Tree α β) : List α :=
  let l := iterKeys t.size.toNat t.iterator
  l ++ List.replicate (t.size.toNat - l.length) default

/-! ## Operation sequences -/

/-- A mutating public operation of the tree. -/
inductive Op (α β : Type) where
  | put (k : α) (v : β)
  | remove (k : α)
  | clear

/-- Apply one operation. -/
def Tree.applyOp (t : Tree α β) : Op α β → Tree α β
  | .put k v => t.Put k v
  | .remove k => t.Remove k
  | .clear => t.Clear

/-- Run a sequence of operations from the freshly constructed empty tree. -/
def applyOps (ops : List (Op α β)) : Tree α β :=
  ops.foldl Tree.applyOp Tree.new

/-! ## The in-order view of contexts

`leftList p` and `rightList p` are the pairs a context contributes to the
left and to the right of its hole, so that the in-order listing of any
plugged tree splits as `leftList p ++ inorder n ++ rightList p`. -/

/-- Pairs contributed by a context to the left of its hole. -/
def leftList : Path α β → List (α × β)
  | [] => []
  | .left _ _ _ _ :: p => leftList p
  | .right k v _ l :: p => leftList p ++ inorder l ++ [(k, v)]

/-- Pairs contributed by a context to the right of its hole. -/
def rightList : Path α β → List (α × β)
  | [] => []
  | .left k v _ r :: p => (k, v) :: (inorder r ++ rightList p)
  | .right _ _ _ _ :: p => rightList p

omit [LinearOrder α] in
theorem inorder_paint (c : Color) (n : RBNode α β) :
    inorder (n.paint c) = inorder n := by
  cases n <;> simp [RBNode.paint, inorder]

omit [LinearOrder α] in
theorem inorder_plugStep (n : RBNode α β) (e : PathEntry α β) :
    inorder (plugStep n e) =
      match e with
      | .left k v _ r => inorder n ++ (k, v) :: inorder r
      | .right k v _ l => inorder l ++ (k, v) :: inorder n := by
  cases e <;> simp [plugStep, inorder]

omit [LinearOrder α] in
theorem plug_inorder (p : Path α β) :
    ∀ n : RBNode α β, inorder (plug n p) = leftList p ++ inorder n ++ rightList p := by
  induction p with
  | nil => intro n; simp [plug, leftList, rightList]
  | cons e p ih =>
      intro n
      cases e with
      | left k v c r =>
          simp [plug, ih, plugStep, inorder, leftList, rightList]
      | right k v c l =>
          simp [plug, ih, plugStep, inorder, leftList, rightList]

omit [LinearOrder α] in
theorem plug_append (p q : Path α β) (n : RBNode α β) :
    plug n (p ++ q) = plug (plug n p) q := by
  induction p generalizing n with
  | nil => simp [plug]
  | cons e p ih => simp [plug, ih]

omit [LinearOrder α] in
theorem leftList_append (p q : Path α β) :
    leftList (p ++ q) = leftList q ++ leftList p := by
  induction p with
  | nil => simp [leftList]
  | cons e p ih => cases e <;> simp [leftList, ih]

omit [LinearOrder α] in
theorem rightList_append (p q : Path α β) :
    rightList (p ++ q) = rightList p ++ rightList q := by
  induction p with
  | nil => simp [rightList]
  | cons e p ih => cases e <;> simp [rightList, ih]

omit [LinearOrder α] in
theorem count_eq_length_inorder (n : RBNode α β) :
    count n = (inorder n).length := by
  induction n with
  | nil => simp [count, inorder]
  | node k v c l r ihl ihr => simp [count, inorder, ihl, ihr]; omega

/-! ## The fix-ups preserve the in-order sequence -/

omit [LinearOrder α] in
theorem insertCase5_inorder (n : RBNode α β) (p : Path α β) :
    inorder (insertCase5 n p) = leftList p ++ inorder n ++ rightList p := by
  match p with
  | .left pk pv pc pr :: .left gk gv gc gr :: p =>
      simp [insertCase5, plug_inorder, leftList, rightList, inorder]
  | .right pk pv pc pl :: .right gk gv gc gl :: p =>
      simp [insertCase5, plug_inorder, leftList, rightList, inorder]
  | .left pk pv pc pr :: .right gk gv gc gl :: p =>
      simp [insertCase5, plug_inorder, leftList, rightList, inorder]
  | .right pk pv pc pl :: .left gk gv gc gr :: p =>
      simp [insertCase5, plug_inorder, leftList, rightList, inorder]
  | [] => simp [insertCase5, plug_inorder]
  | [e] => cases e <;> simp [insertCase5, plug_inorder]

omit [LinearOrder α] in
theorem insertCase4_inorder (n : RBNode α β) (p : Path α β) :
    inorder (insertCase4 n p) = leftList p ++ inorder n ++ rightList p := by
  match p with
  | .right pk pv pc pl :: .left gk gv gc gr :: p =>
      cases n with
      | nil => simp [insertCase4, insertCase5_inorder, leftList, rightList, inorder]
      | node nk nv nc nl nr =>
          simp [insertCase4, insertCase5_inorder, leftList, rightList, inorder]
  | .left pk pv pc pr :: .right gk gv gc gl :: p =>
      cases n with
      | nil => simp [insertCase4, insertCase5_inorder, leftList, rightList, inorder]
      | node nk nv nc nl nr =>
          simp [insertCase4, insertCase5_inorder, leftList, rightList, inorder]
  | .left pk pv pc pr :: .left gk gv gc gr :: p =>
      simp [insertCase4, insertCase5_inorder]
  | .right pk pv pc pl :: .right gk gv gc gr :: p =>
      simp [insertCase4, insertCase5_inorder]
  | [] => simp [insertCase4, insertCase5_inorder]
  | [e] => cases e <;> simp [insertCase4, insertCase5_inorder]

omit [LinearOrder α] in
theorem insertCase1_inorder (n : RBNode α β) (p : Path α β) :
    inorder (insertCase1 n p) = leftList p ++ inorder n ++ rightList p := by
  refine insertCase1.induct
    (fun n p => inorder (insertCase1 n p) = leftList p ++ inorder n ++ rightList p)
    (fun n p => inorder (insertCase2 n p) = leftList p ++ inorder n ++ rightList p)
    (fun n p => inorder (insertCase3 n p) = leftList p ++ inorder n ++ rightList p)
    ?_ ?_ ?_ ?_ ?_ ?_ ?_ ?_ n p
  · intro n
    simp [insertCase1, inorder_paint, leftList, rightList]
  · intro n e p ih
    rw [insertCase1]; exact ih
  · intro n e rest hb
    rw [insertCase2, if_pos hb, plug_inorder]
  · intro n e rest hb ih
    rw [insertCase2, if_neg hb]; exact ih
  · intro n
    rw [insertCase2, plug_inorder]
  · intro n e1 e2 tail hred ih
    rw [insertCase3, if_pos hred, ih]
    cases e1 <;> cases e2 <;>
      simp [plugStep, inorder, leftList, rightList, PathEntry.setColor,
        PathEntry.setSib, PathEntry.sib, inorder_paint]
  · intro n e1 e2 tail hred
    rw [insertCase3, if_neg hred]
    exact insertCase4_inorder n (e1 :: e2 :: tail)
  · intro n p hshort
    cases p with
    | nil => simp [insertCase3, plug_inorder]
    | cons e p2 =>
        cases p2 with
        | nil => simp [insertCase3, plug_inorder]
        | cons e2 t => exact absurd rfl (hshort e e2 t)

omit [LinearOrder α] in
theorem deleteCase6_lists (p : Path α β) :
    leftList (deleteCase6 p) = leftList p ∧ rightList (deleteCase6 p) = rightList p := by
  match p with
  | [] => simp [deleteCase6]
  | .left pk pv pc .nil :: tail => simp [deleteCase6]
  | .right pk pv pc .nil :: tail => simp [deleteCase6]
  | .left pk pv pc (.node sk sv sc sl sr) :: tail =>
      by_cases h1 : nodeColor sr = .red
      · simp [deleteCase6, h1, leftList, rightList, inorder, inorder_paint]
      · by_cases h2 : nodeColor sl = .red
        · simp [deleteCase6, h1, h2, leftList, rightList, inorder, inorder_paint]
        · simp [deleteCase6, h1, h2, leftList, rightList, inorder]
  | .right pk pv pc (.node sk sv sc sl sr) :: tail =>
      by_cases h1 : nodeColor sl = .red
      · simp [deleteCase6, h1, leftList, rightList, inorder, inorder_paint]
      · simp [deleteCase6, h1, leftList, rightList, inorder]

omit [LinearOrder α] in
theorem deleteCase5_lists (p : Path α β) :
    leftList (deleteCase5 p) = leftList p ∧ rightList (deleteCase5 p) = rightList p := by
  unfold deleteCase5
  repeat' split
  all_goals
    refine ⟨(deleteCase6_lists _).1.trans ?_, (deleteCase6_lists _).2.trans ?_⟩ <;>
      simp [leftList, rightList, inorder, inorder_paint]

omit [LinearOrder α] in
theorem deleteCase4_lists (p : Path α β) :
    leftList (deleteCase4 p) = leftList p ∧ rightList (deleteCase4 p) = rightList p := by
  match p with
  | [] => simpa [deleteCase4] using deleteCase5_lists ([] : Path α β)
  | e :: tail =>
      by_cases h1 : e.color = .red ∧ nodeColor e.sib = .black ∧
          nodeColor e.sib.left = .black ∧ nodeColor e.sib.right = .black
      · rw [deleteCase4, if_pos h1]
        cases e <;>
          simp [leftList, rightList, PathEntry.setColor, PathEntry.setSib,
            PathEntry.sib, inorder_paint]
      · have h5 := deleteCase5_lists (e :: tail)
        rw [deleteCase4, if_neg h1]
        exact h5

omit [LinearOrder α] in
theorem deleteCase1_lists (n : RBNode α β) (p : Path α β) :
    leftList (deleteCase1 n p) = leftList p ∧ rightList (deleteCase1 n p) = rightList p := by
  refine deleteCase1.induct
    (fun n p => leftList (deleteCase1 n p) = leftList p ∧
      rightList (deleteCase1 n p) = rightList p)
    (fun n p => leftList (deleteCase2 n p) = leftList p ∧
      rightList (deleteCase2 n p) = rightList p)
    (fun n p => leftList (deleteCase3 n p) = leftList p ∧
      rightList (deleteCase3 n p) = rightList p)
    ?_ ?_ ?_ ?_ ?_ ?_ ?_ ?_ n p
  · intro n
    simp [deleteCase1]
  · intro n e p ih
    rw [deleteCase1]; exact ih
  · intro n pk pv c sk sv sl sr tail ih
    rw [deleteCase2]
    refine ⟨ih.1.trans ?_, ih.2.trans ?_⟩ <;>
      simp [leftList, rightList, inorder]
  · intro n pk pv c sk sv sl sr tail ih
    rw [deleteCase2]
    refine ⟨ih.1.trans ?_, ih.2.trans ?_⟩ <;>
      simp [leftList, rightList, inorder]
  · intro n p hn1 hn2 ih
    have heq : deleteCase2 n p = deleteCase3 n p := by
      match p with
      | [] => simp [deleteCase2]
      | .left pk pv pc .nil :: tail => simp [deleteCase2]
      | .left pk pv pc (.node sk sv .black sl sr) :: tail => simp [deleteCase2]
      | .left pk pv pc (.node sk sv .red sl sr) :: tail =>
          exact absurd rfl (hn1 pk pv pc sk sv sl sr tail)
      | .right pk pv pc .nil :: tail => simp [deleteCase2]
      | .right pk pv pc (.node sk sv .black sl sr) :: tail => simp [deleteCase2]
      | .right pk pv pc (.node sk sv .red sl sr) :: tail =>
          exact absurd rfl (hn2 pk pv pc sk sv sl sr tail)
    rw [heq]; exact ih
  · intro n e rest h ih
    simp only [deleteCase3.eq_def]
    rw [dif_pos h]
    cases e with
    | left k v c r =>
        simp only [PathEntry.setSib, PathEntry.sib] at ih ⊢
        refine ⟨ih.1.trans ?_, ?_⟩
        · simp [leftList]
        · simp [leftList, rightList, ih.2, inorder_paint]
    | right k v c l =>
        simp only [PathEntry.setSib, PathEntry.sib] at ih ⊢
        refine ⟨?_, ih.2.trans ?_⟩
        · simp [leftList, rightList, ih.1, inorder_paint]
        · simp [rightList]
  · intro n e rest h
    simp only [deleteCase3.eq_def]
    rw [dif_neg h]
    exact deleteCase4_lists (e :: rest)
  · intro n
    simpa [deleteCase3.eq_def] using deleteCase4_lists ([] : Path α β)

/-! ## Comparator facts -/

theorem cmp_eq_zero_iff {a b : α} : cmp a b = 0 ↔ a = b := by
  unfold cmp
  rcases lt_trichotomy a b with h | h | h
  · simp [h, ne_of_lt h]
  · simp [h, lt_irrefl]
  · simp [not_lt_of_gt h, h, (ne_of_lt h).symm]

theorem cmp_neg_iff {a b : α} : cmp a b < 0 ↔ a < b := by
  unfold cmp
  rcases lt_trichotomy a b with h | h | h
  · simp [h]
  · simp [h, lt_irrefl]
  · simp [not_lt_of_gt h, h]

theorem cmp_pos_iff {a b : α} : 0 < cmp a b ↔ b < a := by
  unfold cmp
  rcases lt_trichotomy a b with h | h | h
  · simp [h, not_lt_of_gt h]
  · simp [h, lt_irrefl]
  · simp [not_lt_of_gt h, h]

theorem cmp_nonpos_iff {a b : α} : cmp a b ≤ 0 ↔ a ≤ b := by
  rcases lt_trichotomy a b with h | h | h
  · simp [le_of_lt h, le_of_lt (cmp_neg_iff.2 h)]
  · simp [h, cmp_eq_zero_iff.2 rfl]
  · have := cmp_pos_iff.2 h
    constructor
    · intro hc; omega
    · intro hc; exact absurd hc (not_le_of_gt h)

theorem cmp_nonneg_iff {a b : α} : 0 ≤ cmp a b ↔ b ≤ a := by
  rcases lt_trichotomy b a with h | h | h
  · simp [le_of_lt h, le_of_lt (cmp_pos_iff.2 h)]
  · simp [h, cmp_eq_zero_iff.2 rfl]
  · have := cmp_neg_iff.2 h
    constructor
    · intro hc; omega
    · intro hc; exact absurd hc (not_le_of_gt h)

/-! ## Sortedness and the bounded-BST predicate -/

theorem lbelow_trans {lo : Option α} {k x : α} (h1 : lbelow lo k) (h2 : k < x) :
    lbelow lo x := by
  cases lo with
  | none => trivial
  | some a => exact lt_trans h1 h2

theorem habove_trans {hi : Option α} {k x : α} (h1 : x < k) (h2 : habove hi k) :
    habove hi x := by
  cases hi with
  | none => trivial
  | some b => exact lt_trans h1 h2

/-- Strictly increasing keys of a pair list. -/
def pairsSorted (l : List (α × β)) : Prop :=
  l.Pairwise (fun x y => x.1 < y.1)

instance (l : List (α × β)) : Decidable (pairsSorted l) := by
  unfold pairsSorted; infer_instance

theorem bsted_iff (n : RBNode α β) : ∀ (lo hi : Option α),
    bsted lo hi n ↔
      pairsSorted (inorder n) ∧ ∀ x ∈ inorder n, lbelow lo x.1 ∧ habove hi x.1 := by
  induction n with
  | nil => intro lo hi; simp [bsted, inorder, pairsSorted]
  | node k v c l r ihl ihr =>
      intro lo hi
      rw [show bsted lo hi (.node k v c l r) =
        (lbelow lo k ∧ habove hi k ∧ bsted lo (some k) l ∧ bsted (some k) hi r) from rfl]
      rw [ihl, ihr]
      simp only [inorder, pairsSorted, List.pairwise_append, List.pairwise_cons,
        List.mem_append, List.mem_cons]
      constructor
      · rintro ⟨hlo, hhi, ⟨hsl, hbl⟩, hsr, hbr⟩
        have hlk : ∀ x ∈ inorder l, x.1 < k := fun x hx => (hbl x hx).2
        have hrk : ∀ x ∈ inorder r, k < x.1 := fun x hx => (hbr x hx).1
        refine ⟨⟨hsl, ⟨fun y hy => hrk y hy, hsr⟩, ?_⟩, ?_⟩
        · rintro x hx y (rfl | hy)
          · exact hlk x hx
          · exact lt_trans (hlk x hx) (hrk y hy)
        · rintro x (hx | rfl | hx)
          · exact ⟨(hbl x hx).1, habove_trans (hbl x hx).2 hhi⟩
          · exact ⟨hlo, hhi⟩
          · exact ⟨lbelow_trans hlo (hbr x hx).1, (hbr x hx).2⟩
      · rintro ⟨⟨hsl, ⟨hk, hsr⟩, hcross⟩, hb⟩
        have hmem : (k, v) ∈ inorder l ∨ (k, v) = (k, v) ∨ (k, v) ∈ inorder r :=
          Or.inr (Or.inl rfl)
        obtain ⟨hlo, hhi⟩ := hb (k, v) hmem
        refine ⟨hlo, hhi, ⟨hsl, ?_⟩, hsr, ?_⟩
        · intro x hx
          exact ⟨(hb x (Or.inl hx)).1, hcross x hx (k, v) (Or.inl rfl)⟩
        · intro x hx
          exact ⟨hk x hx, (hb x (Or.inr (Or.inr hx))).2⟩

/-- Unbounded version: BST ordering is exactly sortedness of the in-order
listing. -/
theorem BST_iff_sorted (n : RBNode α β) : BST n ↔ pairsSorted (inorder n) := by
  unfold BST
  rw [bsted_iff]
  simp [lbelow, habove]

/-! ## Insertion and removal on sorted association lists

The specification-level effect of `Put` and `Remove` on the in-order
listing. -/

/-- Sorted-insert-or-replace on an association list. -/
def insList (k : α) (v : β) : List (α × β) → List (α × β)
  | [] => [(k, v)]
  | (a, b) :: t =>
      if k < a then (k, v) :: (a, b) :: t
      else if k = a then (k, v) :: t
      else (a, b) :: insList k v t

/-- Remove the first pair with the given key from an association list. -/
def delList (k : α) : List (α × β) → List (α × β)
  | [] => []
  | (a, b) :: t => if k = a then t else (a, b) :: delList k t

/-- Association-list lookup. -/
def alookup (k : α) : List (α × β) → Option β
  | [] => none
  | (a, b) :: t => if k = a then some b else alookup k t

theorem insList_append_of_lt {k : α} {v : β} (X : List (α × β))
    (hX : ∀ x ∈ X, x.1 < k) (Y : List (α × β)) :
    insList k v (X ++ Y) = X ++ insList k v Y := by
  induction X with
  | nil => simp
  | cons x X ih =>
      obtain ⟨a, b⟩ := x
      have ha : a < k := hX (a, b) (List.mem_cons_self _ _)
      simp only [List.cons_append, insList, if_neg (not_lt_of_gt ha),
        if_neg (ne_of_gt ha)]
      exact congrArg _ (ih (fun y hy => hX y (List.mem_cons_of_mem _ hy)))

theorem insList_append_cons_of_gt {k nk : α} {v nv : β} (X : List (α × β))
    (h : k < nk) (Y : List (α × β)) :
    insList k v (X ++ (nk, nv) :: Y) = insList k v X ++ (nk, nv) :: Y := by
  induction X with
  | nil => simp [insList, h]
  | cons x X ih =>
      obtain ⟨a, b⟩ := x
      simp only [List.cons_append, insList]
      by_cases h1 : k < a
      · simp [h1]
      · by_cases h2 : k = a
        · simp [h1, h2]
        · simp [h1, h2, ih]

theorem insList_replace {k : α} {v nv : β} (X : List (α × β))
    (hX : ∀ x ∈ X, x.1 < k) (Y : List (α × β)) :
    insList k v (X ++ (k, nv) :: Y) = X ++ (k, v) :: Y := by
  rw [insList_append_of_lt X hX]
  simp [insList, lt_irrefl]

theorem delList_append {k : α} (X : List (α × β))
    (hX : ∀ x ∈ X, x.1 ≠ k) (Y : List (α × β)) :
    delList k (X ++ Y) = X ++ delList k Y := by
  induction X with
  | nil => simp
  | cons x X ih =>
      obtain ⟨a, b⟩ := x
      have ha : a ≠ k := hX (a, b) (List.mem_cons_self _ _)
      simp only [List.cons_append, delList, if_neg (Ne.symm ha)]
      exact congrArg _ (ih (fun y hy => hX y (List.mem_cons_of_mem _ hy)))

theorem delList_cons {k : α} {v : β} (Y : List (α × β)) :
    delList k ((k, v) :: Y) = Y := by
  simp [delList]

theorem delList_of_not_mem {k : α} (l : List (α × β))
    (h : k ∉ l.map Prod.fst) : delList k l = l := by
  induction l with
  | nil => simp [delList]
  | cons x t ih =>
      obtain ⟨a, b⟩ := x
      simp only [List.map_cons, List.mem_cons] at h
      push_neg at h
      simp [delList, h.1, ih h.2]

theorem alookup_append {k : α} (X : List (α × β))
    (hX : ∀ x ∈ X, x.1 ≠ k) (Y : List (α × β)) :
    alookup k (X ++ Y) = alookup k Y := by
  induction X with
  | nil => simp
  | cons x X ih =>
      obtain ⟨a, b⟩ := x
      have ha : a ≠ k := hX (a, b) (List.mem_cons_self _ _)
      simp only [List.cons_append, alookup, if_neg (Ne.symm ha)]
      exact ih (fun y hy => hX y (List.mem_cons_of_mem _ hy))

theorem length_insList_mem {k : α} {v : β} (l : List (α × β))
    (hs : pairsSorted l) (hm : k ∈ l.map Prod.fst) :
    (insList k v l).length = l.length := by
  induction l with
  | nil => simp at hm
  | cons x t ih =>
      obtain ⟨a, b⟩ := x
      simp only [List.map_cons, List.mem_cons] at hm
      rw [pairsSorted, List.pairwise_cons] at hs
      rcases hm with rfl | hm
      · simp [insList, lt_irrefl]
      · have ha : a < k := by
          obtain ⟨y, hy, hy2⟩ := List.mem_map.1 hm
          have := hs.1 y hy
          rw [hy2] at this
          exact this
        simp only [insList, if_neg (not_lt_of_gt ha), if_neg (ne_of_gt ha),
          List.length_cons]
        rw [ih hs.2 hm]

theorem length_insList_not_mem {k : α} {v : β} (l : List (α × β))
    (hm : k ∉ l.map Prod.fst) :
    (insList k v l).length = l.length + 1 := by
  induction l with
  | nil => simp [insList]
  | cons x t ih =>
      obtain ⟨a, b⟩ := x
      simp only [List.map_cons, List.mem_cons] at hm
      push_neg at hm
      by_cases h1 : k < a
      · simp [insList, h1]
      · simp only [insList, if_neg h1, if_neg hm.1, List.length_cons]
        rw [ih hm.2]

theorem mem_map_fst_insList {k x : α} {v : β} (l : List (α × β)) :
    x ∈ (insList k v l).map Prod.fst ↔ x = k ∨ x ∈ l.map Prod.fst := by
  induction l with
  | nil => simp [insList]
  | cons y t ih =>
      obtain ⟨a, b⟩ := y
      by_cases h1 : k < a
      · simp [insList, h1]
      · by_cases h2 : k = a
        · subst h2
          simp [insList, h1]
        · simp only [insList, if_neg h1, if_neg h2, List.map_cons, List.mem_cons, ih]
          tauto

theorem pairsSorted_insList {k : α} {v : β} (l : List (α × β))
    (hs : pairsSorted l) : pairsSorted (insList k v l) := by
  induction l with
  | nil => simp [insList, pairsSorted]
  | cons y t ih =>
      obtain ⟨a, b⟩ := y
      rw [pairsSorted, List.pairwise_cons] at hs
      by_cases h1 : k < a
      · rw [pairsSorted, insList, if_pos h1, List.pairwise_cons]
        refine ⟨?_, List.Pairwise.cons hs.1 hs.2⟩
        intro y hy
        cases hy with
        | head => exact h1
        | tail _ hy => exact lt_trans h1 (hs.1 y hy)
      · by_cases h2 : k = a
        · subst h2
          rw [pairsSorted, insList, if_neg h1, if_pos rfl, List.pairwise_cons]
          exact ⟨hs.1, hs.2⟩
        · have ha : a < k := lt_of_le_of_ne (not_lt.1 h1) (Ne.symm h2)
          rw [pairsSorted, insList, if_neg h1, if_neg h2, List.pairwise_cons]
          refine ⟨?_, ih hs.2⟩
          intro y hy
          have : y.1 = k ∨ y.1 ∈ t.map Prod.fst :=
            (mem_map_fst_insList t).1 (List.mem_map_of_mem Prod.fst hy)
          rcases this with h | h
          · rw [h]; exact ha
          · obtain ⟨z, hz, hz2⟩ := List.mem_map.1 h
            rw [show y.1 = z.1 from hz2.symm]
            exact hs.1 z hz

theorem alookup_insList_self {k : α} {v : β} (l : List (α × β)) :
    alookup k (insList k v l) = some v := by
  induction l with
  | nil => simp [insList, alookup]
  | cons y t ih =>
      obtain ⟨a, b⟩ := y
      by_cases h1 : k < a
      · simp [insList, h1, alookup]
      · by_cases h2 : k = a
        · simp [insList, h1, h2, alookup]
        · simp [insList, h1, h2, alookup, ih]

theorem alookup_insList_ne {k k2 : α} {v : β} (l : List (α × β))
    (hne : k2 ≠ k) : alookup k2 (insList k v l) = alookup k2 l := by
  induction l with
  | nil => simp [insList, alookup, hne]
  | cons y t ih =>
      obtain ⟨a, b⟩ := y
      by_cases h1 : k < a
      · simp only [insList, if_pos h1, alookup, if_neg hne]
      · by_cases h2 : k = a
        · subst h2
          simp [insList, h1, alookup, hne]
        · simp [insList, h1, h2, alookup, ih]

theorem alookup_eq_none_iff {k : α} (l : List (α × β)) :
    alookup k l = none ↔ k ∉ l.map Prod.fst := by
  induction l with
  | nil => simp [alookup]
  | cons y t ih =>
      obtain ⟨a, b⟩ := y
      by_cases h : k = a
      · simp [alookup, h]
      · simp [alookup, h, ih]

theorem length_delList_mem {k : α} (l : List (α × β))
    (hm : k ∈ l.map Prod.fst) :
    (delList k l).length = l.length - 1 := by
  induction l with
  | nil => simp at hm
  | cons y t ih =>
      obtain ⟨a, b⟩ := y
      by_cases h : k = a
      · simp [delList, h]
      · simp only [List.map_cons, List.mem_cons] at hm
        rcases hm with rfl | hm
        · exact absurd rfl h
        · have ht : t ≠ [] := by
            rintro rfl; simp at hm
          have : 1 ≤ t.length := List.length_pos.2 ht
          simp only [delList, if_neg h, List.length_cons]
          rw [ih hm]
          omega

theorem mem_map_fst_delList_imp {k x : α} (l : List (α × β)) :
    x ∈ (delList k l).map Prod.fst → x ∈ l.map Prod.fst := by
  induction l with
  | nil => simp [delList]
  | cons y t ih =>
      obtain ⟨a, b⟩ := y
      by_cases h : k = a
      · simp only [delList, if_pos h, List.map_cons, List.mem_cons]
        intro hx; exact Or.inr hx
      · simp only [delList, if_neg h, List.map_cons, List.mem_cons]
        rintro (rfl | hx)
        · exact Or.inl rfl
        · exact Or.inr (ih hx)

theorem mem_delList_imp {k : α} {y : α × β} (l : List (α × β)) :
    y ∈ delList k l → y ∈ l := by
  induction l with
  | nil => simp [delList]
  | cons x t ih =>
      obtain ⟨a, b⟩ := x
      by_cases h : k = a
      · simp only [delList, if_pos h, List.mem_cons]
        intro hy; exact Or.inr hy
      · simp only [delList, if_neg h, List.mem_cons]
        rintro (rfl | hy)
        · exact Or.inl rfl
        · exact Or.inr (ih hy)

theorem pairsSorted_delList {k : α} (l : List (α × β))
    (hs : pairsSorted l) : pairsSorted (delList k l) := by
  induction l with
  | nil => simp [delList, pairsSorted]
  | cons y t ih =>
      obtain ⟨a, b⟩ := y
      rw [pairsSorted, List.pairwise_cons] at hs
      by_cases h : k = a
      · rw [delList, if_pos h]; exact hs.2
      · rw [pairsSorted, delList, if_neg h, List.pairwise_cons]
        exact ⟨fun y hy => hs.1 y (mem_delList_imp t hy), ih hs.2⟩

theorem alookup_delList_ne {k k2 : α} (l : List (α × β))
    (hne : k2 ≠ k) : alookup k2 (delList k l) = alookup k2 l := by
  induction l with
  | nil => simp [delList]
  | cons y t ih =>
      obtain ⟨a, b⟩ := y
      by_cases h : k = a
      · subst h
        simp [delList, alookup, hne]
      · simp [delList, h, alookup, ih]

/-! ## The effect of Put on the in-order listing -/

theorem keys_lt_of_bsted_left {lo : Option α} {nk : α} {l : RBNode α β}
    (hl : bsted lo (some nk) l) : ∀ x ∈ inorder l, x.1 < nk :=
  fun x hx => (((bsted_iff l lo (some nk)).1 hl).2 x hx).2

theorem keys_gt_of_bsted_right {hi : Option α} {nk : α} {r : RBNode α β}
    (hr : bsted (some nk) hi r) : ∀ x ∈ inorder r, nk < x.1 :=
  fun x hx => (((bsted_iff r (some nk) hi).1 hr).2 x hx).1

theorem putLoop_node (k : α) (v : β) (nk : α) (nv : β) (c : Color)
    (l r : RBNode α β) (p : Path α β) :
    putLoop k v (.node nk nv c l r) p =
      if cmp k nk = 0 then .updated (plug (.node k v c l r) p)
      else if cmp k nk < 0 then
        match l with
        | .nil => .inserted (.left nk nv c r :: p)
        | .node lk lv lc ll lr =>
            putLoop k v (.node lk lv lc ll lr) (.left nk nv c r :: p)
      else
        match r with
        | .nil => .inserted (.right nk nv c l :: p)
        | .node rk rv rc rl rr =>
            putLoop k v (.node rk rv rc rl rr) (.right nk nv c l :: p) := by
  rw [putLoop.eq_def]

/-- In-order listing of a `putLoop` outcome. -/
def PutResult.list (k : α) (v : β) : PutResult α β → List (α × β)
  | .updated t => inorder t
  | .inserted p => leftList p ++ (k, v) :: rightList p

/-- Whether a `putLoop` outcome overwrote an existing key. -/
def PutResult.isUpd : PutResult α β → Bool
  | .updated _ => true
  | .inserted _ => false

theorem putLoop_spec (k : α) (v : β) :
    ∀ (n : RBNode α β) (lo hi : Option α) (p : Path α β), bsted lo hi n →
      (putLoop k v n p).list k v =
          leftList p ++ insList k v (inorder n) ++ rightList p ∧
        ((putLoop k v n p).isUpd = true ↔ k ∈ (inorder n).map Prod.fst) := by
  intro n
  induction n with
  | nil =>
      intro lo hi p hb
      simp [putLoop, PutResult.list, PutResult.isUpd, inorder, insList]
  | node nk nv c l r ihl ihr =>
      intro lo hi p hb
      obtain ⟨hlo, hhi, hbl, hbr⟩ := hb
      have hkl : ∀ x ∈ inorder l, x.1 < nk := keys_lt_of_bsted_left hbl
      have hkr : ∀ x ∈ inorder r, nk < x.1 := keys_gt_of_bsted_right hbr
      by_cases h0 : cmp k nk = 0
      · have hk : k = nk := cmp_eq_zero_iff.1 h0
        subst hk
        rw [putLoop_node, if_pos h0]
        constructor
        · rw [PutResult.list, plug_inorder, inorder, inorder,
            insList_replace (inorder l) hkl (inorder r)]
        · simp [PutResult.isUpd, inorder]
      · by_cases h1 : cmp k nk < 0
        · have hk : k < nk := cmp_neg_iff.1 h1
          have hkmem : k ∉ (inorder r).map Prod.fst := by
            intro hm
            obtain ⟨x, hx, hx2⟩ := List.mem_map.1 hm
            exact absurd (hx2 ▸ hkr x hx) (not_lt_of_gt hk)
          rw [putLoop_node, if_neg h0, if_pos h1]
          cases l with
          | nil =>
              constructor
              · simp [PutResult.list, leftList, rightList, inorder,
                  insList, hk]
              · simp only [PutResult.isUpd, inorder, List.map_append,
                  List.map_cons, List.mem_append, List.mem_cons]
                simp [ne_of_lt hk, fun h => hkmem h, inorder]
          | node lk lv lc ll lr =>
              obtain ⟨ih1, ih2⟩ := ihl lo (some nk) (.left nk nv c r :: p) hbl
              constructor
              · rw [ih1]
                rw [show inorder (RBNode.node nk nv c (.node lk lv lc ll lr) r) =
                  inorder (RBNode.node lk lv lc ll lr) ++ (nk, nv) :: inorder r
                  from rfl]
                rw [insList_append_cons_of_gt _ hk]
                simp [leftList, rightList]
              · rw [ih2]
                simp only [inorder, List.map_append, List.map_cons,
                  List.mem_append, List.mem_cons]
                constructor
                · intro hm; exact Or.inl hm
                · rintro (hm | rfl | hm)
                  · exact hm
                  · exact absurd rfl (ne_of_lt hk)
                  · exact absurd hm hkmem
        · have hk : nk < k := by
            have := cmp_pos_iff.1 (by omega : 0 < cmp k nk)
            exact this
          have hkmem : k ∉ (inorder l).map Prod.fst := by
            intro hm
            obtain ⟨x, hx, hx2⟩ := List.mem_map.1 hm
            exact absurd (hx2 ▸ hkl x hx) (not_lt_of_gt hk)
          have hXlt : ∀ x ∈ inorder l ++ [(nk, nv)], x.1 < k := by
            intro x hx
            rcases List.mem_append.1 hx with hx | hx
            · exact lt_trans (hkl x hx) hk
            · rw [List.mem_singleton.1 hx]; exact hk
          rw [putLoop_node, if_neg h0, if_neg h1]
          cases r with
          | nil =>
              constructor
              · rw [PutResult.list]
                rw [show inorder (RBNode.node nk nv c l .nil) =
                  (inorder l ++ [(nk, nv)]) ++ [] from by simp [inorder]]
                rw [insList_append_of_lt _ hXlt]
                simp [leftList, rightList, insList]
              · simp only [PutResult.isUpd, inorder, List.map_append,
                  List.map_cons, List.mem_append, List.mem_cons]
                simp [Ne.symm (ne_of_lt hk), fun h => hkmem h, inorder]
          | node rk rv rc rl rr =>
              obtain ⟨ih1, ih2⟩ := ihr (some nk) hi (.right nk nv c l :: p) hbr
              constructor
              · rw [ih1]
                rw [show inorder (RBNode.node nk nv c l (.node rk rv rc rl rr)) =
                  (inorder l ++ [(nk, nv)]) ++ inorder (RBNode.node rk rv rc rl rr)
                  from by simp [inorder]]
                rw [insList_append_of_lt _ hXlt]
                simp [leftList, rightList]
              · rw [ih2]
                simp only [inorder, List.map_append, List.map_cons,
                  List.mem_append, List.mem_cons]
                constructor
                · intro hm; exact Or.inr (Or.inr hm)
                · rintro (hm | rfl | hm)
                  · exact absurd hm hkmem
                  · exact absurd rfl (Ne.symm (ne_of_lt hk))
                  · exact hm

theorem Put_inorder (t : Tree α β) (k : α) (v : β) (h : BST t.root) :
    inorder (t.Put k v).root = insList k v (inorder t.root) := by
  unfold Tree.Put
  match hr : t.root with
  | .nil => simp [insertCase1_inorder, leftList, rightList, inorder, insList]
  | .node nk nv c l r =>
      rw [hr] at h
      obtain ⟨h1, h2⟩ := putLoop_spec k v (.node nk nv c l r) none none [] h
      match hput : putLoop k v (.node nk nv c l r) [] with
      | .updated t2 =>
          rw [hput] at h1
          simp only [PutResult.list, leftList, rightList, List.append_nil,
            List.nil_append] at h1
          simp only [hput]
          exact h1
      | .inserted p =>
          rw [hput] at h1
          simp only [PutResult.list, leftList, rightList, List.append_nil,
            List.nil_append] at h1
          simp only [hput]
          rw [insertCase1_inorder]
          simpa [inorder] using h1

theorem Put_size (t : Tree α β) (k : α) (v : β) (h : BST t.root) :
    (t.Put k v).size =
      t.size + (if k ∈ (inorder t.root).map Prod.fst then 0 else 1) := by
  unfold Tree.Put
  match hr : t.root with
  | .nil => simp [inorder]
  | .node nk nv c l r =>
      rw [hr] at h
      obtain ⟨h1, h2⟩ := putLoop_spec k v (.node nk nv c l r) none none [] h
      match hput : putLoop k v (.node nk nv c l r) [] with
      | .updated t2 =>
          rw [hput] at h2
          simp only [PutResult.isUpd] at h2
          rw [if_pos (h2.1 trivial)]
          simp only [hput]
          simp
      | .inserted p =>
          rw [hput] at h2
          simp only [PutResult.isUpd] at h2
          have hnm : k ∉ (inorder (RBNode.node nk nv c l r)).map Prod.fst := by
            intro hm
            have := h2.2 hm
            simp at this
          rw [if_neg hnm]
          simp only [hput]

/-! ## The effect of Remove on the in-order listing -/

theorem lookupZip_spec (k : α) :
    ∀ (n : RBNode α β) (lo hi : Option α) (p : Path α β), bsted lo hi n →
      (lookupZip k n p = none → k ∉ (inorder n).map Prod.fst) ∧
      (∀ (m : RBNode α β) (q : Path α β), lookupZip k n p = some (m, q) →
        ∃ (v : β) (c : Color) (l r : RBNode α β) (L0 R0 : List (α × β)),
          m = .node k v c l r ∧
          leftList q = leftList p ++ L0 ∧
          rightList q = R0 ++ rightList p ∧
          inorder n = L0 ++ (inorder l ++ (k, v) :: inorder r) ++ R0 ∧
          (∀ x ∈ L0 ++ inorder l, x.1 < k) ∧
          (∀ x ∈ inorder r ++ R0, k < x.1)) := by
  intro n
  induction n with
  | nil =>
      intro lo hi p hb
      constructor
      · intro _; simp [inorder]
      · intro m q hm; simp [lookupZip] at hm
  | node nk nv c l r ihl ihr =>
      intro lo hi p hb
      obtain ⟨hlo, hhi, hbl, hbr⟩ := hb
      have hkl : ∀ x ∈ inorder l, x.1 < nk := keys_lt_of_bsted_left hbl
      have hkr : ∀ x ∈ inorder r, nk < x.1 := keys_gt_of_bsted_right hbr
      by_cases h0 : cmp k nk = 0
      · have hk : k = nk := cmp_eq_zero_iff.1 h0
        subst hk
        rw [show lookupZip k (.node k nv c l r) p = some (.node k nv c l r, p) from by
          rw [lookupZip]; simp [h0]]
        constructor
        · intro hcon; exact absurd hcon (by simp)
        · intro m q hm
          rw [Option.some.injEq, Prod.mk.injEq] at hm
          obtain ⟨hm1, hm2⟩ := hm
          subst hm1
          subst hm2
          refine ⟨nv, c, l, r, [], [], rfl, by simp, by simp, by simp [inorder], ?_, ?_⟩
          · intro x hx; simp at hx; exact hkl x hx
          · intro x hx; simp at hx; exact hkr x hx
      · by_cases h1 : cmp k nk < 0
        · have hk : k < nk := cmp_neg_iff.1 h1
          rw [show lookupZip k (.node nk nv c l r) p =
            lookupZip k l (.left nk nv c r :: p) from by
            rw [lookupZip]; simp [h0, h1]]
          obtain ⟨ih1, ih2⟩ := ihl lo (some nk) (.left nk nv c r :: p) hbl
          constructor
          · intro hn
            have hml := ih1 hn
            simp only [inorder, List.map_append, List.map_cons, List.mem_append,
              List.mem_cons]
            rintro (hm | rfl | hm)
            · exact hml hm
            · exact absurd rfl (ne_of_lt hk)
            · obtain ⟨x, hx, hx2⟩ := List.mem_map.1 hm
              exact absurd (hx2 ▸ hkr x hx) (not_lt_of_gt hk)
          · intro m q hm
            obtain ⟨v, c2, l2, r2, L0, R0, hmeq, hLq, hRq, hio, hL, hR⟩ := ih2 m q hm
            refine ⟨v, c2, l2, r2, L0, R0 ++ (nk, nv) :: inorder r, hmeq, ?_, ?_, ?_, hL, ?_⟩
            · rw [hLq]; simp [leftList]
            · rw [hRq]; simp [rightList]
            · rw [show inorder (RBNode.node nk nv c l r) =
                inorder l ++ (nk, nv) :: inorder r from rfl, hio]
              simp
            · intro x hx
              simp only [List.mem_append, List.mem_cons] at hx
              rcases hx with hx | hx | rfl | hx
              · exact hR x (List.mem_append.2 (Or.inl hx))
              · exact hR x (List.mem_append.2 (Or.inr hx))
              · exact hk
              · exact lt_trans hk (hkr x hx)
        · have hk : nk < k := cmp_pos_iff.1 (by omega : 0 < cmp k nk)
          rw [show lookupZip k (.node nk nv c l r) p =
            lookupZip k r (.right nk nv c l :: p) from by
            rw [lookupZip]; simp [h0, h1]]
          obtain ⟨ih1, ih2⟩ := ihr (some nk) hi (.right nk nv c l :: p) hbr
          constructor
          · intro hn
            have hmr := ih1 hn
            simp only [inorder, List.map_append, List.map_cons, List.mem_append,
              List.mem_cons]
            rintro (hm | rfl | hm)
            · obtain ⟨x, hx, hx2⟩ := List.mem_map.1 hm
              exact absurd (hx2 ▸ hkl x hx) (not_lt_of_gt hk)
            · exact absurd rfl (Ne.symm (ne_of_lt hk))
            · exact hmr hm
          · intro m q hm
            obtain ⟨v, c2, l2, r2, L0, R0, hmeq, hLq, hRq, hio, hL, hR⟩ := ih2 m q hm
            refine ⟨v, c2, l2, r2, inorder l ++ (nk, nv) :: L0, R0, hmeq, ?_, ?_, ?_, ?_, hR⟩
            · rw [hLq]; simp [leftList]
            · rw [hRq]; simp [rightList]
            · rw [show inorder (RBNode.node nk nv c l r) =
                inorder l ++ (nk, nv) :: inorder r from rfl, hio]
              simp
            · intro x hx
              simp only [List.mem_append, List.mem_cons] at hx
              rcases hx with (hx | rfl | hx) | hx
              · exact lt_trans (hkl x hx) hk
              · exact hk
              · exact hL x (List.mem_append.2 (Or.inl hx))
              · exact hL x (List.mem_append.2 (Or.inr hx))

theorem lookupZip_mem_of_some {k : α} {n m : RBNode α β} {q : Path α β}
    {lo hi : Option α} {p : Path α β} (hb : bsted lo hi n)
    (hm : lookupZip k n p = some (m, q)) :
    k ∈ (inorder n).map Prod.fst := by
  obtain ⟨v, c, l, r, L0, R0, _, _, _, hio, _, _⟩ :=
    (lookupZip_spec k n lo hi p hb).2 m q hm
  rw [hio]
  simp

omit [LinearOrder α] in
theorem maximumNode_spec :
    ∀ (n : RBNode α β) (p : Path α β), n ≠ .nil →
      ∃ (mk2 : α) (mv2 : β) (mc2 : Color) (ml2 : RBNode α β) (mp : Path α β)
        (L1 : List (α × β)),
        maximumNode n p = (.node mk2 mv2 mc2 ml2 .nil, mp) ∧
        leftList mp = leftList p ++ L1 ∧
        rightList mp = rightList p ∧
        inorder n = L1 ++ (inorder ml2 ++ [(mk2, mv2)]) := by
  intro n
  induction n with
  | nil => intro p h; exact absurd rfl h
  | node k v c l r ihl ihr =>
      intro p _
      cases r with
      | nil =>
          exact ⟨k, v, c, l, p, [], by rw [maximumNode], by simp, rfl,
            by simp [inorder]⟩
      | node rk rv rc rl rr =>
          obtain ⟨mk2, mv2, mc2, ml2, mp, L1, heq, hL, hR, hio⟩ :=
            ihr (.right k v c l :: p) (by simp)
          refine ⟨mk2, mv2, mc2, ml2, mp, inorder l ++ (k, v) :: L1,
            by rw [maximumNode]; exact heq, ?_, ?_, ?_⟩
          · rw [hL]; simp [leftList]
          · rw [hR]; simp [rightList]
          · rw [show inorder (RBNode.node k v c l (.node rk rv rc rl rr)) =
              inorder l ++ (k, v) :: inorder (RBNode.node rk rv rc rl rr) from rfl, hio]
            simp

theorem lookupZip_none_of_not_mem {k : α} {t : Tree α β} (h : BST t.root)
    (hm : k ∉ (inorder t.root).map Prod.fst) :
    lookupZip k t.root [] = none := by
  cases hl : lookupZip k t.root [] with
  | none => rfl
  | some x =>
      obtain ⟨m, q⟩ := x
      exact absurd (lookupZip_mem_of_some h hl) hm

theorem Remove_of_not_mem (t : Tree α β) (k : α) (h : BST t.root)
    (hm : k ∉ (inorder t.root).map Prod.fst) : t.Remove k = t := by
  unfold Tree.Remove
  rw [lookupZip_none_of_not_mem h hm]

omit [LinearOrder α] in
theorem removeFinish_inorder (t : Tree α β) (child : RBNode α β) (q : Path α β) :
    inorder (removeFinish t child q).root =
      leftList q ++ inorder child ++ rightList q := by
  cases q with
  | nil => simp [removeFinish, inorder_paint, leftList, rightList]
  | cons e tail => simp [removeFinish, plug_inorder]

omit [LinearOrder α] in
theorem removeFinish_size (t : Tree α β) (child : RBNode α β) (q : Path α β) :
    (removeFinish t child q).size = t.size - 1 := by
  cases q <;> rfl

omit [LinearOrder α] in
theorem removeUnlink_spec (t : Tree α β) (k2 : α) (v2 : β) (c2 : Color)
    (l2 r2 : RBNode α β) (p2 : Path α β) (h : l2 = .nil ∨ r2 = .nil) :
    inorder (removeUnlink t (.node k2 v2 c2 l2 r2, p2)).root =
      leftList p2 ++ (inorder l2 ++ inorder r2) ++ rightList p2 ∧
    (removeUnlink t (.node k2 v2 c2 l2 r2, p2)).size = t.size - 1 := by
  have hguard : l2.isNil = true ∨ r2.isNil = true := by
    rcases h with rfl | rfl
    · exact Or.inl rfl
    · exact Or.inr rfl
  have hchild : inorder (if r2.isNil then l2 else r2) = inorder l2 ++ inorder r2 := by
    rcases h with rfl | rfl
    · cases r2 <;> simp [RBNode.isNil, inorder]
    · simp [RBNode.isNil, inorder]
  rw [removeUnlink, if_pos hguard]
  refine ⟨?_, removeFinish_size t _ _⟩
  rw [removeFinish_inorder, hchild]
  by_cases hc : c2 = .black
  · rw [if_pos hc, (deleteCase1_lists _ _).1, (deleteCase1_lists _ _).2]
  · rw [if_neg hc]

omit [LinearOrder α] in
theorem removeTarget_two (nk : α) (nv : β) (c : Color) (lk : α) (lv : β)
    (lc : Color) (ll lr : RBNode α β) (rk : α) (rv : β) (rc : Color)
    (rl rr : RBNode α β) (p : Path α β) :
    ∃ (pdk : α) (pdv : β) (pdc : Color) (pdl : RBNode α β) (mp : Path α β)
      (L1 : List (α × β)),
      removeTarget (.node nk nv c (.node lk lv lc ll lr) (.node rk rv rc rl rr)) p =
        (.node pdk pdv pdc pdl .nil,
          mp ++ (.left pdk pdv c (.node rk rv rc rl rr) :: p)) ∧
      leftList mp = L1 ∧ rightList mp = [] ∧
      inorder (RBNode.node lk lv lc ll lr) = L1 ++ (inorder pdl ++ [(pdk, pdv)]) := by
  obtain ⟨pdk, pdv, pdc, pdl, mp, L1, hmax, hL, hR, hio⟩ :=
    maximumNode_spec (.node lk lv lc ll lr) [] (by simp)
  refine ⟨pdk, pdv, pdc, pdl, mp, L1, ?_,
    by simpa [leftList] using hL, by simpa [rightList] using hR, hio⟩
  rw [removeTarget, hmax]

omit [LinearOrder α] in
theorem removeTarget_nilL (nk : α) (nv : β) (c : Color) (r : RBNode α β)
    (p : Path α β) :
    removeTarget (.node nk nv c .nil r) p = (.node nk nv c .nil r, p) := by
  cases r <;> simp [removeTarget]

omit [LinearOrder α] in
theorem removeTarget_nilR (nk : α) (nv : β) (c : Color) (l : RBNode α β)
    (p : Path α β) :
    removeTarget (.node nk nv c l .nil) p = (.node nk nv c l .nil, p) := by
  cases l <;> simp [removeTarget]

theorem Remove_found (t : Tree α β) (k : α) (nd : RBNode α β) (p : Path α β)
    (hl : lookupZip k t.root [] = some (nd, p)) :
    t.Remove k = removeUnlink t (removeTarget nd p) := by
  unfold Tree.Remove
  rw [hl]

theorem Remove_spec (t : Tree α β) (k : α) (h : BST t.root) :
    inorder (t.Remove k).root = delList k (inorder t.root) ∧
    (t.Remove k).size =
      t.size - (if k ∈ (inorder t.root).map Prod.fst then 1 else 0) := by
  have hspec := lookupZip_spec k t.root none none [] h
  cases hl : lookupZip k t.root [] with
  | none =>
      have hnm := hspec.1 hl
      rw [delList_of_not_mem _ hnm, if_neg hnm]
      have hrm : t.Remove k = t := by unfold Tree.Remove; rw [hl]
      rw [hrm]
      exact ⟨rfl, by omega⟩
  | some x =>
      obtain ⟨nd, p⟩ := x
      obtain ⟨v, c, l, r, L0, R0, hnd, hLq, hRq, hio, hLlt, hRgt⟩ := hspec.2 nd p hl
      subst hnd
      have hmem : k ∈ (inorder t.root).map Prod.fst := lookupZip_mem_of_some h hl
      rw [if_pos hmem, Remove_found t k _ p hl]
      have hLp : leftList p = L0 := by simpa [leftList] using hLq
      have hRp : rightList p = R0 := by simpa [rightList] using hRq
      have hdel : delList k (inorder t.root) =
          L0 ++ inorder l ++ (inorder r ++ R0) := by
        rw [hio]
        rw [show L0 ++ (inorder l ++ (k, v) :: inorder r) ++ R0 =
          (L0 ++ inorder l) ++ ((k, v) :: (inorder r ++ R0)) from by simp]
        rw [delList_append _ (fun x hx => ne_of_lt (hLlt x hx)), delList_cons]
      rw [hdel]
      cases l with
      | node lk lv lc ll lr =>
          cases r with
          | node rk rv rc rl rr =>
              obtain ⟨pdk, pdv, pdc, pdl, mp, L1, htarget, hLmp, hRmp, hiol⟩ :=
                removeTarget_two k v c lk lv lc ll lr rk rv rc rl rr p
              rw [htarget]
              obtain ⟨hin, hsz⟩ := removeUnlink_spec t pdk pdv pdc pdl .nil
                (mp ++ (.left pdk pdv c (.node rk rv rc rl rr) :: p)) (Or.inr rfl)
              refine ⟨?_, hsz⟩
              rw [hin, leftList_append, rightList_append, hLmp, hRmp, hiol]
              simp only [leftList, rightList, hLp, hRp, inorder]
              simp
          | nil =>
              rw [removeTarget_nilR]
              obtain ⟨hin, hsz⟩ := removeUnlink_spec t k v c
                (.node lk lv lc ll lr) .nil p (Or.inr rfl)
              refine ⟨?_, hsz⟩
              rw [hin, hLp, hRp]
              simp [inorder]
      | nil =>
          rw [removeTarget_nilL]
          obtain ⟨hin, hsz⟩ := removeUnlink_spec t k v c .nil r p (Or.inl rfl)
          refine ⟨?_, hsz⟩
          rw [hin, hLp, hRp]
          simp [inorder]

/-! ## Preservation of well-formedness -/

theorem BST_Put (t : Tree α β) (k : α) (v : β) (h : BST t.root) :
    BST (t.Put k v).root := by
  rw [BST_iff_sorted, Put_inorder t k v h]
  exact pairsSorted_insList _ ((BST_iff_sorted _).1 h)

theorem BST_Remove (t : Tree α β) (k : α) (h : BST t.root) :
    BST (t.Remove k).root := by
  rw [BST_iff_sorted, (Remove_spec t k h).1]
  exact pairsSorted_delList _ ((BST_iff_sorted _).1 h)

theorem WF_new : (Tree.new : Tree α β).WF := by
  constructor
  · exact trivial
  · rfl

theorem WF_Put (t : Tree α β) (k : α) (v : β) (h : t.WF) : (t.Put k v).WF := by
  obtain ⟨hb, hs⟩ := h
  refine ⟨BST_Put t k v hb, ?_⟩
  rw [Put_size t k v hb, count_eq_length_inorder, Put_inorder t k v hb]
  by_cases hm : k ∈ (inorder t.root).map Prod.fst
  · rw [if_pos hm, length_insList_mem _ ((BST_iff_sorted _).1 hb) hm, hs,
      count_eq_length_inorder]
    omega
  · rw [if_neg hm, length_insList_not_mem _ hm, hs, count_eq_length_inorder]
    push_cast
    omega

theorem WF_Remove (t : Tree α β) (k : α) (h : t.WF) : (t.Remove k).WF := by
  obtain ⟨hb, hs⟩ := h
  refine ⟨BST_Remove t k hb, ?_⟩
  obtain ⟨h1, h2⟩ := Remove_spec t k hb
  rw [h2, count_eq_length_inorder, h1]
  by_cases hm : k ∈ (inorder t.root).map Prod.fst
  · have hlen := length_delList_mem _ hm
    have hpos : 1 ≤ (inorder t.root).length := by
      cases hi : inorder t.root with
      | nil => rw [hi] at hm; simp at hm
      | cons a l => simp [hi]
    rw [if_pos hm, hlen, hs, count_eq_length_inorder]
    push_cast
    omega
  · rw [if_neg hm, delList_of_not_mem _ hm, hs, count_eq_length_inorder]
    omega

theorem WF_Clear (t : Tree α β) : t.Clear.WF := WF_new

theorem WF_applyOp (t : Tree α β) (op : Op α β) (h : t.WF) : (t.applyOp op).WF := by
  cases op with
  | put k v => exact WF_Put t k v h
  | remove k => exact WF_Remove t k h
  | clear => exact WF_Clear t

theorem WF_foldl (ops : List (Op α β)) :
    ∀ t : Tree α β, t.WF → (ops.foldl Tree.applyOp t).WF := by
  induction ops with
  | nil => intro t h; exact h
  | cons op ops ih => intro t h; exact ih _ (WF_applyOp t op h)

theorem WF_applyOps (ops : List (Op α β)) : (applyOps ops).WF :=
  WF_foldl ops Tree.new WF_new

/-! ## Get as association-list lookup -/

theorem Get_eq_alookup (t : Tree α β) (k : α) (h : BST t.root) :
    t.Get k = alookup k (inorder t.root) := by
  have hspec := lookupZip_spec k t.root none none [] h
  unfold Tree.Get
  cases hl : lookupZip k t.root [] with
  | none =>
      have hnm := hspec.1 hl
      rw [(alookup_eq_none_iff _).2 hnm]
      rfl
  | some x =>
      obtain ⟨nd, q⟩ := x
      obtain ⟨v, c, l, r, L0, R0, hnd, _, _, hio, hLlt, _⟩ := hspec.2 nd q hl
      subst hnd
      rw [hio]
      rw [show L0 ++ (inorder l ++ (k, v) :: inorder r) ++ R0 =
        (L0 ++ inorder l) ++ ((k, v) :: (inorder r ++ R0)) from by simp]
      rw [alookup_append _ (fun x hx => ne_of_lt (hLlt x hx))]
      simp [alookup, RBNode.valueQ]

/-! ## Overwrite-in-place characterization (for claim C5) -/

/-- Overwrite-in-place along the search path: the tree shape, colors and
links are untouched; only the matched node's key and value fields are
re-assigned (the key to a comparator-equal key), exactly what the
specification promises `Put` does for an existing key. -/
def updateInPlace (k : α) (v : β) : RBNode α β → RBNode α β
  | .nil => .nil
  | .node nk nv c l r =>
      if cmp k nk = 0 then .node k v c l r
      else if cmp k nk < 0 then .node nk nv c (updateInPlace k v l) r
      else .node nk nv c l (updateInPlace k v r)

theorem putLoop_mem_updated (k : α) (v : β) :
    ∀ (n : RBNode α β) (lo hi : Option α) (p : Path α β), bsted lo hi n →
      k ∈ (inorder n).map Prod.fst →
      putLoop k v n p = .updated (plug (updateInPlace k v n) p) := by
  intro n
  induction n with
  | nil => intro lo hi p _ hm; simp [inorder] at hm
  | node nk nv c l r ihl ihr =>
      intro lo hi p hb hm
      obtain ⟨hlo, hhi, hbl, hbr⟩ := hb
      have hkl : ∀ x ∈ inorder l, x.1 < nk := keys_lt_of_bsted_left hbl
      have hkr : ∀ x ∈ inorder r, nk < x.1 := keys_gt_of_bsted_right hbr
      by_cases h0 : cmp k nk = 0
      · rw [putLoop_node, if_pos h0, updateInPlace, if_pos h0]
      · by_cases h1 : cmp k nk < 0
        · have hk : k < nk := cmp_neg_iff.1 h1
          have hml : k ∈ (inorder l).map Prod.fst := by
            simp only [inorder, List.map_append, List.map_cons, List.mem_append,
              List.mem_cons] at hm
            rcases hm with hm | rfl | hm
            · exact hm
            · exact absurd rfl (ne_of_lt hk)
            · obtain ⟨x, hx, hx2⟩ := List.mem_map.1 hm
              exact absurd (hx2 ▸ hkr x hx) (not_lt_of_gt hk)
          cases l with
          | nil => simp [inorder] at hml
          | node lk lv lc ll lr =>
              rw [putLoop_node, if_neg h0, if_pos h1]
              show putLoop k v (.node lk lv lc ll lr) (.left nk nv c r :: p) =
                PutResult.updated (plug (updateInPlace k v
                  (.node nk nv c (.node lk lv lc ll lr) r)) p)
              rw [show updateInPlace k v (.node nk nv c (.node lk lv lc ll lr) r) =
                    .node nk nv c (updateInPlace k v (.node lk lv lc ll lr)) r from by
                  rw [updateInPlace, if_neg h0, if_pos h1]]
              rw [ihl lo (some nk) (.left nk nv c r :: p) hbl hml]
              rfl
        · have hk : nk < k := cmp_pos_iff.1 (by omega : 0 < cmp k nk)
          have hmr : k ∈ (inorder r).map Prod.fst := by
            simp only [inorder, List.map_append, List.map_cons, List.mem_append,
              List.mem_cons] at hm
            rcases hm with hm | rfl | hm
            · obtain ⟨x, hx, hx2⟩ := List.mem_map.1 hm
              exact absurd (hx2 ▸ hkl x hx) (not_lt_of_gt hk)
            · exact absurd rfl (Ne.symm (ne_of_lt hk))
            · exact hm
          cases r with
          | nil => simp [inorder] at hmr
          | node rk rv rc rl rr =>
              rw [putLoop_node, if_neg h0, if_neg h1]
              show putLoop k v (.node rk rv rc rl rr) (.right nk nv c l :: p) =
                PutResult.updated (plug (updateInPlace k v
                  (.node nk nv c l (.node rk rv rc rl rr))) p)
              rw [show updateInPlace k v (.node nk nv c l (.node rk rv rc rl rr)) =
                    .node nk nv c l (updateInPlace k v (.node rk rv rc rl rr)) from by
                  rw [updateInPlace, if_neg h0, if_neg h1]]
              rw [ihr (some nk) hi (.right nk nv c l :: p) hbr hmr]
              rfl

theorem Put_mem (t : Tree α β) (k : α) (v : β) (h : BST t.root)
    (hm : k ∈ keyList t.root) :
    (t.Put k v).root = updateInPlace k v t.root ∧ (t.Put k v).size = t.size := by
  unfold Tree.Put
  match hr : t.root with
  | .nil => rw [hr] at hm; simp [keyList, inorder] at hm
  | .node nk nv c l r =>
      rw [hr] at h hm
      have hput := putLoop_mem_updated k v (.node nk nv c l r) none none [] h hm
      simp only [hput, plug]
      exact ⟨trivial, trivial⟩

/-! ## Key-set effect of delList under sortedness -/

theorem mem_map_fst_delList_sorted {k x : α} (l : List (α × β))
    (hs : pairsSorted l) :
    x ∈ (delList k l).map Prod.fst ↔ x ∈ l.map Prod.fst ∧ x ≠ k := by
  induction l with
  | nil => simp [delList]
  | cons y t ih =>
      obtain ⟨a, b⟩ := y
      rw [pairsSorted, List.pairwise_cons] at hs
      by_cases h : k = a
      · subst h
        rw [delList, if_pos rfl]
        have hknt : k ∉ t.map Prod.fst := by
          intro hmem
          obtain ⟨z, hz, hz2⟩ := List.mem_map.1 hmem
          exact absurd (hz2 ▸ hs.1 z hz) (lt_irrefl k)
        simp only [List.map_cons, List.mem_cons]
        constructor
        · intro hx
          refine ⟨Or.inr hx, ?_⟩
          rintro rfl
          exact hknt hx
        · rintro ⟨hx | hx, hne⟩
          · exact absurd hx hne
          · exact hx
      · rw [delList, if_neg h]
        simp only [List.map_cons, List.mem_cons, ih hs.2]
        constructor
        · rintro (rfl | ⟨hx, hne⟩)
          · exact ⟨Or.inl rfl, Ne.symm h⟩
          · exact ⟨Or.inr hx, hne⟩
        · rintro ⟨hx | hx, hne⟩
          · exact Or.inl hx
          · exact Or.inr ⟨hx, hne⟩

/-! ## Claim theorems: C2, C3, C4, C5 -/

/-- C2: after every sequence of public mutating operations (`Put`,
`Remove`, `Clear`) starting from the empty tree — and hence after every
public operation, the queries being pure — `size` equals the number of
nodes reachable from the root, which is also the number of nodes an
in-order traversal visits. -/
theorem C2_size_consistency (ops : List (Op α β)) :
    (applyOps ops).size = (count (applyOps ops).root : Int) ∧
    (applyOps ops).size = ((inorder (applyOps ops).root).length : Int) := by
  have h := WF_applyOps ops
  refine ⟨h.2, ?_⟩
  rw [h.2, count_eq_length_inorder]

/-- C4: removing an absent key mutates nothing at all — the returned tree
is structurally identical (same size, same root, every node's key, value,
color and links unchanged). -/
theorem C4_remove_absent_noop (t : Tree α β) (k : α) (h : BST t.root)
    (hm : k ∉ keyList t.root) : t.Remove k = t :=
  Remove_of_not_mem t k h hm

theorem C4_remove_absent_noop_witness :
    (BST (Tree.mk (.node 1 1 .black .nil (.node 2 2 .red .nil .nil)) 2 :
        Tree Int Int).root ∧
      (5 : Int) ∉ keyList (Tree.mk (.node 1 1 .black .nil (.node 2 2 .red .nil .nil)) 2 :
        Tree Int Int).root) ∧
    (Tree.mk (.node 1 1 .black .nil (.node 2 2 .red .nil .nil)) 2 :
        Tree Int Int).Remove 5 =
      Tree.mk (.node 1 1 .black .nil (.node 2 2 .red .nil .nil)) 2 :=
  ⟨⟨by decide, by decide⟩,
    C4_remove_absent_noop
      (Tree.mk (.node 1 1 .black .nil (.node 2 2 .red .nil .nil)) 2) 5
      (by decide) (by decide)⟩

/-- C5: `Put` on an existing key overwrites the value in place — the
result is `updateInPlace`, which keeps the whole node structure and only
re-assigns the matched node's key and value — without changing `size`, and
a subsequent `Get` sees the latest value; concretely, `put 2 "x"` then
`put 2 "y"` leaves the size at 1 and `get 2` returns `"y"`. -/
theorem C5_put_overwrite (t : Tree α β) (k : α) (v : β) (h : BST t.root)
    (hm : k ∈ keyList t.root) :
    (t.Put k v).root = updateInPlace k v t.root ∧
    (t.Put k v).size = t.size ∧
    (t.Put k v).Get k = some v ∧
    (((Tree.new : Tree Int String).Put 2 "x").Put 2 "y").size = 1 ∧
    (((Tree.new : Tree Int String).Put 2 "x").Put 2 "y").Get 2 = some "y" := by
  have hb0 : BST (Tree.new : Tree Int String).root := trivial
  have hio1 : inorder ((Tree.new : Tree Int String).Put 2 "x").root = [(2, "x")] := by
    rw [Put_inorder _ _ _ hb0]; rfl
  have hb1 : BST ((Tree.new : Tree Int String).Put 2 "x").root := BST_Put _ _ _ hb0
  have hm1 : (2 : Int) ∈ (inorder ((Tree.new : Tree Int String).Put 2 "x").root).map
      Prod.fst := by rw [hio1]; simp
  have hs1 : ((Tree.new : Tree Int String).Put 2 "x").size = 1 := by
    rw [Put_size _ _ _ hb0, if_neg (by simp [Tree.new, inorder])]
    rfl
  have hconc1 : (((Tree.new : Tree Int String).Put 2 "x").Put 2 "y").size = 1 := by
    rw [Put_size _ _ _ hb1, if_pos hm1, hs1]
    norm_num
  have hconc2 : (((Tree.new : Tree Int String).Put 2 "x").Put 2 "y").Get 2 =
      some "y" := by
    rw [Get_eq_alookup _ _ (BST_Put _ _ _ hb1), Put_inorder _ _ _ hb1]
    exact alookup_insList_self _
  obtain ⟨h1, h2⟩ := Put_mem t k v h hm
  refine ⟨h1, h2, ?_, hconc1, hconc2⟩
  rw [Get_eq_alookup _ k (BST_Put t k v h), Put_inorder t k v h]
  exact alookup_insList_self _

theorem C5_put_overwrite_witness :
    (BST (Tree.mk (.node 2 5 .black .nil .nil) 1 : Tree Int Int).root ∧
      (2 : Int) ∈ keyList (Tree.mk (.node 2 5 .black .nil .nil) 1 : Tree Int Int).root) ∧
    ((Tree.mk (.node 2 5 .black .nil .nil) 1 : Tree Int Int).Put 2 9).Get 2 = some 9 :=
  ⟨⟨by decide, by decide⟩,
    (C5_put_overwrite (Tree.mk (.node 2 5 .black .nil .nil) 1) 2 9
      (by decide) (by decide)).2.2.1⟩

/-- C3: removing a present key shrinks the size by one, removes exactly
that key from the key set, leaves every other key bound to its previous
value, and when the located node has two children the node's key/value are
replaced by the predecessor's (the maximum of the left subtree) and that
predecessor node becomes the one unlinked. -/
theorem C3_remove_present (t : Tree α β) (k : α) (h : BST t.root)
    (hm : k ∈ keyList t.root) :
    (t.Remove k).size = t.size - 1 ∧
    (∀ k2, k2 ∈ keyList (t.Remove k).root ↔ k2 ∈ keyList t.root ∧ k2 ≠ k) ∧
    (∀ k2, k2 ≠ k → (t.Remove k).Get k2 = t.Get k2) ∧
    (∀ (v : β) (c : Color) (lk : α) (lv : β) (lc : Color) (ll lr : RBNode α β)
        (rk : α) (rv : β) (rc : Color) (rl rr : RBNode α β) (p : Path α β),
      lookupZip k t.root [] =
          some (.node k v c (.node lk lv lc ll lr) (.node rk rv rc rl rr), p) →
      ∃ (pdk : α) (pdv : β) (pdc : Color) (pdl : RBNode α β) (mp : Path α β),
        maximumNode (.node lk lv lc ll lr) [] = (.node pdk pdv pdc pdl .nil, mp) ∧
        t.Remove k = removeUnlink t (.node pdk pdv pdc pdl .nil,
          mp ++ (.left pdk pdv c (.node rk rv rc rl rr) :: p))) := by
  obtain ⟨h1, h2⟩ := Remove_spec t k h
  have hm2 : k ∈ (inorder t.root).map Prod.fst := hm
  refine ⟨by rw [h2, if_pos hm2], ?_, ?_, ?_⟩
  · intro k2
    rw [keyList, h1, mem_map_fst_delList_sorted _ ((BST_iff_sorted _).1 h)]
    exact Iff.rfl
  · intro k2 hne
    rw [Get_eq_alookup _ k2 (BST_Remove t k h), h1,
      alookup_delList_ne _ hne, Get_eq_alookup t k2 h]
  · intro v c lk lv lc ll lr rk rv rc rl rr p hl
    obtain ⟨pdk, pdv, pdc, pdl, mp, L1, hmax, _, _, _⟩ :=
      maximumNode_spec (.node lk lv lc ll lr) [] (by simp)
    refine ⟨pdk, pdv, pdc, pdl, mp, hmax, ?_⟩
    rw [Remove_found t k _ p hl, removeTarget, hmax]

theorem C3_remove_present_witness :
    (BST (Tree.mk (.node 2 20 .black (.node 1 10 .red .nil .nil)
        (.node 3 30 .red .nil .nil)) 3 : Tree Int Int).root ∧
      (2 : Int) ∈ keyList (Tree.mk (.node 2 20 .black (.node 1 10 .red .nil .nil)
        (.node 3 30 .red .nil .nil)) 3 : Tree Int Int).root) ∧
    ((Tree.mk (.node 2 20 .black (.node 1 10 .red .nil .nil)
        (.node 3 30 .red .nil .nil)) 3 : Tree Int Int).Remove 2).size =
      (Tree.mk (.node 2 20 .black (.node 1 10 .red .nil .nil)
        (.node 3 30 .red .nil .nil)) 3 : Tree Int Int).size - 1 :=
  ⟨⟨by decide, by decide⟩,
    (C3_remove_present (Tree.mk (.node 2 20 .black (.node 1 10 .red .nil .nil)
      (.node 3 30 .red .nil .nil)) 3) 2 (by decide) (by decide)).1⟩

/-! ## Round trip: put all, then remove all, yields the empty tree (C9) -/

/-- Fold a list of key/value puts over a tree (a sequence of `tree.Put` calls). -/
def putAll (t : Tree α β) (ps : List (α × β)) : Tree α β :=
  ps.foldl (fun t kv => t.Put kv.1 kv.2) t

/-- Fold a list of key removals over a tree (a sequence of `tree.Remove` calls). -/
def removeAll (t : Tree α β) (ks : List α) : Tree α β :=
  ks.foldl Tree.Remove t

theorem WF_putAll (ps : List (α × β)) :
    ∀ t : Tree α β, t.WF → (putAll t ps).WF := by
  induction ps with
  | nil => intro t h; exact h
  | cons kv ps ih => intro t h; exact ih _ (WF_Put t kv.1 kv.2 h)

theorem map_fst_insList_perm {k : α} {v : β} (l : List (α × β))
    (hk : k ∉ l.map Prod.fst) :
    List.Perm ((insList k v l).map Prod.fst) (k :: l.map Prod.fst) := by
  induction l with
  | nil => simp [insList]
  | cons y t ih =>
      obtain ⟨a, b⟩ := y
      simp only [List.map_cons, List.mem_cons] at hk
      push_neg at hk
      rw [insList]
      by_cases h1 : k < a
      · rw [if_pos h1]
        simp
      · rw [if_neg h1, if_neg hk.1]
        simp only [List.map_cons]
        exact (List.Perm.cons a (ih hk.2)).trans (List.Perm.swap k a _)

theorem map_fst_delList_eq_erase {k : α} (l : List (α × β)) :
    (delList k l).map Prod.fst = (l.map Prod.fst).erase k := by
  induction l with
  | nil => simp [delList]
  | cons y t ih =>
      obtain ⟨a, b⟩ := y
      rw [delList]
      by_cases h : k = a
      · subst h
        rw [if_pos rfl]
        simp [List.erase_cons_head]
      · rw [if_neg h, List.map_cons, List.map_cons,
          List.erase_cons_tail, ih]
        simp [Ne.symm h]

theorem keyList_putAll (ps : List (α × β)) :
    ∀ t : Tree α β, t.WF → (ps.map Prod.fst).Nodup →
      (∀ x ∈ ps.map Prod.fst, x ∉ keyList t.root) →
      List.Perm (keyList (putAll t ps).root) (ps.map Prod.fst ++ keyList t.root) := by
  induction ps with
  | nil => intro t _ _ _; simp [putAll]
  | cons kv ps ih =>
      intro t hwf hnd hdisj
      obtain ⟨k, v⟩ := kv
      simp only [List.map_cons, List.nodup_cons] at hnd
      have hkt : k ∉ keyList t.root := hdisj k (by simp)
      have hput : keyList (t.Put k v).root =
          (insList k v (inorder t.root)).map Prod.fst := by
        rw [keyList, Put_inorder t k v hwf.1]
      have hstep : List.Perm (keyList (t.Put k v).root) (k :: keyList t.root) := by
        rw [hput]
        exact map_fst_insList_perm (inorder t.root) hkt
      have hdisj2 : ∀ x ∈ ps.map Prod.fst, x ∉ keyList (t.Put k v).root := by
        intro x hx hmem
        have : x ∈ k :: keyList t.root := hstep.mem_iff.1 hmem
        cases this with
        | head => exact hnd.1 hx
        | tail _ h => exact hdisj x (by simp [hx]) h
      have hrest := ih (t.Put k v) (WF_Put t k v hwf) hnd.2 hdisj2
      have : putAll t ((k, v) :: ps) = putAll (t.Put k v) ps := rfl
      rw [this, List.map_cons]
      refine hrest.trans ?_
      exact (List.Perm.append_left (ps.map Prod.fst) hstep).trans List.perm_middle

theorem inorder_eq_nil {n : RBNode α β} (h : inorder n = []) : n = RBNode.nil := by
  cases n with
  | nil => rfl
  | node k v c l r => simp [inorder] at h

theorem removeAll_empty (ks : List α) :
    ∀ t : Tree α β, t.WF → List.Perm (keyList t.root) ks →
      (removeAll t ks).size = 0 ∧ (removeAll t ks).root = RBNode.nil := by
  induction ks with
  | nil =>
      intro t hwf hperm
      have hk : keyList t.root = [] := List.Perm.eq_nil hperm
      have hio : inorder t.root = [] := by
        cases hi : inorder t.root with
        | nil => rfl
        | cons a l => rw [keyList, hi] at hk; simp at hk
      have hroot : t.root = RBNode.nil := inorder_eq_nil hio
      refine ⟨?_, hroot⟩
      show t.size = 0
      rw [hwf.2, hroot]
      rfl
  | cons k ks ih =>
      intro t hwf hperm
      have hstep : keyList (t.Remove k).root = (keyList t.root).erase k := by
        rw [keyList, (Remove_spec t k hwf.1).1, map_fst_delList_eq_erase, keyList]
      have hperm2 : List.Perm (keyList (t.Remove k).root) ks := by
        rw [hstep]
        have := hperm.erase k
        rwa [List.erase_cons_head] at this
      have : removeAll t (k :: ks) = removeAll (t.Remove k) ks := rfl
      rw [this]
      exact ih (t.Remove k) (WF_Remove t k hwf) hperm2

/-- C9: putting any list of distinct-keyed pairs into the empty tree, then
removing every one of those keys in any order (any permutation of the key
list), leaves the tree empty: size is 0 and the root reference is nil. -/
theorem C9_round_trip (ps : List (α × β)) (ks : List α)
    (hnd : (ps.map Prod.fst).Nodup)
    (hperm : List.Perm ks (ps.map Prod.fst)) :
    (removeAll (putAll Tree.new ps) ks).size = 0 ∧
    (removeAll (putAll Tree.new ps) ks).root = RBNode.nil := by
  have hwf : (putAll (Tree.new : Tree α β) ps).WF := WF_putAll ps Tree.new WF_new
  have hkeys : List.Perm (keyList (putAll (Tree.new : Tree α β) ps).root)
      (ps.map Prod.fst) := by
    have hd : ∀ x ∈ ps.map Prod.fst, x ∉ keyList (Tree.new : Tree α β).root := by
      intro x _ hmem
      simp [keyList, Tree.new, inorder] at hmem
    have := keyList_putAll ps Tree.new WF_new hnd hd
    simpa [keyList, Tree.new, inorder] using this
  exact removeAll_empty ks _ hwf (hkeys.trans hperm.symm)

theorem C9_round_trip_witness :
    ((([((1 : Int), (10 : Int)), (2, 20), (3, 30)]).map Prod.fst).Nodup ∧
      List.Perm [(2 : Int), 3, 1]
        (([((1 : Int), (10 : Int)), (2, 20), (3, 30)]).map Prod.fst)) ∧
    ((removeAll (putAll Tree.new [((1 : Int), (10 : Int)), (2, 20), (3, 30)])
        [2, 3, 1]).size = 0 ∧
      (removeAll (putAll Tree.new [((1 : Int), (10 : Int)), (2, 20), (3, 30)])
        [2, 3, 1]).root = RBNode.nil) :=
  ⟨⟨by decide, by decide⟩,
    C9_round_trip [((1 : Int), (10 : Int)), (2, 20), (3, 30)] [2, 3, 1]
      (by decide) (by decide)⟩

/-! ## Floor and Ceiling (C6) -/

theorem keyList_node (nk : α) (nv : β) (c : Color) (l r : RBNode α β) :
    keyList (RBNode.node nk nv c l r) = keyList l ++ nk :: keyList r := by
  simp [keyList, inorder]

theorem floorLoop_spec (k : α) :
    ∀ (n : RBNode α β) (lo hi : Option α) (cand : Option (RBNode α β)),
      bsted lo hi n →
      ((∀ x ∈ keyList n, k < x) → floorLoop k n cand = cand) ∧
      (∀ x0 ∈ keyList n, x0 ≤ k →
        ∃ fk fv fc fl fr, floorLoop k n cand = some (RBNode.node fk fv fc fl fr) ∧
          fk ∈ keyList n ∧ fk ≤ k ∧ ∀ x ∈ keyList n, x ≤ k → x ≤ fk) := by
  intro n
  induction n with
  | nil =>
      intro lo hi cand _
      refine ⟨fun _ => rfl, ?_⟩
      intro x0 hx0
      simp [keyList, inorder] at hx0
  | node nk nv c l r ihl ihr =>
      intro lo hi cand hb
      have hb2 : lbelow lo nk ∧ habove hi nk ∧
          bsted lo (some nk) l ∧ bsted (some nk) hi r := hb
      obtain ⟨hlo, hhi, hbl, hbr⟩ := hb2
      have hlk : ∀ x ∈ keyList l, x < nk := by
        intro x hx
        obtain ⟨y, hy, rfl⟩ := List.mem_map.1 hx
        exact keys_lt_of_bsted_left hbl y hy
      have hrk : ∀ x ∈ keyList r, nk < x := by
        intro x hx
        obtain ⟨y, hy, rfl⟩ := List.mem_map.1 hx
        exact keys_gt_of_bsted_right hbr y hy
      have hnkmem : nk ∈ keyList (RBNode.node nk nv c l r) := by
        rw [keyList_node]; simp
      by_cases h0 : cmp k nk = 0
      · have hk : k = nk := cmp_eq_zero_iff.1 h0
        constructor
        · intro hall
          exact absurd (hk ▸ hall nk hnkmem) (lt_irrefl nk)
        · intro x0 _ _
          refine ⟨nk, nv, c, l, r, ?_, hnkmem, le_of_eq hk.symm, ?_⟩
          · simp only [floorLoop]
            rw [if_pos h0]
          · intro x _ hxk
            exact hk ▸ hxk
      · by_cases h1 : cmp k nk < 0
        · have hk : k < nk := cmp_neg_iff.1 h1
          have hstep : floorLoop k (RBNode.node nk nv c l r) cand =
              floorLoop k l cand := by
            simp only [floorLoop]
            rw [if_neg h0, if_pos h1]
          obtain ⟨ih1, ih2⟩ := ihl lo (some nk) cand hbl
          constructor
          · intro hall
            rw [hstep]
            exact ih1 fun x hx => hall x (by rw [keyList_node]; simp [hx])
          · intro x0 hx0 hx0k
            rw [keyList_node] at hx0
            simp only [List.mem_append, List.mem_cons] at hx0
            have hx0l : x0 ∈ keyList l := by
              rcases hx0 with hx0 | rfl | hx0
              · exact hx0
              · exact absurd hx0k (not_le.2 hk)
              · exact absurd hx0k (not_le.2 (lt_trans hk (hrk x0 hx0)))
            obtain ⟨fk, fv, fc, fl, fr, heq, hmem, hle, hmax⟩ := ih2 x0 hx0l hx0k
            refine ⟨fk, fv, fc, fl, fr, by rw [hstep]; exact heq,
              by rw [keyList_node]; simp [hmem], hle, ?_⟩
            intro x hx hxk
            rw [keyList_node] at hx
            simp only [List.mem_append, List.mem_cons] at hx
            rcases hx with hx | rfl | hx
            · exact hmax x hx hxk
            · exact absurd hxk (not_le.2 hk)
            · exact absurd hxk (not_le.2 (lt_trans hk (hrk x hx)))
        · have hpos : 0 < cmp k nk := by omega
          have hk : nk < k := cmp_pos_iff.1 hpos
          have hstep : floorLoop k (RBNode.node nk nv c l r) cand =
              floorLoop k r (some (RBNode.node nk nv c l r)) := by
            simp only [floorLoop]
            rw [if_neg h0, if_neg h1]
          obtain ⟨ih1, ih2⟩ := ihr (some nk) hi (some (RBNode.node nk nv c l r)) hbr
          constructor
          · intro hall
            exact absurd (hall nk hnkmem) (not_lt.2 (le_of_lt hk))
          · intro x0 _ _
            by_cases hex : ∃ x ∈ keyList r, x ≤ k
            · obtain ⟨x1, hx1, hx1k⟩ := hex
              obtain ⟨fk, fv, fc, fl, fr, heq, hmem, hle, hmax⟩ := ih2 x1 hx1 hx1k
              have hnkfk : nk < fk := hrk fk hmem
              refine ⟨fk, fv, fc, fl, fr, by rw [hstep]; exact heq,
                by rw [keyList_node]; simp [hmem], hle, ?_⟩
              intro x hx hxk
              rw [keyList_node] at hx
              simp only [List.mem_append, List.mem_cons] at hx
              rcases hx with hx | rfl | hx
              · exact le_of_lt (lt_trans (hlk x hx) hnkfk)
              · exact le_of_lt hnkfk
              · exact hmax x hx hxk
            · push_neg at hex
              rw [hstep, ih1 hex]
              refine ⟨nk, nv, c, l, r, rfl, hnkmem, le_of_lt hk, ?_⟩
              intro x hx hxk
              rw [keyList_node] at hx
              simp only [List.mem_append, List.mem_cons] at hx
              rcases hx with hx | rfl | hx
              · exact le_of_lt (hlk x hx)
              · exact le_refl x
              · exact absurd hxk (not_le.2 (hex x hx))

theorem ceilingLoop_spec (k : α) :
    ∀ (n : RBNode α β) (lo hi : Option α) (cand : Option (RBNode α β)),
      bsted lo hi n →
      ((∀ x ∈ keyList n, x < k) → ceilingLoop k n cand = cand) ∧
      (∀ x0 ∈ keyList n, k ≤ x0 →
        ∃ ck cv cc cl cr, ceilingLoop k n cand = some (RBNode.node ck cv cc cl cr) ∧
          ck ∈ keyList n ∧ k ≤ ck ∧ ∀ x ∈ keyList n, k ≤ x → ck ≤ x) := by
  intro n
  induction n with
  | nil =>
      intro lo hi cand _
      refine ⟨fun _ => rfl, ?_⟩
      intro x0 hx0
      simp [keyList, inorder] at hx0
  | node nk nv c l r ihl ihr =>
      intro lo hi cand hb
      have hb2 : lbelow lo nk ∧ habove hi nk ∧
          bsted lo (some nk) l ∧ bsted (some nk) hi r := hb
      obtain ⟨hlo, hhi, hbl, hbr⟩ := hb2
      have hlk : ∀ x ∈ keyList l, x < nk := by
        intro x hx
        obtain ⟨y, hy, rfl⟩ := List.mem_map.1 hx
        exact keys_lt_of_bsted_left hbl y hy
      have hrk : ∀ x ∈ keyList r, nk < x := by
        intro x hx
        obtain ⟨y, hy, rfl⟩ := List.mem_map.1 hx
        exact keys_gt_of_bsted_right hbr y hy
      have hnkmem : nk ∈ keyList (RBNode.node nk nv c l r) := by
        rw [keyList_node]; simp
      by_cases h0 : cmp k nk = 0
      · have hk : k = nk := cmp_eq_zero_iff.1 h0
        constructor
        · intro hall
          exact absurd (hk ▸ hall nk hnkmem) (lt_irrefl nk)
        · intro x0 _ _
          refine ⟨nk, nv, c, l, r, ?_, hnkmem, le_of_eq hk, ?_⟩
          · simp only [ceilingLoop]
            rw [if_pos h0]
          · intro x _ hxk
            exact hk ▸ hxk
      · by_cases h1 : cmp k nk < 0
        · have hk : k < nk := cmp_neg_iff.1 h1
          have hstep : ceilingLoop k (RBNode.node nk nv c l r) cand =
              ceilingLoop k l (some (RBNode.node nk nv c l r)) := by
            simp only [ceilingLoop]
            rw [if_neg h0, if_pos h1]
          obtain ⟨ih1, ih2⟩ := ihl lo (some nk) (some (RBNode.node nk nv c l r)) hbl
          constructor
          · intro hall
            exact absurd (hall nk hnkmem) (not_lt.2 (le_of_lt hk))
          · intro x0 _ _
            by_cases hex : ∃ x ∈ keyList l, k ≤ x
            · obtain ⟨x1, hx1, hx1k⟩ := hex
              obtain ⟨ck, cv, cc, cl, cr, heq, hmem, hle, hmin⟩ := ih2 x1 hx1 hx1k
              have hcknk : ck < nk := hlk ck hmem
              refine ⟨ck, cv, cc, cl, cr, by rw [hstep]; exact heq,
                by rw [keyList_node]; simp [hmem], hle, ?_⟩
              intro x hx hxk
              rw [keyList_node] at hx
              simp only [List.mem_append, List.mem_cons] at hx
              rcases hx with hx | rfl | hx
              · exact hmin x hx hxk
              · exact le_of_lt hcknk
              · exact le_of_lt (lt_trans hcknk (hrk x hx))
            · push_neg at hex
              rw [hstep, ih1 hex]
              refine ⟨nk, nv, c, l, r, rfl, hnkmem, le_of_lt hk, ?_⟩
              intro x hx hxk
              rw [keyList_node] at hx
              simp only [List.mem_append, List.mem_cons] at hx
              rcases hx with hx | rfl | hx
              · exact absurd hxk (not_le.2 (hex x hx))
              · exact le_refl x
              · exact le_of_lt (hrk x hx)
        · have hpos : 0 < cmp k nk := by omega
          have hk : nk < k := cmp_pos_iff.1 hpos
          have hstep : ceilingLoop k (RBNode.node nk nv c l r) cand =
              ceilingLoop k r cand := by
            simp only [ceilingLoop]
            rw [if_neg h0, if_neg h1]
          obtain ⟨ih1, ih2⟩ := ihr (some nk) hi cand hbr
          constructor
          · intro hall
            rw [hstep]
            exact ih1 fun x hx => hall x (by rw [keyList_node]; simp [hx])
          · intro x0 hx0 hx0k
            rw [keyList_node] at hx0
            simp only [List.mem_append, List.mem_cons] at hx0
            have hx0r : x0 ∈ keyList r := by
              rcases hx0 with hx0 | rfl | hx0
              · exact absurd hx0k (not_le.2 (lt_trans (hlk x0 hx0) hk))
              · exact absurd hx0k (not_le.2 hk)
              · exact hx0
            obtain ⟨ck, cv, cc, cl, cr, heq, hmem, hle, hmin⟩ := ih2 x0 hx0r hx0k
            refine ⟨ck, cv, cc, cl, cr, by rw [hstep]; exact heq,
              by rw [keyList_node]; simp [hmem], hle, ?_⟩
            intro x hx hxk
            rw [keyList_node] at hx
            simp only [List.mem_append, List.mem_cons] at hx
            rcases hx with hx | rfl | hx
            · exact absurd hxk (not_le.2 (lt_trans (hlk x hx) hk))
            · exact absurd hxk (not_le.2 hk)
            · exact hmin x hx hxk

/-- The tree of the spec's concrete Floor/Ceiling scenario: insert keys
10, 20, 5, 15 (each with its key as value) in that order. -/
def floorCeilTree : Tree Int Int :=
  putAll Tree.new [(10, 10), (20, 20), (5, 5), (15, 15)]

/-- C6: for every BST and every query key `k`, `Floor k` returns `none`
exactly when every stored key is greater than `k`, and otherwise returns a
stored node whose key is the largest stored key `≤ k`; symmetrically
`Ceiling k` returns `none` exactly when every stored key is smaller than
`k`, and otherwise a stored node whose key is the smallest stored key
`≥ k`. Concretely, after inserting keys {10, 20, 5, 15}, `floor 12`
returns the node with key 10 and `ceiling 12` the node with key 15. -/
theorem C6_floor_ceiling (t : Tree α β) (k : α) (h : BST t.root) :
    (t.Floor k = none ↔ ∀ x ∈ keyList t.root, k < x) ∧
    (∀ nd, t.Floor k = some nd →
      ∃ fk fv fc fl fr, nd = RBNode.node fk fv fc fl fr ∧
        fk ∈ keyList t.root ∧ fk ≤ k ∧ ∀ x ∈ keyList t.root, x ≤ k → x ≤ fk) ∧
    (t.Ceiling k = none ↔ ∀ x ∈ keyList t.root, x < k) ∧
    (∀ nd, t.Ceiling k = some nd →
      ∃ ck cv cc cl cr, nd = RBNode.node ck cv cc cl cr ∧
        ck ∈ keyList t.root ∧ k ≤ ck ∧ ∀ x ∈ keyList t.root, k ≤ x → ck ≤ x) ∧
    (∃ fv fc fl fr, floorCeilTree.Floor 12 = some (RBNode.node 10 fv fc fl fr)) ∧
    (∃ cv cc cl cr, floorCeilTree.Ceiling 12 = some (RBNode.node 15 cv cc cl cr)) := by
  obtain ⟨hf1, hf2⟩ := floorLoop_spec k t.root none none none h
  obtain ⟨hc1, hc2⟩ := ceilingLoop_spec k t.root none none none h
  have hb0 : BST (Tree.new : Tree Int Int).root := trivial
  have hb1 : BST ((Tree.new : Tree Int Int).Put 10 10).root := BST_Put _ _ _ hb0
  have hb2 : BST (((Tree.new : Tree Int Int).Put 10 10).Put 20 20).root :=
    BST_Put _ _ _ hb1
  have hb3 : BST ((((Tree.new : Tree Int Int).Put 10 10).Put 20 20).Put 5 5).root :=
    BST_Put _ _ _ hb2
  have hb4 : BST floorCeilTree.root := BST_Put _ _ _ hb3
  have hio4 : inorder floorCeilTree.root =
      [(5, 5), (10, 10), (15, 15), (20, 20)] := by
    have e1 : inorder ((Tree.new : Tree Int Int).Put 10 10).root = [(10, 10)] := by
      rw [Put_inorder _ _ _ hb0]; rfl
    have e2 : inorder (((Tree.new : Tree Int Int).Put 10 10).Put 20 20).root =
        [(10, 10), (20, 20)] := by
      rw [Put_inorder _ _ _ hb1, e1]; decide
    have e3 : inorder ((((Tree.new : Tree Int Int).Put 10 10).Put 20 20).Put 5 5).root =
        [(5, 5), (10, 10), (20, 20)] := by
      rw [Put_inorder _ _ _ hb2, e2]; decide
    show inorder (((((Tree.new : Tree Int Int).Put 10 10).Put 20 20).Put 5 5).Put
      15 15).root = _
    rw [Put_inorder _ _ _ hb3, e3]; decide
  have hkeys : keyList floorCeilTree.root = [5, 10, 15, 20] := by
    rw [keyList, hio4]
    rfl
  obtain ⟨gf1, gf2⟩ := floorLoop_spec (12 : Int) floorCeilTree.root none none none hb4
  obtain ⟨gc1, gc2⟩ := ceilingLoop_spec (12 : Int) floorCeilTree.root none none none hb4
  refine ⟨?_, ?_, ?_, ?_, ?_, ?_⟩
  · constructor
    · intro hn x hx
      by_contra hxk
      push_neg at hxk
      obtain ⟨fk, fv, fc, fl, fr, heq, _, _, _⟩ := hf2 x hx hxk
      have hn2 : floorLoop k t.root none = none := hn
      rw [hn2] at heq
      exact Option.noConfusion heq
    · intro hall
      show floorLoop k t.root none = none
      exact hf1 hall
  · intro nd hnd
    have hnd2 : floorLoop k t.root none = some nd := hnd
    by_cases hex : ∃ x ∈ keyList t.root, x ≤ k
    · obtain ⟨x1, hx1, hx1k⟩ := hex
      obtain ⟨fk, fv, fc, fl, fr, heq, hmem, hle, hmax⟩ := hf2 x1 hx1 hx1k
      rw [hnd2] at heq
      exact ⟨fk, fv, fc, fl, fr, Option.some.inj heq, hmem, hle, hmax⟩
    · push_neg at hex
      have hnone := hf1 hex
      rw [hnd2] at hnone
      exact Option.noConfusion hnone
  · constructor
    · intro hn x hx
      by_contra hxk
      push_neg at hxk
      obtain ⟨ck, cv, cc, cl, cr, heq, _, _, _⟩ := hc2 x hx hxk
      have hn2 : ceilingLoop k t.root none = none := hn
      rw [hn2] at heq
      exact Option.noConfusion heq
    · intro hall
      show ceilingLoop k t.root none = none
      exact hc1 hall
  · intro nd hnd
    have hnd2 : ceilingLoop k t.root none = some nd := hnd
    by_cases hex : ∃ x ∈ keyList t.root, k ≤ x
    · obtain ⟨x1, hx1, hx1k⟩ := hex
      obtain ⟨ck, cv, cc, cl, cr, heq, hmem, hle, hmin⟩ := hc2 x1 hx1 hx1k
      rw [hnd2] at heq
      exact ⟨ck, cv, cc, cl, cr, Option.some.inj heq, hmem, hle, hmin⟩
    · push_neg at hex
      have hnone := hc1 hex
      rw [hnd2] at hnone
      exact Option.noConfusion hnone
  · obtain ⟨fk, fv, fc, fl, fr, heq, hmem, hle, hmax⟩ :=
      gf2 10 (by rw [hkeys]; decide) (by norm_num)
    have h10 : (10 : Int) ≤ fk := hmax 10 (by rw [hkeys]; decide) (by norm_num)
    rw [hkeys] at hmem
    have hfk : fk = 10 := by
      simp only [List.mem_cons, List.not_mem_nil, or_false] at hmem
      rcases hmem with rfl | rfl | rfl | rfl <;> omega
    subst hfk
    exact ⟨fv, fc, fl, fr, heq⟩
  · obtain ⟨ck, cv, cc, cl, cr, heq, hmem, hle, hmin⟩ :=
      gc2 15 (by rw [hkeys]; decide) (by norm_num)
    have h15 : ck ≤ (15 : Int) := hmin 15 (by rw [hkeys]; decide) (by norm_num)
    rw [hkeys] at hmem
    have hck : ck = 15 := by
      simp only [List.mem_cons, List.not_mem_nil, or_false] at hmem
      rcases hmem with rfl | rfl | rfl | rfl <;> omega
    subst hck
    exact ⟨cv, cc, cl, cr, heq⟩

theorem C6_floor_ceiling_witness :
    BST (Tree.mk (.node 10 10 .black (.node 5 5 .red .nil .nil)
        (.node 20 20 .red .nil .nil)) 3 : Tree Int Int).root ∧
    ((Tree.mk (.node 10 10 .black (.node 5 5 .red .nil .nil)
        (.node 20 20 .red .nil .nil)) 3 : Tree Int Int).Floor 3 = none ↔
      ∀ x ∈ keyList (Tree.mk (.node 10 10 .black (.node 5 5 .red .nil .nil)
        (.node 20 20 .red .nil .nil)) 3 : Tree Int Int).root, (3 : Int) < x) :=
  ⟨by decide,
    (C6_floor_ceiling (Tree.mk (.node 10 10 .black (.node 5 5 .red .nil .nil)
      (.node 20 20 .red .nil .nil)) 3) 3 (by decide)).1⟩

/-! ## Iterator machinery: zipper well-formedness and traversal steps -/

/-- Key bounds a context imposes on its hole, together with ordering of the
whole surrounding tree: `zipOK p lo hi` says the context `p` is part of a
binary-search tree and accepts any `(lo, hi)`-bounded subtree in its hole. -/
def zipOK : Path α β → Option α → Option α → Prop
  | [], lo, hi => lo = none ∧ hi = none
  | .left k _ _ sib :: p, lo, hi =>
      ∃ hi2, hi = some k ∧ zipOK p lo hi2 ∧ lbelow lo k ∧ habove hi2 k ∧
        bsted (some k) hi2 sib
  | .right k _ _ sib :: p, lo, hi =>
      ∃ lo2, lo = some k ∧ zipOK p lo2 hi ∧ lbelow lo2 k ∧ habove hi k ∧
        bsted lo2 (some k) sib

theorem zipOK_of_BST :
    ∀ (p : Path α β) (n : RBNode α β), BST (plug n p) →
      ∃ lo hi, zipOK p lo hi ∧ bsted lo hi n := by
  intro p
  induction p with
  | nil =>
      intro n h
      exact ⟨none, none, ⟨rfl, rfl⟩, h⟩
  | cons e p ih =>
      intro n h
      obtain ⟨lo, hi, hz, hb⟩ := ih (plugStep n e) h
      cases e with
      | left k v c sib =>
          have hb2 : lbelow lo k ∧ habove hi k ∧ bsted lo (some k) n ∧
              bsted (some k) hi sib := hb
          exact ⟨lo, some k, ⟨hi, rfl, hz, hb2.1, hb2.2.1, hb2.2.2.2⟩, hb2.2.2.1⟩
      | right k v c sib =>
          have hb2 : lbelow lo k ∧ habove hi k ∧ bsted lo (some k) sib ∧
              bsted (some k) hi n := hb
          exact ⟨some k, hi, ⟨lo, rfl, hz, hb2.1, hb2.2.1, hb2.2.2.1⟩, hb2.2.2.2⟩

theorem append_singleton_inj {γ : Type} {A B : List γ} {a b : γ}
    (h : A ++ [a] = B ++ [b]) : A = B ∧ a = b := by
  have h2 := congrArg List.reverse h
  simp only [List.reverse_append, List.reverse_cons, List.reverse_nil,
    List.nil_append, List.singleton_append, List.cons.injEq] at h2
  exact ⟨List.reverse_injective h2.2, h2.1⟩

theorem leftmostZip_spec :
    ∀ (n : RBNode α β) (q : Path α β), n ≠ .nil →
      ∃ k2 v2 c2 r2 q2, leftmostZip n q = some (.node k2 v2 c2 .nil r2, q2) ∧
        plug (.node k2 v2 c2 .nil r2) q2 = plug n q ∧
        leftList q2 = leftList q ∧
        (k2, v2) :: (inorder r2 ++ rightList q2) = inorder n ++ rightList q := by
  intro n
  induction n with
  | nil => intro q h; exact absurd rfl h
  | node k v c l r ihl ihr =>
      intro q _
      cases l with
      | nil =>
          refine ⟨k, v, c, r, q, rfl, rfl, rfl, ?_⟩
          simp [inorder]
      | node lk lv lc ll lr =>
          obtain ⟨k2, v2, c2, r2, q2, heq, hplug, hleft, hlist⟩ :=
            ihl (.left k v c r :: q) (by simp)
          refine ⟨k2, v2, c2, r2, q2, heq, hplug, ?_, ?_⟩
          · rw [hleft]; rfl
          · rw [hlist]
            simp [rightList, inorder]

theorem rightmostZip_spec :
    ∀ (n : RBNode α β) (q : Path α β), n ≠ .nil →
      ∃ k2 v2 c2 l2 q2, rightmostZip n q = some (.node k2 v2 c2 l2 .nil, q2) ∧
        plug (.node k2 v2 c2 l2 .nil) q2 = plug n q ∧
        rightList q2 = rightList q ∧
        leftList q2 ++ (inorder l2 ++ [(k2, v2)]) = leftList q ++ inorder n := by
  intro n
  induction n with
  | nil => intro q h; exact absurd rfl h
  | node k v c l r ihl ihr =>
      intro q _
      cases r with
      | nil =>
          refine ⟨k, v, c, l, q, rfl, rfl, rfl, ?_⟩
          simp [inorder]
      | node rk rv rc rl rr =>
          obtain ⟨k2, v2, c2, l2, q2, heq, hplug, hright, hlist⟩ :=
            ihr (.right k v c l :: q) (by simp)
          refine ⟨k2, v2, c2, l2, q2, heq, hplug, ?_, ?_⟩
          · rw [hright]; rfl
          · rw [hlist]
            simp [leftList, inorder]

theorem ascendNext_spec (k0 : α) :
    ∀ (p : Path α β) (m : RBNode α β) (lo hi : Option α),
      zipOK p lo hi → lbelow lo k0 → habove hi k0 →
      ((rightList p = [] → ascendNext k0 m p = none) ∧
       (∀ k2 v2 rest2, rightList p = (k2, v2) :: rest2 →
         ∃ c2 l2 r2 p2, ascendNext k0 m p = some (.node k2 v2 c2 l2 r2, p2) ∧
           plug (.node k2 v2 c2 l2 r2) p2 = plug m p ∧
           leftList p2 ++ inorder l2 = leftList p ++ inorder m ∧
           inorder r2 ++ rightList p2 = rest2)) := by
  intro p
  induction p with
  | nil =>
      intro m lo hi _ _ _
      refine ⟨fun _ => rfl, ?_⟩
      intro k2 v2 rest2 hR
      exact absurd hR (by simp [rightList])
  | cons e p ih =>
      intro m lo hi hz hlo hhi
      cases e with
      | left pk pv pc sib =>
          have hzc : ∃ hi2, hi = some pk ∧ zipOK p lo hi2 ∧ lbelow lo pk ∧
              habove hi2 pk ∧ bsted (some pk) hi2 sib := hz
          obtain ⟨hi2, rfl, hz2, hlb, hab, hsib⟩ := hzc
          have hk0pk : k0 < pk := hhi
          have hcond : cmp k0 (PathEntry.key
              (.left pk pv pc sib : PathEntry α β)) ≤ 0 := by
            simp only [PathEntry.key]
            exact cmp_nonpos_iff.2 (le_of_lt hk0pk)
          have hstep : ascendNext k0 m (.left pk pv pc sib :: p) =
              some (.node pk pv pc m sib, p) := by
            simp only [ascendNext]
            rw [if_pos hcond]
            rfl
          constructor
          · intro hR
            exact absurd hR (by simp [rightList])
          · intro k2 v2 rest2 hR
            simp only [rightList, List.cons.injEq, Prod.mk.injEq] at hR
            obtain ⟨⟨rfl, rfl⟩, rfl⟩ := hR
            refine ⟨pc, m, sib, p, hstep, rfl, rfl, rfl⟩
      | right pk pv pc sib =>
          have hzc : ∃ lo2, lo = some pk ∧ zipOK p lo2 hi ∧ lbelow lo2 pk ∧
              habove hi pk ∧ bsted lo2 (some pk) sib := hz
          obtain ⟨lo2, rfl, hz2, hlb, hab, hsib⟩ := hzc
          have hpkk0 : pk < k0 := hlo
          have hcond : ¬ cmp k0 (PathEntry.key
              (.right pk pv pc sib : PathEntry α β)) ≤ 0 := by
            simp only [PathEntry.key]
            exact not_le.2 (cmp_pos_iff.2 hpkk0)
          have hstep : ascendNext k0 m (.right pk pv pc sib :: p) =
              ascendNext k0 (.node pk pv pc sib m) p := by
            simp only [ascendNext]
            rw [if_neg hcond]
            rfl
          obtain ⟨ih1, ih2⟩ := ih (.node pk pv pc sib m) lo2 hi hz2
            (lbelow_trans hlb hpkk0) hhi
          constructor
          · intro hR
            rw [hstep]
            exact ih1 hR
          · intro k2 v2 rest2 hR
            have hR2 : rightList p = (k2, v2) :: rest2 := hR
            obtain ⟨c2, l2, r2, p2, heq, hplug, hleftEq, hrightEq⟩ :=
              ih2 k2 v2 rest2 hR2
            refine ⟨c2, l2, r2, p2, by rw [hstep]; exact heq, hplug, ?_, hrightEq⟩
            rw [hleftEq]
            simp [leftList, inorder]

theorem ascendPrev_spec (k0 : α) :
    ∀ (p : Path α β) (m : RBNode α β) (lo hi : Option α),
      zipOK p lo hi → lbelow lo k0 → habove hi k0 →
      ((leftList p = [] → ascendPrev k0 m p = none) ∧
       (∀ init2 k2 v2, leftList p = init2 ++ [(k2, v2)] →
         ∃ c2 l2 r2 p2, ascendPrev k0 m p = some (.node k2 v2 c2 l2 r2, p2) ∧
           plug (.node k2 v2 c2 l2 r2) p2 = plug m p ∧
           leftList p2 ++ inorder l2 = init2 ∧
           inorder r2 ++ rightList p2 = inorder m ++ rightList p)) := by
  intro p
  induction p with
  | nil =>
      intro m lo hi _ _ _
      refine ⟨fun _ => rfl, ?_⟩
      intro init2 k2 v2 hL
      exact absurd hL.symm (by simp [leftList])
  | cons e p ih =>
      intro m lo hi hz hlo hhi
      cases e with
      | right pk pv pc sib =>
          have hzc : ∃ lo2, lo = some pk ∧ zipOK p lo2 hi ∧ lbelow lo2 pk ∧
              habove hi pk ∧ bsted lo2 (some pk) sib := hz
          obtain ⟨lo2, rfl, hz2, hlb, hab, hsib⟩ := hzc
          have hpkk0 : pk < k0 := hlo
          have hcond : 0 ≤ cmp k0 (PathEntry.key
              (.right pk pv pc sib : PathEntry α β)) := by
            simp only [PathEntry.key]
            exact le_of_lt (cmp_pos_iff.2 hpkk0)
          have hstep : ascendPrev k0 m (.right pk pv pc sib :: p) =
              some (.node pk pv pc sib m, p) := by
            simp only [ascendPrev]
            rw [if_pos hcond]
            rfl
          constructor
          · intro hL
            exact absurd hL (by simp [leftList])
          · intro init2 k2 v2 hL
            simp only [leftList] at hL
            rw [show leftList p ++ inorder sib ++ [(pk, pv)] =
                (leftList p ++ inorder sib) ++ [(pk, pv)] from by simp] at hL
            obtain ⟨hinit, hpair⟩ := append_singleton_inj hL
            obtain ⟨rfl, rfl⟩ := Prod.mk.inj hpair
            refine ⟨pc, sib, m, p, hstep, rfl, hinit, ?_⟩
            simp [rightList, inorder]
      | left pk pv pc sib =>
          have hzc : ∃ hi2, hi = some pk ∧ zipOK p lo hi2 ∧ lbelow lo pk ∧
              habove hi2 pk ∧ bsted (some pk) hi2 sib := hz
          obtain ⟨hi2, rfl, hz2, hlb, hab, hsib⟩ := hzc
          have hk0pk : k0 < pk := hhi
          have hcond : ¬ 0 ≤ cmp k0 (PathEntry.key
              (.left pk pv pc sib : PathEntry α β)) := by
            simp only [PathEntry.key]
            exact not_le.2 (cmp_neg_iff.2 hk0pk)
          have hstep : ascendPrev k0 m (.left pk pv pc sib :: p) =
              ascendPrev k0 (.node pk pv pc m sib) p := by
            simp only [ascendPrev]
            rw [if_neg hcond]
            rfl
          obtain ⟨ih1, ih2⟩ := ih (.node pk pv pc m sib) lo hi2 hz2
            hlo (habove_trans hk0pk hab)
          constructor
          · intro hL
            rw [hstep]
            exact ih1 hL
          · intro init2 k2 v2 hL
            have hL2 : leftList p = init2 ++ [(k2, v2)] := hL
            obtain ⟨c2, l2, r2, p2, heq, hplug, hleftEq, hrightEq⟩ :=
              ih2 init2 k2 v2 hL2
            refine ⟨c2, l2, r2, p2, by rw [hstep]; exact heq, hplug, hleftEq, ?_⟩
            rw [hrightEq]
            simp [rightList, inorder]

theorem next_between (t : Tree α β) (k : α) (v : β) (c : Color) (l r : RBNode α β)
    (p : Path α β) (hb : BST (plug (.node k v c l r) p)) :
    (inorder r ++ rightList p = [] →
      Iterator.next ⟨t, some (.node k v c l r, p), .between⟩ =
        (false, ⟨t, none, .ending⟩)) ∧
    (∀ k2 v2 rest2, inorder r ++ rightList p = (k2, v2) :: rest2 →
      ∃ c2 l2 r2 p2,
        Iterator.next ⟨t, some (.node k v c l r, p), .between⟩ =
          (true, ⟨t, some (.node k2 v2 c2 l2 r2, p2), .between⟩) ∧
        plug (.node k2 v2 c2 l2 r2) p2 = plug (.node k v c l r) p ∧
        leftList p2 ++ inorder l2 = leftList p ++ inorder l ++ [(k, v)] ∧
        inorder r2 ++ rightList p2 = rest2) := by
  cases r with
  | node rk rv rc rl rr =>
      obtain ⟨k3, v3, c3, r3, q3, heq, hplug, hleft, hlist⟩ :=
        leftmostZip_spec (.node rk rv rc rl rr) (.right k v c l :: p) (by simp)
      have hnext : Iterator.next
          ⟨t, some (.node k v c l (.node rk rv rc rl rr), p), .between⟩ =
          (true, ⟨t, some (.node k3 v3 c3 .nil r3, q3), .between⟩) := by
        simp only [Iterator.next]
        rw [heq]
      constructor
      · intro h
        simp [inorder] at h
      · intro k2 v2 rest2 hR
        have hlist2 : (k3, v3) :: (inorder r3 ++ rightList q3) =
            inorder (RBNode.node rk rv rc rl rr) ++ rightList p := hlist
        rw [hR] at hlist2
        simp only [List.cons.injEq, Prod.mk.injEq] at hlist2
        obtain ⟨⟨rfl, rfl⟩, hrest⟩ := hlist2
        refine ⟨c3, .nil, r3, q3, hnext, hplug, ?_, hrest⟩
        have hleft2 : leftList q3 = leftList p ++ inorder l ++ [(k, v)] := by
          rw [hleft]; simp [leftList]
        rw [hleft2]
        simp [inorder]
  | nil =>
      obtain ⟨lo, hi, hz, hbm⟩ := zipOK_of_BST p (.node k v c l .nil) hb
      have hbm2 : lbelow lo k ∧ habove hi k ∧ bsted lo (some k) l ∧
          bsted (some k) hi (.nil : RBNode α β) := hbm
      obtain ⟨ha1, ha2⟩ := ascendNext_spec k p (.node k v c l .nil) lo hi hz
        hbm2.1 hbm2.2.1
      constructor
      · intro h
        simp only [inorder, List.nil_append] at h
        have hnone := ha1 h
        simp only [Iterator.next]
        rw [hnone]
      · intro k2 v2 rest2 hR
        simp only [inorder, List.nil_append] at hR
        obtain ⟨c2, l2, r2, p2, heq, hplug, hleftEq, hrightEq⟩ :=
          ha2 k2 v2 rest2 hR
        refine ⟨c2, l2, r2, p2, ?_, hplug, ?_, hrightEq⟩
        · simp only [Iterator.next]
          rw [heq]
        · rw [hleftEq]
          simp [inorder]

theorem prev_between (t : Tree α β) (k : α) (v : β) (c : Color) (l r : RBNode α β)
    (p : Path α β) (hb : BST (plug (.node k v c l r) p)) :
    (leftList p ++ inorder l = [] →
      Iterator.prev ⟨t, some (.node k v c l r, p), .between⟩ =
        (false, ⟨t, none, .begin⟩)) ∧
    (∀ init2 k2 v2, leftList p ++ inorder l = init2 ++ [(k2, v2)] →
      ∃ c2 l2 r2 p2,
        Iterator.prev ⟨t, some (.node k v c l r, p), .between⟩ =
          (true, ⟨t, some (.node k2 v2 c2 l2 r2, p2), .between⟩) ∧
        plug (.node k2 v2 c2 l2 r2) p2 = plug (.node k v c l r) p ∧
        leftList p2 ++ inorder l2 = init2 ∧
        inorder r2 ++ rightList p2 = (k, v) :: (inorder r ++ rightList p)) := by
  cases l with
  | node lk lv lc ll lr =>
      obtain ⟨k3, v3, c3, l3, q3, heq, hplug, hright, hlist⟩ :=
        rightmostZip_spec (.node lk lv lc ll lr) (.left k v c r :: p) (by simp)
      have hprev : Iterator.prev
          ⟨t, some (.node k v c (.node lk lv lc ll lr) r, p), .between⟩ =
          (true, ⟨t, some (.node k3 v3 c3 l3 .nil, q3), .between⟩) := by
        simp only [Iterator.prev]
        rw [heq]
      constructor
      · intro h
        simp [inorder] at h
      · intro init2 k2 v2 hL
        have hlist2 : (leftList q3 ++ inorder l3) ++ [(k3, v3)] =
            init2 ++ [(k2, v2)] := by
          rw [show (leftList q3 ++ inorder l3) ++ [(k3, v3)] =
              leftList q3 ++ (inorder l3 ++ [(k3, v3)]) from by simp, hlist]
          have : leftList (PathEntry.left k v c r :: p) = leftList p := rfl
          rw [this]
          exact hL
        obtain ⟨hinit, hpair⟩ := append_singleton_inj hlist2
        obtain ⟨rfl, rfl⟩ := Prod.mk.inj hpair
        refine ⟨c3, l3, .nil, q3, hprev, hplug, hinit, ?_⟩
        have hright2 : rightList q3 = (k, v) :: (inorder r ++ rightList p) := by
          rw [hright]; rfl
        simp only [inorder, List.nil_append]
        exact hright2
  | nil =>
      obtain ⟨lo, hi, hz, hbm⟩ := zipOK_of_BST p (.node k v c .nil r) hb
      have hbm2 : lbelow lo k ∧ habove hi k ∧
          bsted lo (some k) (.nil : RBNode α β) ∧ bsted (some k) hi r := hbm
      obtain ⟨ha1, ha2⟩ := ascendPrev_spec k p (.node k v c .nil r) lo hi hz
        hbm2.1 hbm2.2.1
      constructor
      · intro h
        simp only [inorder, List.append_nil] at h
        have hnone := ha1 h
        simp only [Iterator.prev]
        rw [hnone]
      · intro init2 k2 v2 hL
        simp only [inorder, List.append_nil] at hL
        obtain ⟨c2, l2, r2, p2, heq, hplug, hleftEq, hrightEq⟩ :=
          ha2 init2 k2 v2 hL
        refine ⟨c2, l2, r2, p2, ?_, hplug, hleftEq, ?_⟩
        · simp only [Iterator.prev]
          rw [heq]
        · rw [hrightEq]
          simp [inorder]

theorem next_begin (t : Tree α β) (h : BST t.root) :
    (inorder t.root = [] →
      Iterator.next ⟨t, none, .begin⟩ = (false, ⟨t, none, .ending⟩)) ∧
    (∀ k2 v2 rest2, inorder t.root = (k2, v2) :: rest2 →
      ∃ c2 r2 p2,
        Iterator.next ⟨t, none, .begin⟩ =
          (true, ⟨t, some (.node k2 v2 c2 .nil r2, p2), .between⟩) ∧
        plug (.node k2 v2 c2 .nil r2) p2 = t.root ∧
        leftList p2 = [] ∧
        inorder r2 ++ rightList p2 = rest2) := by
  cases hroot : t.root with
  | nil =>
      constructor
      · intro _
        simp only [Iterator.next]
        rw [hroot]
        rfl
      · intro k2 v2 rest2 hR
        simp [inorder] at hR
  | node nk nv nc nl nr =>
      obtain ⟨k3, v3, c3, r3, q3, heq, hplug, hleft, hlist⟩ :=
        leftmostZip_spec (.node nk nv nc nl nr) [] (by simp)
      have hnext : Iterator.next ⟨t, none, .begin⟩ =
          (true, ⟨t, some (.node k3 v3 c3 .nil r3, q3), .between⟩) := by
        simp only [Iterator.next]
        rw [hroot, heq]
      constructor
      · intro h1
        simp [inorder] at h1
      · intro k2 v2 rest2 hR
        have hlist2 : (k3, v3) :: (inorder r3 ++ rightList q3) =
            (k2, v2) :: rest2 := by
          rw [hlist, show rightList ([] : Path α β) = [] from rfl,
            List.append_nil, hR]
        simp only [List.cons.injEq, Prod.mk.injEq] at hlist2
        obtain ⟨⟨rfl, rfl⟩, hrest⟩ := hlist2
        refine ⟨c3, r3, q3, hnext, by rw [hplug]; rfl, ?_, hrest⟩
        rw [hleft]
        rfl

theorem prev_ending (t : Tree α β) (h : BST t.root) :
    (inorder t.root = [] →
      Iterator.prev ⟨t, none, .ending⟩ = (false, ⟨t, none, .begin⟩)) ∧
    (∀ init2 k2 v2, inorder t.root = init2 ++ [(k2, v2)] →
      ∃ c2 l2 p2,
        Iterator.prev ⟨t, none, .ending⟩ =
          (true, ⟨t, some (.node k2 v2 c2 l2 .nil, p2), .between⟩) ∧
        plug (.node k2 v2 c2 l2 .nil) p2 = t.root ∧
        leftList p2 ++ inorder l2 = init2 ∧
        rightList p2 = []) := by
  cases hroot : t.root with
  | nil =>
      constructor
      · intro _
        simp only [Iterator.prev]
        rw [hroot]
        rfl
      · intro init2 k2 v2 hR
        exact absurd hR.symm (by simp [inorder])
  | node nk nv nc nl nr =>
      obtain ⟨k3, v3, c3, l3, q3, heq, hplug, hright, hlist⟩ :=
        rightmostZip_spec (.node nk nv nc nl nr) [] (by simp)
      have hprev : Iterator.prev ⟨t, none, .ending⟩ =
          (true, ⟨t, some (.node k3 v3 c3 l3 .nil, q3), .between⟩) := by
        simp only [Iterator.prev]
        rw [hroot, heq]
      constructor
      · intro h1
        simp [inorder] at h1
      · intro init2 k2 v2 hR
        have hlist2 : (leftList q3 ++ inorder l3) ++ [(k3, v3)] =
            init2 ++ [(k2, v2)] := by
          rw [show (leftList q3 ++ inorder l3) ++ [(k3, v3)] =
              leftList q3 ++ (inorder l3 ++ [(k3, v3)]) from by simp, hlist,
            show leftList ([] : Path α β) = [] from rfl, List.nil_append, hR]
        obtain ⟨hinit, hpair⟩ := append_singleton_inj hlist2
        obtain ⟨rfl, rfl⟩ := Prod.mk.inj hpair
        refine ⟨c3, l3, q3, hprev, by rw [hplug]; rfl, hinit, ?_⟩
        rw [hright]
        rfl

theorem iterKeys_between :
    ∀ (fuel : Nat) (t : Tree α β) (k : α) (v : β) (c : Color) (l r : RBNode α β)
      (p : Path α β) (rest : List (α × β)),
      plug (.node k v c l r) p = t.root → BST t.root →
      inorder r ++ rightList p = rest →
      iterKeys fuel ⟨t, some (.node k v c l r, p), .between⟩ =
        (rest.take fuel).map Prod.fst := by
  intro fuel
  induction fuel with
  | zero =>
      intro t k v c l r p rest _ _ _
      simp [iterKeys]
  | succ fuel ih =>
      intro t k v c l r p rest hplug hb hrest
      have hb2 : BST (plug (.node k v c l r) p) := by rw [hplug]; exact hb
      obtain ⟨h1, h2⟩ := next_between t k v c l r p hb2
      cases rest with
      | nil =>
          have hend := h1 hrest
          simp only [iterKeys]
          rw [hend]
          simp
      | cons kv rest2 =>
          obtain ⟨k2, v2⟩ := kv
          obtain ⟨c2, l2, r2, p2, hnext, hplug2, hleftEq, hrightEq⟩ :=
            h2 k2 v2 rest2 hrest
          have hstep : iterKeys (fuel + 1) ⟨t, some (.node k v c l r, p), .between⟩ =
              k2 :: iterKeys fuel ⟨t, some (.node k2 v2 c2 l2 r2, p2), .between⟩ := by
            simp only [iterKeys]
            rw [hnext]
            rfl
          rw [hstep, ih t k2 v2 c2 l2 r2 p2 rest2 (hplug2.trans hplug) hb hrightEq]
          simp

theorem iterKeys_begin (fuel : Nat) (t : Tree α β) (h : BST t.root) :
    iterKeys fuel t.iterator = ((inorder t.root).take fuel).map Prod.fst := by
  cases fuel with
  | zero => simp [iterKeys]
  | succ fuel =>
      obtain ⟨h1, h2⟩ := next_begin t h
      cases hio : inorder t.root with
      | nil =>
          have hend := h1 hio
          show iterKeys (fuel + 1) ⟨t, none, .begin⟩ = _
          simp only [iterKeys]
          rw [hend]
          simp
      | cons kv rest =>
          obtain ⟨k2, v2⟩ := kv
          obtain ⟨c2, r2, p2, hnext, hplug, hleftNil, hrest⟩ := h2 k2 v2 rest hio
          have hstep : iterKeys (fuel + 1) ⟨t, none, .begin⟩ =
              k2 :: iterKeys fuel ⟨t, some (.node k2 v2 c2 .nil r2, p2), .between⟩ := by
            simp only [iterKeys]
            rw [hnext]
            rfl
          show iterKeys (fuel + 1) ⟨t, none, .begin⟩ = _
          rw [hstep, iterKeys_between fuel t k2 v2 c2 .nil r2 p2 rest hplug h hrest]
          simp

/-- C7: `Keys` returns exactly the in-order key listing of the tree: it is
strictly increasing under the comparator, its length equals `size`, and
its members are exactly the stored keys. -/
theorem C7_keys [Inhabited α] (t : Tree α β) (h : t.WF) :
    t.Keys = keyList t.root ∧
    List.Pairwise (fun a b => a < b) t.Keys ∧
    (t.Keys.length : Int) = t.size ∧
    ∀ x, x ∈ t.Keys ↔ x ∈ keyList t.root := by
  have hb := h.1
  have hszn : t.size.toNat = (inorder t.root).length := by
    rw [h.2, count_eq_length_inorder]
    exact Int.toNat_natCast _
  have hiter : iterKeys t.size.toNat t.iterator = keyList t.root := by
    rw [iterKeys_begin _ t hb, hszn, List.take_length]
    rfl
  have hkeys : t.Keys = keyList t.root := by
    have hdef : t.Keys = iterKeys t.size.toNat t.iterator ++
        List.replicate (t.size.toNat - (iterKeys t.size.toNat t.iterator).length)
          default := rfl
    rw [hdef, hiter]
    have hlen : (keyList t.root).length = t.size.toNat := by
      rw [keyList, List.length_map, hszn]
    rw [hlen, Nat.sub_self]
    simp
  refine ⟨hkeys, ?_, ?_, ?_⟩
  · rw [hkeys, keyList]
    exact List.pairwise_map.2 ((BST_iff_sorted t.root).1 hb)
  · rw [hkeys, keyList, List.length_map, h.2, count_eq_length_inorder]
  · intro x
    rw [hkeys]

theorem C7_keys_witness :
    (Tree.mk (.node 2 2 .black (.node 1 1 .red .nil .nil)
        (.node 3 3 .red .nil .nil)) 3 : Tree Int Int).WF ∧
    (Tree.mk (.node 2 2 .black (.node 1 1 .red .nil .nil)
        (.node 3 3 .red .nil .nil)) 3 : Tree Int Int).Keys =
      keyList (Tree.mk (.node 2 2 .black (.node 1 1 .red .nil .nil)
        (.node 3 3 .red .nil .nil)) 3 : Tree Int Int).root :=
  ⟨by decide,
    (C7_keys (Tree.mk (.node 2 2 .black (.node 1 1 .red .nil .nil)
      (.node 3 3 .red .nil .nil)) 3) (by decide)).1⟩

/-- C8: a `Next` that has returned `false` has left the iterator at the
one-past-last sentinel; every further `Next` returns `false` and leaves it
there unchanged, and a `Prev` from that exhausted position moves to the
node holding the maximum key. Concretely, on any binary-search tree storing
exactly the pairs (1,1), (2,2), (3,3), a fresh iterator's three `Next`
calls yield keys 1, 2, 3, a fourth `Next` returns `false`, and subsequent
`Prev` calls yield keys 3, 2, 1. -/
theorem C8_iterator_exhaustion (t : Tree α β) (h : BST t.root) :
    (∀ it it2 : Iterator α β, it.next = (false, it2) →
      it2 = ⟨it.tree, none, .ending⟩ ∧ it2.next = (false, it2)) ∧
    (∀ init2 k2 v2, inorder t.root = init2 ++ [(k2, v2)] →
      ∃ c2 l2 p2,
        Iterator.prev ⟨t, none, .ending⟩ =
          (true, ⟨t, some (.node k2 v2 c2 l2 .nil, p2), .between⟩) ∧
        plug (.node k2 v2 c2 l2 .nil) p2 = t.root ∧
        ∀ x ∈ keyList t.root, x ≤ k2) ∧
    (∀ t3 : Tree Int Int, BST t3.root →
      inorder t3.root = [(1, 1), (2, 2), (3, 3)] →
      ∃ itA itB itC itD itE itF itG : Iterator Int Int,
        t3.iterator.next = (true, itA) ∧ itA.key = some 1 ∧
        itA.next = (true, itB) ∧ itB.key = some 2 ∧
        itB.next = (true, itC) ∧ itC.key = some 3 ∧
        itC.next = (false, itD) ∧ itD = ⟨t3, none, .ending⟩ ∧
        itD.prev = (true, itE) ∧ itE.key = some 3 ∧
        itE.prev = (true, itF) ∧ itF.key = some 2 ∧
        itF.prev = (true, itG) ∧ itG.key = some 1) := by
  refine ⟨?_, ?_, ?_⟩
  · intro it it2 hnext
    obtain ⟨tr, nd, pos⟩ := it
    have h2 : it2 = ⟨tr, none, .ending⟩ := by
      cases pos <;>
        · simp only [Iterator.next] at hnext
          repeat' split at hnext
          all_goals
            first
              | (simp only [Prod.mk.injEq] at hnext; exact hnext.2.symm)
              | simp at hnext
    subst h2
    exact ⟨rfl, rfl⟩
  · intro init2 k2 v2 hR
    obtain ⟨h1p, h2p⟩ := prev_ending t h
    obtain ⟨c2, l2, p2, hprev, hplug, hinit, hrightnil⟩ := h2p init2 k2 v2 hR
    refine ⟨c2, l2, p2, hprev, hplug, ?_⟩
    intro x hx
    rw [keyList, hR] at hx
    simp only [List.map_append, List.map_cons, List.map_nil, List.mem_append,
      List.mem_cons, List.not_mem_nil, or_false] at hx
    cases hx with
    | inl hx =>
        have hs : pairsSorted (inorder t.root) := (BST_iff_sorted _).1 h
        rw [hR, pairsSorted, List.pairwise_append] at hs
        obtain ⟨y, hy, rfl⟩ := List.mem_map.1 hx
        exact le_of_lt (hs.2.2 y hy (k2, v2) (by simp))
    | inr hx => exact le_of_eq hx
  · intro t3 hb3 hio3
    obtain ⟨nb1, nb2⟩ := next_begin t3 hb3
    obtain ⟨c1, r1, p1, hn1, hplug1, hleft1, hrest1⟩ :=
      nb2 1 1 [(2, 2), (3, 3)] hio3
    have hbA : BST (plug (.node 1 1 c1 .nil r1) p1) := by
      rw [hplug1]; exact hb3
    obtain ⟨na1, na2⟩ := next_between t3 1 1 c1 .nil r1 p1 hbA
    obtain ⟨cB, lB, rB, pB, hn2, hplugB, hleftB, hrestB⟩ :=
      na2 2 2 [(3, 3)] hrest1
    have hbB : BST (plug (.node 2 2 cB lB rB) pB) := by
      rw [hplugB.trans hplug1]; exact hb3
    obtain ⟨nbb1, nbb2⟩ := next_between t3 2 2 cB lB rB pB hbB
    obtain ⟨cC, lC, rC, pC, hn3, hplugC, hleftC, hrestC⟩ := nbb2 3 3 [] hrestB
    have hplugC2 : plug (.node 3 3 cC lC rC) pC = t3.root :=
      hplugC.trans (hplugB.trans hplug1)
    have hbC : BST (plug (.node 3 3 cC lC rC) pC) := by
      rw [hplugC2]; exact hb3
    obtain ⟨nc1, nc2⟩ := next_between t3 3 3 cC lC rC pC hbC
    have hn4 : Iterator.next ⟨t3, some (.node 3 3 cC lC rC, pC), .between⟩ =
        (false, ⟨t3, none, .ending⟩) := nc1 hrestC
    obtain ⟨pe1, pe2⟩ := prev_ending t3 hb3
    have hio3b : inorder t3.root = [(1, 1), (2, 2)] ++ [(3, 3)] := by
      rw [hio3]
      rfl
    obtain ⟨cE, lE, pE, hp1, hplugE, hinitE, hrightE⟩ :=
      pe2 [(1, 1), (2, 2)] 3 3 hio3b
    have hbE : BST (plug (.node 3 3 cE lE .nil) pE) := by
      rw [hplugE]; exact hb3
    obtain ⟨pv1, pv2⟩ := prev_between t3 3 3 cE lE .nil pE hbE
    obtain ⟨cF, lF, rF, pF, hp2, hplugF, hinitF, hrightF⟩ :=
      pv2 [(1, 1)] 2 2 (by rw [hinitE]; rfl)
    have hbF : BST (plug (.node 2 2 cF lF rF) pF) := by
      rw [hplugF.trans hplugE]; exact hb3
    obtain ⟨pw1, pw2⟩ := prev_between t3 2 2 cF lF rF pF hbF
    obtain ⟨cG, lG, rG, pG, hp3, hplugG, hinitG, hrightG⟩ :=
      pw2 [] 1 1 (by rw [hinitF]; rfl)
    exact ⟨⟨t3, some (.node 1 1 c1 .nil r1, p1), .between⟩,
      ⟨t3, some (.node 2 2 cB lB rB, pB), .between⟩,
      ⟨t3, some (.node 3 3 cC lC rC, pC), .between⟩,
      ⟨t3, none, .ending⟩,
      ⟨t3, some (.node 3 3 cE lE .nil, pE), .between⟩,
      ⟨t3, some (.node 2 2 cF lF rF, pF), .between⟩,
      ⟨t3, some (.node 1 1 cG lG rG, pG), .between⟩,
      hn1, rfl, hn2, rfl, hn3, rfl, hn4, rfl, hp1, rfl, hp2, rfl, hp3, rfl⟩

theorem C8_iterator_exhaustion_witness :
    BST (Tree.mk (.node 2 2 .black (.node 1 1 .red .nil .nil)
        (.node 3 3 .red .nil .nil)) 3 : Tree Int Int).root ∧
    (∃ itA itB itC itD itE itF itG : Iterator Int Int,
      (Tree.mk (.node 2 2 .black (.node 1 1 .red .nil .nil)
        (.node 3 3 .red .nil .nil)) 3 : Tree Int Int).iterator.next =
          (true, itA) ∧ itA.key = some 1 ∧
      itA.next = (true, itB) ∧ itB.key = some 2 ∧
      itB.next = (true, itC) ∧ itC.key = some 3 ∧
      itC.next = (false, itD) ∧
      itD = ⟨(Tree.mk (.node 2 2 .black (.node 1 1 .red .nil .nil)
        (.node 3 3 .red .nil .nil)) 3 : Tree Int Int), none, .ending⟩ ∧
      itD.prev = (true, itE) ∧ itE.key = some 3 ∧
      itE.prev = (true, itF) ∧ itF.key = some 2 ∧
      itF.prev = (true, itG) ∧ itG.key = some 1) :=
  ⟨by decide,
    (C8_iterator_exhaustion (Tree.mk (.node 2 2 .black (.node 1 1 .red .nil .nil)
        (.node 3 3 .red .nil .nil)) 3) (by decide)).2.2
      (Tree.mk (.node 2 2 .black (.node 1 1 .red .nil .nil)
        (.node 3 3 .red .nil .nil)) 3) (by decide) (by decide)⟩

/-- C10: `IteratorAt` yields an iterator already at the given node —
between-position, with `Key`/`Value` reading that node's key and value with
no prior `Next` — whose first `Next` moves to the node's in-order successor
(the pair right after it in the in-order listing), returning `false` when
the node holds the maximum key, and whose first `Prev` moves to the
in-order predecessor. -/
theorem C10_iterator_at (t : Tree α β) (k : α) (v : β) (c : Color)
    (l r : RBNode α β) (p : Path α β) (h : BST t.root)
    (hloc : plug (.node k v c l r) p = t.root) :
    (t.iteratorAt (.node k v c l r, p)).position = IterPos.between ∧
    (t.iteratorAt (.node k v c l r, p)).key = some k ∧
    (t.iteratorAt (.node k v c l r, p)).value = some v ∧
    inorder t.root =
      (leftList p ++ inorder l) ++ (k, v) :: (inorder r ++ rightList p) ∧
    (inorder r ++ rightList p = [] →
      (t.iteratorAt (.node k v c l r, p)).next = (false, ⟨t, none, .ending⟩)) ∧
    (∀ k2 v2 rest2, inorder r ++ rightList p = (k2, v2) :: rest2 →
      ∃ it2, (t.iteratorAt (.node k v c l r, p)).next = (true, it2) ∧
        it2.key = some k2 ∧ it2.value = some v2 ∧
        it2.position = IterPos.between) ∧
    (leftList p ++ inorder l = [] →
      (t.iteratorAt (.node k v c l r, p)).prev = (false, ⟨t, none, .begin⟩)) ∧
    (∀ init2 k2 v2, leftList p ++ inorder l = init2 ++ [(k2, v2)] →
      ∃ it2, (t.iteratorAt (.node k v c l r, p)).prev = (true, it2) ∧
        it2.key = some k2 ∧ it2.value = some v2 ∧
        it2.position = IterPos.between) := by
  have hb2 : BST (plug (.node k v c l r) p) := by rw [hloc]; exact h
  obtain ⟨hn1, hn2⟩ := next_between t k v c l r p hb2
  obtain ⟨hp1, hp2⟩ := prev_between t k v c l r p hb2
  refine ⟨rfl, rfl, rfl, ?_, hn1, ?_, hp1, ?_⟩
  · rw [← hloc, plug_inorder]
    simp [inorder]
  · intro k2 v2 rest2 hR
    obtain ⟨c2, l2, r2, p2, hnext, _, _, _⟩ := hn2 k2 v2 rest2 hR
    exact ⟨⟨t, some (.node k2 v2 c2 l2 r2, p2), .between⟩, hnext, rfl, rfl, rfl⟩
  · intro init2 k2 v2 hL
    obtain ⟨c2, l2, r2, p2, hprev, _, _, _⟩ := hp2 init2 k2 v2 hL
    exact ⟨⟨t, some (.node k2 v2 c2 l2 r2, p2), .between⟩, hprev, rfl, rfl, rfl⟩

theorem C10_iterator_at_witness :
    (BST (Tree.mk (.node 2 20 .black (.node 1 10 .red .nil .nil)
        (.node 3 30 .red .nil .nil)) 3 : Tree Int Int).root ∧
      plug (.node 1 10 .red .nil .nil)
        [.left 2 20 .black (.node 3 30 .red .nil .nil)] =
        (Tree.mk (.node 2 20 .black (.node 1 10 .red .nil .nil)
          (.node 3 30 .red .nil .nil)) 3 : Tree Int Int).root) ∧
    ((Tree.mk (.node 2 20 .black (.node 1 10 .red .nil .nil)
        (.node 3 30 .red .nil .nil)) 3 : Tree Int Int).iteratorAt
      (.node 1 10 .red .nil .nil,
        [.left 2 20 .black (.node 3 30 .red .nil .nil)])).key = some 1 :=
  ⟨⟨by decide, rfl⟩,
    (C10_iterator_at (Tree.mk (.node 2 20 .black (.node 1 10 .red .nil .nil)
        (.node 3 30 .red .nil .nil)) 3) 1 10 .red .nil .nil
      [.left 2 20 .black (.node 3 30 .red .nil .nil)] (by decide) rfl).2.1⟩

/-! ## Red-black color invariants (C1)

The fix-up proofs work on the zipper with a context-validity predicate:
every off-path subtree is red-black valid with the black height its level
demands, no red context entry has a red parent entry, and the outermost
entry (the root) is black. -/

theorem black_of_not_red {c : Color} (h : ¬ c = .red) : c = .black := by
  cases c
  · exact absurd rfl h
  · rfl

theorem red_of_not_black {c : Color} (h : ¬ c = .black) : c = .red := by
  cases c
  · rfl
  · exact absurd rfl h

omit [LinearOrder α] in
theorem nodeColor_paint_black (n : RBNode α β) :
    nodeColor (n.paint .black) = .black := by
  cases n <;> rfl

omit [LinearOrder α] in
theorem ok_paint_black {n : RBNode α β} (h : ok n) : ok (n.paint .black) := by
  cases n with
  | nil => trivial
  | node k v c l r => exact ⟨fun hc => Color.noConfusion hc, h.2.1, h.2.2⟩

omit [LinearOrder α] in
theorem ok_paint_red {n : RBNode α β} (h : ok n)
    (hl : nodeColor n.left = .black) (hr : nodeColor n.right = .black) :
    ok (n.paint .red) := by
  cases n with
  | nil => trivial
  | node k v c l r => exact ⟨fun _ => ⟨hl, hr⟩, h.2.1, h.2.2⟩

omit [LinearOrder α] in
theorem balanced_paint {n : RBNode α β} (c : Color) (h : balanced n) :
    balanced (n.paint c) := by
  cases n with
  | nil => trivial
  | node k v c0 l r => exact h

omit [LinearOrder α] in
theorem bh_paint_black_of_red {n : RBNode α β} (h : nodeColor n = .red) :
    bh (n.paint .black) = bh n + 1 := by
  cases n with
  | nil => exact absurd h (by simp [nodeColor])
  | node k v c l r =>
      have hc : c = .red := h
      subst hc
      simp [RBNode.paint, bh]

omit [LinearOrder α] in
theorem node_of_bh_pos {n : RBNode α β} {H : Nat} (h : bh n = H + 1) :
    ∃ k v c l r, n = RBNode.node k v c l r := by
  cases n with
  | nil => exact absurd h (by simp [bh])
  | node k v c l r => exact ⟨k, v, c, l, r, rfl⟩

/-- The color of the innermost context entry; `red` when the context is
empty, so that a validity constraint `… → pColor p = .black` also rules out
a red root. -/
def pColor : Path α β → Color
  | [] => .red
  | e :: _ => e.color

/-- Context validity for the color invariants: each off-path subtree is
internally valid with the black height its level demands, a red entry has a
black sibling subtree and a black parent entry, and the outermost entry is
black.  The number is the black height the hole expects. -/
def pathOK : Path α β → Nat → Prop
  | [], _ => True
  | e :: tail, H =>
      ok e.sib ∧ balanced e.sib ∧ bh e.sib = H ∧
      (e.color = .red → nodeColor e.sib = .black ∧ pColor tail = .black) ∧
      pathOK tail (H + (if e.color = .black then 1 else 0))

omit [LinearOrder α] in
theorem plug_RB : ∀ (p : Path α β) (H : Nat) (n : RBNode α β),
    pathOK p H → ok n → balanced n → bh n = H →
    (nodeColor n = .red → pColor p = .black) →
    ok (plug n p) ∧ balanced (plug n p) ∧
      (p = [] → plug n p = n) ∧ (p ≠ [] → nodeColor (plug n p) = .black) := by
  intro p
  induction p with
  | nil =>
      intro H n _ hok hbal _ _
      exact ⟨hok, hbal, fun _ => rfl, fun h => absurd rfl h⟩
  | cons e tail ih =>
      intro H n hp hok hbal hbh hred
      have hpc : ok e.sib ∧ balanced e.sib ∧ bh e.sib = H ∧
          (e.color = .red → nodeColor e.sib = .black ∧ pColor tail = .black) ∧
          pathOK tail (H + (if e.color = .black then 1 else 0)) := hp
      obtain ⟨hsok, hsbal, hsbh, hredc, htail⟩ := hpc
      have hnb : e.color = .red → nodeColor n = .black := by
        intro hc
        refine black_of_not_red fun hn => ?_
        have h2 := hred hn
        rw [show pColor (e :: tail) = e.color from rfl, hc] at h2
        exact Color.noConfusion h2
      have hres : ok (plug (plugStep n e) tail) ∧
          balanced (plug (plugStep n e) tail) ∧
          (tail = [] → plug (plugStep n e) tail = plugStep n e) ∧
          (tail ≠ [] → nodeColor (plug (plugStep n e) tail) = .black) := by
        cases e with
        | left pk pv pc sib =>
            refine ih (H + (if pc = .black then 1 else 0)) _ htail
              ⟨?_, hok, hsok⟩ ⟨hbh.trans hsbh.symm, hbal, hsbal⟩ ?_ ?_
            · intro hc
              exact ⟨hnb hc, (hredc hc).1⟩
            · show bh n + (if pc = .black then 1 else 0) = _
              rw [hbh]
            · intro hc
              exact (hredc hc).2
        | right pk pv pc sib =>
            refine ih (H + (if pc = .black then 1 else 0)) _ htail
              ⟨?_, hsok, hok⟩ ⟨hsbh.trans hbh.symm, hsbal, hbal⟩ ?_ ?_
            · intro hc
              exact ⟨(hredc hc).1, hnb hc⟩
            · have h3 : bh sib = H := hsbh
              show bh sib + (if pc = .black then 1 else 0) = _
              rw [h3]
            · intro hc
              exact (hredc hc).2
      have hcolor : nodeColor (plug (plugStep n e) tail) = .black := by
        cases tail with
        | nil =>
            rw [hres.2.2.1 rfl]
            have hpb : e.color = .black := by
              refine black_of_not_red fun hc => ?_
              exact Color.noConfusion (hredc hc).2
            cases e with
            | left pk pv pc sib => exact hpb
            | right pk pv pc sib => exact hpb
        | cons f ft => exact hres.2.2.2 (by simp)
      exact ⟨hres.1, hres.2.1, fun h => List.noConfusion h, fun _ => hcolor⟩

theorem updateInPlace_colors (k : α) (v : β) :
    ∀ n : RBNode α β,
      nodeColor (updateInPlace k v n) = nodeColor n ∧
      bh (updateInPlace k v n) = bh n ∧
      (ok n → ok (updateInPlace k v n)) ∧
      (balanced n → balanced (updateInPlace k v n)) := by
  intro n
  induction n with
  | nil => rw [updateInPlace]; exact ⟨rfl, rfl, id, id⟩
  | node nk nv c l r ihl ihr =>
      rw [updateInPlace]
      by_cases h0 : cmp k nk = 0
      · rw [if_pos h0]
        exact ⟨rfl, rfl, id, id⟩
      · rw [if_neg h0]
        by_cases h1 : cmp k nk < 0
        · rw [if_pos h1]
          obtain ⟨ihc, ihb, ihok, ihbal⟩ := ihl
          refine ⟨rfl, ?_, ?_, ?_⟩
          · show bh (updateInPlace k v l) + _ = bh l + _
            rw [ihb]
          · rintro ⟨hc, hl, hr⟩
            exact ⟨fun hcr => ⟨ihc.trans (hc hcr).1, (hc hcr).2⟩, ihok hl, hr⟩
          · rintro ⟨hbb, hl, hr⟩
            exact ⟨ihb.trans hbb, ihbal hl, hr⟩
        · rw [if_neg h1]
          obtain ⟨ihc, ihb, ihok, ihbal⟩ := ihr
          refine ⟨rfl, rfl, ?_, ?_⟩
          · rintro ⟨hc, hl, hr⟩
            exact ⟨fun hcr => ⟨(hc hcr).1, ihc.trans (hc hcr).2⟩, hl, ihok hr⟩
          · rintro ⟨hbb, hl, hr⟩
            exact ⟨hbb.trans ihb.symm, hl, ihbal hr⟩

theorem putLoop_inserted_pathOK (k : α) (v : β) :
    ∀ (n : RBNode α β) (p : Path α β) (H : Nat),
      ok n → balanced n → bh n = H → pathOK p H →
      (nodeColor n = .red → pColor p = .black) →
      ∀ q, putLoop k v n p = .inserted q → pathOK q 0 := by
  intro n
  induction n with
  | nil =>
      intro p H hok hbal hbh hp hred q heq
      have h2 : (PutResult.inserted p : PutResult α β) = .inserted q := heq
      injection h2 with h3
      have hH : H = 0 := by
        have h4 : (0 : Nat) = H := hbh
        omega
      subst hH
      rw [← h3]
      exact hp
  | node nk nv c l r ihl ihr =>
      intro p H hok hbal hbh hp hred q heq
      obtain ⟨hokc, hokl, hokr⟩ := hok
      obtain ⟨hbb, hball, hbalr⟩ := hbal
      rw [putLoop_node] at heq
      by_cases h0 : cmp k nk = 0
      · rw [if_pos h0] at heq
        exact PutResult.noConfusion heq
      · rw [if_neg h0] at heq
        by_cases h1 : cmp k nk < 0
        · rw [if_pos h1] at heq
          have hbhl : bh l + (if c = .black then 1 else 0) = H := hbh
          have hpath2 : pathOK (.left nk nv c r :: p) (bh l) := by
            refine ⟨hokr, hbalr, ?_, ?_, ?_⟩
            · show bh r = bh l
              exact hbb.symm
            · intro hc
              have hcc : c = .red := hc
              exact ⟨(hokc hcc).2, hred hcc⟩
            · show pathOK p (bh l + (if c = .black then 1 else 0))
              rw [hbhl]
              exact hp
          cases l with
          | nil =>
              have h2 : (PutResult.inserted (.left nk nv c r :: p) :
                  PutResult α β) = .inserted q := heq
              injection h2 with h3
              rw [← h3]
              exact hpath2
          | node lk lv lc ll lr =>
              refine ihl _ (bh (RBNode.node lk lv lc ll lr)) hokl hball rfl
                hpath2 ?_ q heq
              intro hlred
              show c = .black
              refine black_of_not_red fun hcr => ?_
              have h5 := (hokc hcr).1
              rw [hlred] at h5
              exact Color.noConfusion h5
        · rw [if_neg h1] at heq
          have hbhl : bh l + (if c = .black then 1 else 0) = H := hbh
          have hpath2 : pathOK (.right nk nv c l :: p) (bh r) := by
            refine ⟨hokl, hball, ?_, ?_, ?_⟩
            · show bh l = bh r
              exact hbb
            · intro hc
              have hcc : c = .red := hc
              exact ⟨(hokc hcc).1, hred hcc⟩
            · show pathOK p (bh r + (if c = .black then 1 else 0))
              rw [← hbb, hbhl]
              exact hp
          cases r with
          | nil =>
              have h2 : (PutResult.inserted (.right nk nv c l :: p) :
                  PutResult α β) = .inserted q := heq
              injection h2 with h3
              rw [← h3]
              exact hpath2
          | node rk rv rc rl rr =>
              refine ihr _ (bh (RBNode.node rk rv rc rl rr)) hokr hbalr rfl
                hpath2 ?_ q heq
              intro hrred
              show c = .black
              refine black_of_not_red fun hcr => ?_
              have h5 := (hokc hcr).2
              rw [hrred] at h5
              exact Color.noConfusion h5

theorem insertCase5_RB_ll (m : RBNode α β) (ak : α) (av : β) (ac : Color)
    (s : RBNode α β) (bk : α) (bv : β) (bc : Color) (u : RBNode α β)
    (tail : Path α β) (H : Nat)
    (hokm : ok m) (hbalm : balanced m) (hbhm : bh m = H)
    (hoks : ok s) (hbals : balanced s) (hbhs : bh s = H)
    (hsb : nodeColor s = .black)
    (hoku : ok u) (hbalu : balanced u) (hbhu : bh u = H)
    (hub : nodeColor u = .black)
    (htail : pathOK tail (H + 1)) :
    ok (insertCase5 m (.left ak av ac s :: .left bk bv bc u :: tail)) ∧
    balanced (insertCase5 m (.left ak av ac s :: .left bk bv bc u :: tail)) ∧
    nodeColor (insertCase5 m (.left ak av ac s :: .left bk bv bc u :: tail)) =
      .black := by
  have hT : ok (RBNode.node ak av .black m (.node bk bv .red s u)) ∧
      balanced (RBNode.node ak av .black m (.node bk bv .red s u)) ∧
      bh (RBNode.node ak av .black m (.node bk bv .red s u)) = H + 1 := by
    refine ⟨⟨fun hc => Color.noConfusion hc, hokm,
      fun _ => ⟨hsb, hub⟩, hoks, hoku⟩, ⟨?_, hbalm, hbhs.trans hbhu.symm, hbals,
      hbalu⟩, ?_⟩
    · show bh m = bh s + (if Color.red = .black then 1 else 0)
      simp [hbhm, hbhs]
    · show bh m + (if Color.black = .black then 1 else 0) = H + 1
      simp [hbhm]
  have hplug := plug_RB tail (H + 1)
    (RBNode.node ak av .black m (.node bk bv .red s u)) htail hT.1 hT.2.1 hT.2.2
    (fun hc => Color.noConfusion hc)
  have hcol : nodeColor (plug
      (RBNode.node ak av .black m (.node bk bv .red s u)) tail) = .black := by
    cases tail with
    | nil => rw [hplug.2.2.1 rfl]; rfl
    | cons f ft => exact hplug.2.2.2 (by simp)
  simp only [insertCase5]
  exact ⟨hplug.1, hplug.2.1, hcol⟩

theorem insertCase5_RB_rr (m : RBNode α β) (ak : α) (av : β) (ac : Color)
    (s : RBNode α β) (bk : α) (bv : β) (bc : Color) (u : RBNode α β)
    (tail : Path α β) (H : Nat)
    (hokm : ok m) (hbalm : balanced m) (hbhm : bh m = H)
    (hoks : ok s) (hbals : balanced s) (hbhs : bh s = H)
    (hsb : nodeColor s = .black)
    (hoku : ok u) (hbalu : balanced u) (hbhu : bh u = H)
    (hub : nodeColor u = .black)
    (htail : pathOK tail (H + 1)) :
    ok (insertCase5 m (.right ak av ac s :: .right bk bv bc u :: tail)) ∧
    balanced (insertCase5 m (.right ak av ac s :: .right bk bv bc u :: tail)) ∧
    nodeColor (insertCase5 m (.right ak av ac s :: .right bk bv bc u :: tail)) =
      .black := by
  have hT : ok (RBNode.node ak av .black (.node bk bv .red u s) m) ∧
      balanced (RBNode.node ak av .black (.node bk bv .red u s) m) ∧
      bh (RBNode.node ak av .black (.node bk bv .red u s) m) = H + 1 := by
    refine ⟨⟨fun hc => Color.noConfusion hc,
      ⟨fun _ => ⟨hub, hsb⟩, hoku, hoks⟩, hokm⟩,
      ⟨?_, ⟨hbhu.trans hbhs.symm, hbalu, hbals⟩, hbalm⟩, ?_⟩
    · show bh u + (if Color.red = .black then 1 else 0) = bh m
      simp [hbhm, hbhu]
    · show (bh u + (if Color.red = .black then 1 else 0)) +
        (if Color.black = .black then 1 else 0) = H + 1
      simp [hbhu]
  have hplug := plug_RB tail (H + 1)
    (RBNode.node ak av .black (.node bk bv .red u s) m) htail hT.1 hT.2.1 hT.2.2
    (fun hc => Color.noConfusion hc)
  have hcol : nodeColor (plug
      (RBNode.node ak av .black (.node bk bv .red u s) m) tail) = .black := by
    cases tail with
    | nil => rw [hplug.2.2.1 rfl]; rfl
    | cons f ft => exact hplug.2.2.2 (by simp)
  simp only [insertCase5]
  exact ⟨hplug.1, hplug.2.1, hcol⟩

theorem insertCase4_RB (n : RBNode α β) (e1 e2 : PathEntry α β)
    (tail : Path α β) (H : Nat)
    (hp : pathOK (e1 :: e2 :: tail) H)
    (hokn : ok n) (hbaln : balanced n) (hbhn : bh n = H)
    (hnred : nodeColor n = .red) (h1red : e1.color = .red)
    (hub : nodeColor e2.sib = .black) :
    ok (insertCase4 n (e1 :: e2 :: tail)) ∧
    balanced (insertCase4 n (e1 :: e2 :: tail)) ∧
    nodeColor (insertCase4 n (e1 :: e2 :: tail)) = .black := by
  have hp1 : ok e1.sib ∧ balanced e1.sib ∧ bh e1.sib = H ∧
      (e1.color = .red → nodeColor e1.sib = .black ∧
        pColor (e2 :: tail) = .black) ∧
      pathOK (e2 :: tail) (H + (if e1.color = .black then 1 else 0)) := hp
  obtain ⟨hos1, hbs1, hbh1, hredc1, hp2⟩ := hp1
  have hs1b : nodeColor e1.sib = .black := (hredc1 h1red).1
  have h2b : pColor (e2 :: tail) = .black := (hredc1 h1red).2
  rw [h1red] at hp2
  have hp2c : ok e2.sib ∧ balanced e2.sib ∧ bh e2.sib = H ∧
      (e2.color = .red → nodeColor e2.sib = .black ∧ pColor tail = .black) ∧
      pathOK tail (H + (if e2.color = .black then 1 else 0)) := hp2
  obtain ⟨hos2, hbs2, hbh2, hredc2, hp3a⟩ := hp2c
  have h2c : e2.color = .black := h2b
  rw [h2c] at hp3a
  have hp3 : pathOK tail (H + 1) := hp3a
  obtain ⟨nk1, nv1, nc1, nl1, nr1, rfl⟩ :
      ∃ k2 v2 c2 l2 r2, n = RBNode.node k2 v2 c2 l2 r2 := by
    cases n with
    | nil => exact absurd hnred (by simp [nodeColor])
    | node a b c2 d e => exact ⟨a, b, c2, d, e, rfl⟩
  have hnc1 : nc1 = .red := hnred
  subst hnc1
  obtain ⟨hokc, hokl, hokr⟩ := hokn
  have hkb := hokc rfl
  obtain ⟨hbbn, hbal_l, hbal_r⟩ := hbaln
  have hbh_l : bh nl1 = H := by
    have h6 : bh nl1 + 0 = H := hbhn
    omega
  have hbh_r : bh nr1 = H := by rw [← hbbn]; exact hbh_l
  cases e1 with
  | left pk pv pc s1 =>
      have hpc : pc = .red := h1red
      cases e2 with
      | left gk gv gc u =>
          show ok (insertCase5 (RBNode.node nk1 nv1 .red nl1 nr1)
              (.left pk pv pc s1 :: .left gk gv gc u :: tail)) ∧ _ ∧ _
          exact insertCase5_RB_ll (RBNode.node nk1 nv1 .red nl1 nr1)
            pk pv pc s1 gk gv gc u tail H ⟨hokc, hokl, hokr⟩
            ⟨hbbn, hbal_l, hbal_r⟩ hbhn hos1 hbs1 hbh1 hs1b hos2 hbs2 hbh2
            hub hp3
      | right gk gv gc u =>
          show ok (insertCase5 (RBNode.node pk pv pc nr1 s1)
              (.right nk1 nv1 .red nl1 :: .right gk gv gc u :: tail)) ∧ _ ∧ _
          refine insertCase5_RB_rr (RBNode.node pk pv pc nr1 s1)
            nk1 nv1 .red nl1 gk gv gc u tail H
            ⟨fun _ => ⟨hkb.2, hs1b⟩, hokr, hos1⟩
            ⟨hbh_r.trans hbh1.symm, hbal_r, hbs1⟩ ?_ hokl hbal_l hbh_l hkb.1
            hos2 hbs2 hbh2 hub hp3
          show bh nr1 + (if pc = .black then 1 else 0) = H
          rw [hpc]
          simp [hbh_r]
  | right pk pv pc s1 =>
      have hpc : pc = .red := h1red
      cases e2 with
      | left gk gv gc u =>
          show ok (insertCase5 (RBNode.node pk pv pc s1 nl1)
              (.left nk1 nv1 .red nr1 :: .left gk gv gc u :: tail)) ∧ _ ∧ _
          refine insertCase5_RB_ll (RBNode.node pk pv pc s1 nl1)
            nk1 nv1 .red nr1 gk gv gc u tail H
            ⟨fun _ => ⟨hs1b, hkb.1⟩, hos1, hokl⟩
            ⟨hbh1.trans hbh_l.symm, hbs1, hbal_l⟩ ?_ hokr hbal_r hbh_r hkb.2
            hos2 hbs2 hbh2 hub hp3
          have hbh1b : bh s1 = H := hbh1
          show bh s1 + (if pc = .black then 1 else 0) = H
          rw [hpc]
          simp [hbh1b]
      | right gk gv gc u =>
          show ok (insertCase5 (RBNode.node nk1 nv1 .red nl1 nr1)
              (.right pk pv pc s1 :: .right gk gv gc u :: tail)) ∧ _ ∧ _
          exact insertCase5_RB_rr (RBNode.node nk1 nv1 .red nl1 nr1)
            pk pv pc s1 gk gv gc u tail H ⟨hokc, hokl, hokr⟩
            ⟨hbbn, hbal_l, hbal_r⟩ hbhn hos1 hbs1 hbh1 hs1b hos2 hbs2 hbh2
            hub hp3

theorem insertCase1_RB (n : RBNode α β) (p : Path α β) (H : Nat)
    (hp : pathOK p H) (hokn : ok n) (hbaln : balanced n) (hbhn : bh n = H)
    (hnred : nodeColor n = .red) :
    ok (insertCase1 n p) ∧ balanced (insertCase1 n p) ∧
      nodeColor (insertCase1 n p) = .black := by
  refine insertCase1.induct
    (fun n p => ∀ H, pathOK p H → ok n → balanced n → bh n = H →
      nodeColor n = .red →
      ok (insertCase1 n p) ∧ balanced (insertCase1 n p) ∧
        nodeColor (insertCase1 n p) = .black)
    (fun n p => ∀ H, pathOK p H → ok n → balanced n → bh n = H →
      nodeColor n = .red → p ≠ [] →
      ok (insertCase2 n p) ∧ balanced (insertCase2 n p) ∧
        nodeColor (insertCase2 n p) = .black)
    (fun n p => ∀ H, pathOK p H → ok n → balanced n → bh n = H →
      nodeColor n = .red → p ≠ [] → pColor p = .red →
      ok (insertCase3 n p) ∧ balanced (insertCase3 n p) ∧
        nodeColor (insertCase3 n p) = .black)
    ?_ ?_ ?_ ?_ ?_ ?_ ?_ ?_ n p H hp hokn hbaln hbhn hnred
  · intro n H hp hok hbal hbh hred
    rw [insertCase1]
    exact ⟨ok_paint_black hok, balanced_paint _ hbal, nodeColor_paint_black n⟩
  · intro n e p ih H hp hok hbal hbh hred
    rw [insertCase1]
    exact ih H hp hok hbal hbh hred (by simp)
  · intro n e rest hb H hp hok hbal hbh hred hne
    rw [insertCase2, if_pos hb]
    have hplug := plug_RB (e :: rest) H n hp hok hbal hbh
      (fun _ => show pColor (e :: rest) = .black from hb)
    exact ⟨hplug.1, hplug.2.1, hplug.2.2.2 (by simp)⟩
  · intro n e rest hb ih H hp hok hbal hbh hred hne
    rw [insertCase2, if_neg hb]
    exact ih H hp hok hbal hbh hred (by simp) (red_of_not_black hb)
  · intro n H hp hok hbal hbh hred hne
    exact absurd rfl hne
  · intro n e1 e2 tail hured ih H hp hok hbal hbh hnred2 hne hpc
    rw [insertCase3, if_pos hured]
    have hp1 : ok e1.sib ∧ balanced e1.sib ∧ bh e1.sib = H ∧
        (e1.color = .red → nodeColor e1.sib = .black ∧
          pColor (e2 :: tail) = .black) ∧
        pathOK (e2 :: tail) (H + (if e1.color = .black then 1 else 0)) := hp
    obtain ⟨hos1, hbs1, hbh1, hredc1, hp2⟩ := hp1
    have h1red : e1.color = .red := hpc
    have hs1b : nodeColor e1.sib = .black := (hredc1 h1red).1
    have h2b : pColor (e2 :: tail) = .black := (hredc1 h1red).2
    rw [h1red] at hp2
    have hp2c : ok e2.sib ∧ balanced e2.sib ∧ bh e2.sib = H ∧
        (e2.color = .red → nodeColor e2.sib = .black ∧ pColor tail = .black) ∧
        pathOK tail (H + (if e2.color = .black then 1 else 0)) := hp2
    obtain ⟨hos2, hbs2, hbh2, hredc2, hp3a⟩ := hp2c
    have h2c : e2.color = .black := h2b
    rw [h2c] at hp3a
    have hp3 : pathOK tail (H + 1) := hp3a
    have hbhu2 : bh (e2.sib.paint .black) = H + 1 := by
      rw [bh_paint_black_of_red hured]
      have h6 : bh e2.sib = H := hbh2
      omega
    have hoku2 : ok (e2.sib.paint .black) := ok_paint_black hos2
    have hbalu2 : balanced (e2.sib.paint .black) := balanced_paint _ hbs2
    have hcu2 : nodeColor (e2.sib.paint .black) = .black :=
      nodeColor_paint_black _
    cases e1 with
    | left pk pv pc s1 =>
        have hos1b : ok s1 := hos1
        have hbs1b : balanced s1 := hbs1
        have hbh1b : bh s1 = H := hbh1
        have hs1bb : nodeColor s1 = .black := hs1b
        cases e2 with
        | left gk gv gc u =>
            refine ih (H + 1) hp3 ⟨fun _ => ⟨rfl, hcu2⟩,
              ⟨fun hc => Color.noConfusion hc, hok, hos1b⟩, hoku2⟩
              ⟨?_, ⟨hbh.trans hbh1b.symm, hbal, hbs1b⟩, hbalu2⟩ ?_ rfl
            · show bh n + (if Color.black = .black then 1 else 0) =
                bh (u.paint .black)
              have h7 : bh (u.paint .black) = H + 1 := hbhu2
              simp [hbh, h7]
            · show (bh n + (if Color.black = .black then 1 else 0)) +
                (if Color.red = .black then 1 else 0) = H + 1
              simp [hbh]
        | right gk gv gc u =>
            refine ih (H + 1) hp3 ⟨fun _ => ⟨hcu2, rfl⟩, hoku2,
              ⟨fun hc => Color.noConfusion hc, hok, hos1b⟩⟩
              ⟨?_, hbalu2, ⟨hbh.trans hbh1b.symm, hbal, hbs1b⟩⟩ ?_ rfl
            · show bh (u.paint .black) =
                bh n + (if Color.black = .black then 1 else 0)
              have h7 : bh (u.paint .black) = H + 1 := hbhu2
              simp [hbh, h7]
            · show bh (u.paint .black) + (if Color.red = .black then 1 else 0) =
                H + 1
              have h7 : bh (u.paint .black) = H + 1 := hbhu2
              simp [h7]
    | right pk pv pc s1 =>
        have hos1b : ok s1 := hos1
        have hbs1b : balanced s1 := hbs1
        have hbh1b : bh s1 = H := hbh1
        have hs1bb : nodeColor s1 = .black := hs1b
        cases e2 with
        | left gk gv gc u =>
            refine ih (H + 1) hp3 ⟨fun _ => ⟨rfl, hcu2⟩,
              ⟨fun hc => Color.noConfusion hc, hos1b, hok⟩, hoku2⟩
              ⟨?_, ⟨hbh1b.trans hbh.symm, hbs1b, hbal⟩, hbalu2⟩ ?_ rfl
            · show bh s1 + (if Color.black = .black then 1 else 0) =
                bh (u.paint .black)
              have h7 : bh (u.paint .black) = H + 1 := hbhu2
              simp [hbh1b, h7]
            · show (bh s1 + (if Color.black = .black then 1 else 0)) +
                (if Color.red = .black then 1 else 0) = H + 1
              simp [hbh1b]
        | right gk gv gc u =>
            refine ih (H + 1) hp3 ⟨fun _ => ⟨hcu2, rfl⟩, hoku2,
              ⟨fun hc => Color.noConfusion hc, hos1b, hok⟩⟩
              ⟨?_, hbalu2, ⟨hbh1b.trans hbh.symm, hbs1b, hbal⟩⟩ ?_ rfl
            · show bh (u.paint .black) =
                bh s1 + (if Color.black = .black then 1 else 0)
              have h7 : bh (u.paint .black) = H + 1 := hbhu2
              simp [hbh1b, h7]
            · show bh (u.paint .black) + (if Color.red = .black then 1 else 0) =
                H + 1
              have h7 : bh (u.paint .black) = H + 1 := hbhu2
              simp [h7]
  · intro n e1 e2 tail hured H hp hok hbal hbh hnred2 hne hpc
    rw [insertCase3, if_neg hured]
    exact insertCase4_RB n e1 e2 tail H hp hok hbal hbh hnred2 hpc
      (black_of_not_red hured)
  · intro n p hshort H hp hok hbal hbh hnred2 hne hpc
    cases p with
    | nil => exact absurd rfl hne
    | cons e p2 =>
        cases p2 with
        | nil =>
            have hp1 : ok e.sib ∧ balanced e.sib ∧ bh e.sib = H ∧
                (e.color = .red → nodeColor e.sib = .black ∧
                  pColor ([] : Path α β) = .black) ∧
                pathOK ([] : Path α β)
                  (H + (if e.color = .black then 1 else 0)) := hp
            have h2 := (hp1.2.2.2.1 hpc).2
            exact Color.noConfusion h2
        | cons e2 t => exact absurd rfl (hshort e e2 t)

theorem RB_Put (t : Tree α β) (k : α) (v : β) (h : t.RB) : (t.Put k v).RB := by
  obtain ⟨hwf, hroot, hok, hbal⟩ := h
  refine ⟨WF_Put t k v hwf, ?_⟩
  unfold Tree.Put
  match hr : t.root with
  | .nil =>
      have h1 : insertCase1 (RBNode.node k v .red .nil .nil) ([] : Path α β) =
          RBNode.node k v .black .nil .nil := by
        rw [insertCase1]
        rfl
      show nodeColor (insertCase1 (RBNode.node k v .red .nil .nil) []) = .black ∧ _
      rw [h1]
      exact ⟨rfl, ⟨fun hc => Color.noConfusion hc, trivial, trivial⟩,
        ⟨rfl, trivial, trivial⟩⟩
  | .node nk nv c l r =>
      rw [hr] at hroot hok hbal
      have hb2 : BST t.root := hwf.1
      rw [hr] at hb2
      match hput : putLoop k v (.node nk nv c l r) [] with
      | .updated t2 =>
          have hmem : k ∈ (inorder (RBNode.node nk nv c l r)).map Prod.fst := by
            have h2 := (putLoop_spec k v (.node nk nv c l r) none none [] hb2).2
            rw [hput] at h2
            exact h2.1 rfl
          have hupd := putLoop_mem_updated k v (.node nk nv c l r) none none []
            hb2 hmem
          rw [hput] at hupd
          injection hupd with ht2
          obtain ⟨huc, hub, huok, hubal⟩ :=
            updateInPlace_colors k v (RBNode.node nk nv c l r)
          simp only [hput]
          show nodeColor t2 = .black ∧ ok t2 ∧ balanced t2
          rw [ht2]
          show nodeColor (updateInPlace k v (RBNode.node nk nv c l r)) = .black ∧
            ok (updateInPlace k v (RBNode.node nk nv c l r)) ∧
            balanced (updateInPlace k v (RBNode.node nk nv c l r))
          rw [huc]
          exact ⟨hroot, huok hok, hubal hbal⟩
      | .inserted q =>
          have hq : pathOK q 0 :=
            putLoop_inserted_pathOK k v (.node nk nv c l r) []
              (bh (.node nk nv c l r)) hok hbal rfl trivial
              (fun hc => Color.noConfusion (hroot.symm.trans hc)) q hput
          have hfix := insertCase1_RB (RBNode.node k v .red .nil .nil) q 0 hq
            ⟨fun _ => ⟨rfl, rfl⟩, trivial, trivial⟩ ⟨rfl, trivial, trivial⟩
            rfl rfl
          simp only [hput]
          exact ⟨hfix.2.2, hfix.1, hfix.2.1⟩

theorem deleteCase6_RB_left (pk : α) (pv : β) (pc : Color) (sk : α) (sv : β)
    (sc : Color) (sl sr : RBNode α β) (tail : Path α β) (H : Nat)
    (hp : pathOK (.left pk pv pc (.node sk sv sc sl sr) :: tail) (H + 1))
    (hsb : sc = .black) (hdist : nodeColor sr = .red) :
    pathOK (deleteCase6 (.left pk pv pc (.node sk sv sc sl sr) :: tail)) H ∧
    pColor (deleteCase6 (.left pk pv pc (.node sk sv sc sl sr) :: tail)) =
      .black := by
  have heq : deleteCase6 (.left pk pv pc (.node sk sv sc sl sr) :: tail) =
      .left pk pv .black sl :: .left sk sv pc (sr.paint .black) :: tail := by
    simp [deleteCase6, hdist]
  rw [heq]
  have hpc0 : ok (RBNode.node sk sv sc sl sr) ∧
      balanced (RBNode.node sk sv sc sl sr) ∧
      bh (RBNode.node sk sv sc sl sr) = H + 1 ∧
      (pc = .red → nodeColor (RBNode.node sk sv sc sl sr) = .black ∧
        pColor tail = .black) ∧
      pathOK tail ((H + 1) + (if pc = .black then 1 else 0)) := hp
  obtain ⟨hos, hbs, hbhS, hredc, htail⟩ := hpc0
  have hos2 : (sc = .red → nodeColor sl = .black ∧ nodeColor sr = .black) ∧
      ok sl ∧ ok sr := hos
  obtain ⟨hcs, hosl, hosr⟩ := hos2
  have hbs2 : bh sl = bh sr ∧ balanced sl ∧ balanced sr := hbs
  obtain ⟨hbhe, hbsl, hbsr⟩ := hbs2
  subst hsb
  have hbl : bh sl = H := by
    have h6 : bh sl + 1 = H + 1 := hbhS
    omega
  have hbr : bh sr = H := by rw [← hbhe]; exact hbl
  refine ⟨⟨hosl, hbsl, hbl, ?_, ok_paint_black hosr, balanced_paint _ hbsr,
    ?_, ?_, ?_⟩, rfl⟩
  · intro hc
    exact Color.noConfusion hc
  · show bh (sr.paint .black) = H + 1
    rw [bh_paint_black_of_red hdist, hbr]
  · intro hc
    exact ⟨nodeColor_paint_black _, (hredc hc).2⟩
  · show pathOK tail ((H + 1) + (if pc = .black then 1 else 0))
    exact htail

theorem deleteCase6_RB_right (pk : α) (pv : β) (pc : Color) (sk : α) (sv : β)
    (sc : Color) (sl sr : RBNode α β) (tail : Path α β) (H : Nat)
    (hp : pathOK (.right pk pv pc (.node sk sv sc sl sr) :: tail) (H + 1))
    (hsb : sc = .black) (hdist : nodeColor sl = .red) :
    pathOK (deleteCase6 (.right pk pv pc (.node sk sv sc sl sr) :: tail)) H ∧
    pColor (deleteCase6 (.right pk pv pc (.node sk sv sc sl sr) :: tail)) =
      .black := by
  have heq : deleteCase6 (.right pk pv pc (.node sk sv sc sl sr) :: tail) =
      .right pk pv .black sr :: .right sk sv pc (sl.paint .black) :: tail := by
    simp [deleteCase6, hdist]
  rw [heq]
  have hpc0 : ok (RBNode.node sk sv sc sl sr) ∧
      balanced (RBNode.node sk sv sc sl sr) ∧
      bh (RBNode.node sk sv sc sl sr) = H + 1 ∧
      (pc = .red → nodeColor (RBNode.node sk sv sc sl sr) = .black ∧
        pColor tail = .black) ∧
      pathOK tail ((H + 1) + (if pc = .black then 1 else 0)) := hp
  obtain ⟨hos, hbs, hbhS, hredc, htail⟩ := hpc0
  have hos2 : (sc = .red → nodeColor sl = .black ∧ nodeColor sr = .black) ∧
      ok sl ∧ ok sr := hos
  obtain ⟨hcs, hosl, hosr⟩ := hos2
  have hbs2 : bh sl = bh sr ∧ balanced sl ∧ balanced sr := hbs
  obtain ⟨hbhe, hbsl, hbsr⟩ := hbs2
  subst hsb
  have hbl : bh sl = H := by
    have h6 : bh sl + 1 = H + 1 := hbhS
    omega
  have hbr : bh sr = H := by rw [← hbhe]; exact hbl
  refine ⟨⟨hosr, hbsr, hbr, ?_, ok_paint_black hosl, balanced_paint _ hbsl,
    ?_, ?_, ?_⟩, rfl⟩
  · intro hc
    exact Color.noConfusion hc
  · show bh (sl.paint .black) = H + 1
    rw [bh_paint_black_of_red hdist, hbl]
  · intro hc
    exact ⟨nodeColor_paint_black _, (hredc hc).2⟩
  · show pathOK tail ((H + 1) + (if pc = .black then 1 else 0))
    exact htail

theorem deleteCase5_RB (e : PathEntry α β) (tail : Path α β) (H : Nat)
    (hp : pathOK (e :: tail) (H + 1))
    (hsb : nodeColor e.sib = .black)
    (hnred : ¬(nodeColor e.sib.left = .black ∧
      nodeColor e.sib.right = .black)) :
    pathOK (deleteCase5 (e :: tail)) H ∧
    pColor (deleteCase5 (e :: tail)) = .black := by
  cases e with
  | left pk pv pc s =>
      have hpc0 : ok s ∧ balanced s ∧ bh s = H + 1 ∧
          (pc = .red → nodeColor s = .black ∧ pColor tail = .black) ∧
          pathOK tail ((H + 1) + (if pc = .black then 1 else 0)) := hp
      obtain ⟨hos, hbs, hbhs, hredc, htail⟩ := hpc0
      obtain ⟨sk, sv, sc, sl, sr, rfl⟩ := node_of_bh_pos hbhs
      have hscb : sc = .black := hsb
      by_cases hg : nodeColor (RBNode.node sk sv sc sl sr) = .black ∧
          nodeColor (RBNode.node sk sv sc sl sr).left = .red ∧
          nodeColor (RBNode.node sk sv sc sl sr).right = .black
      · have hslred : nodeColor sl = .red := hg.2.1
        cases sl with
        | nil => exact absurd hslred (by simp [nodeColor])
        | node slk slv slc sll slr =>
            simp only [deleteCase5.eq_def]
            rw [if_pos hg]
            have hos2 : (sc = .red →
                nodeColor (RBNode.node slk slv slc sll slr) = .black ∧
                nodeColor sr = .black) ∧
                ok (RBNode.node slk slv slc sll slr) ∧ ok sr := hos
            obtain ⟨hcs, hosl, hosr⟩ := hos2
            have hbs2 : bh (RBNode.node slk slv slc sll slr) = bh sr ∧
                balanced (RBNode.node slk slv slc sll slr) ∧ balanced sr := hbs
            obtain ⟨hbhe, hbsl, hbsr⟩ := hbs2
            have hslc : slc = .red := hslred
            subst hslc
            subst hscb
            have hosl2 : (Color.red = .red →
                nodeColor sll = .black ∧ nodeColor slr = .black) ∧
                ok sll ∧ ok slr := hosl
            obtain ⟨hcsl, hosll, hoslr⟩ := hosl2
            have hbsl2 : bh sll = bh slr ∧ balanced sll ∧ balanced slr := hbsl
            obtain ⟨hble, hbsll, hbslr⟩ := hbsl2
            have hkids := hcsl rfl
            have e1 : bh sll = H := by
              have h6 : bh sll + 0 + 1 = H + 1 := hbhs
              omega
            have e2 : bh slr = H := by rw [← hble]; exact e1
            have e3 : bh sr = H := by
              rw [← hbhe]
              show bh sll + 0 = H
              omega
            have hsr : nodeColor sr = .black := hg.2.2
            refine deleteCase6_RB_left pk pv pc slk slv .black sll
              (.node sk sv .red slr sr) tail H ?_ rfl rfl
            refine ⟨⟨fun hc => Color.noConfusion hc, hosll,
              fun _ => ⟨hkids.2, hsr⟩, hoslr, hosr⟩,
              ⟨?_, hbsll, ?_, hbslr, hbsr⟩, ?_, ?_, ?_⟩
            · show bh sll = bh slr
              rw [e1, e2]
            · show bh slr = bh sr
              rw [e2, e3]
            · show bh sll + 1 = H + 1
              rw [e1]
            · intro hc
              exact ⟨rfl, (hredc hc).2⟩
            · show pathOK tail ((H + 1) + (if pc = .black then 1 else 0))
              exact htail
      · simp only [deleteCase5.eq_def]
        rw [if_neg hg]
        have hsr : nodeColor sr = .red := by
          by_cases h1 : nodeColor sr = .red
          · exact h1
          · have h2 : nodeColor sr = .black := black_of_not_red h1
            have h3 : nodeColor sl = .red := by
              rcases not_and_or.1 hnred with h4 | h4
              · exact red_of_not_black h4
              · exact absurd h2 h4
            exact absurd ⟨hsb, h3, h2⟩ hg
        exact deleteCase6_RB_left pk pv pc sk sv sc sl sr tail H hp hscb hsr
  | right pk pv pc s =>
      have hpc0 : ok s ∧ balanced s ∧ bh s = H + 1 ∧
          (pc = .red → nodeColor s = .black ∧ pColor tail = .black) ∧
          pathOK tail ((H + 1) + (if pc = .black then 1 else 0)) := hp
      obtain ⟨hos, hbs, hbhs, hredc, htail⟩ := hpc0
      obtain ⟨sk, sv, sc, sl, sr, rfl⟩ := node_of_bh_pos hbhs
      have hscb : sc = .black := hsb
      by_cases hg : nodeColor (RBNode.node sk sv sc sl sr) = .black ∧
          nodeColor (RBNode.node sk sv sc sl sr).right = .red ∧
          nodeColor (RBNode.node sk sv sc sl sr).left = .black
      · have hsrred : nodeColor sr = .red := hg.2.1
        cases sr with
        | nil => exact absurd hsrred (by simp [nodeColor])
        | node srk srv src srl srr =>
            simp only [deleteCase5.eq_def]
            rw [if_pos hg]
            have hos2 : (sc = .red → nodeColor sl = .black ∧
                nodeColor (RBNode.node srk srv src srl srr) = .black) ∧
                ok sl ∧ ok (RBNode.node srk srv src srl srr) := hos
            obtain ⟨hcs, hosl, hosr⟩ := hos2
            have hbs2 : bh sl = bh (RBNode.node srk srv src srl srr) ∧
                balanced sl ∧ balanced (RBNode.node srk srv src srl srr) := hbs
            obtain ⟨hbhe, hbsl, hbsr⟩ := hbs2
            have hsrc : src = .red := hsrred
            subst hsrc
            subst hscb
            have hosr2 : (Color.red = .red →
                nodeColor srl = .black ∧ nodeColor srr = .black) ∧
                ok srl ∧ ok srr := hosr
            obtain ⟨hcsr, hosrl, hosrr⟩ := hosr2
            have hbsr2 : bh srl = bh srr ∧ balanced srl ∧ balanced srr := hbsr
            obtain ⟨hbre, hbsrl, hbsrr⟩ := hbsr2
            have hkids := hcsr rfl
            have e0 : bh sl = H := by
              have h6 : bh sl + 1 = H + 1 := hbhs
              omega
            have e1 : bh srl = H := by
              have h6 : bh sl = bh srl + 0 := hbhe
              omega
            have e2 : bh srr = H := by rw [← hbre]; exact e1
            have hslb : nodeColor sl = .black := hg.2.2
            refine deleteCase6_RB_right pk pv pc srk srv .black
              (.node sk sv .red sl srl) srr tail H ?_ rfl rfl
            refine ⟨⟨fun hc => Color.noConfusion hc,
              ⟨fun _ => ⟨hslb, hkids.1⟩, hosl, hosrl⟩, hosrr⟩,
              ⟨?_, ⟨?_, hbsl, hbsrl⟩, hbsrr⟩, ?_, ?_, ?_⟩
            · show bh sl + 0 = bh srr
              omega
            · show bh sl = bh srl
              rw [e0, e1]
            · show bh sl + 0 + 1 = H + 1
              omega
            · intro hc
              exact ⟨rfl, (hredc hc).2⟩
            · show pathOK tail ((H + 1) + (if pc = .black then 1 else 0))
              exact htail
      · simp only [deleteCase5.eq_def]
        rw [if_neg hg]
        have hsl : nodeColor sl = .red := by
          by_cases h1 : nodeColor sl = .red
          · exact h1
          · have h2 : nodeColor sl = .black := black_of_not_red h1
            have h3 : nodeColor sr = .red := by
              rcases not_and_or.1 hnred with h4 | h4
              · exact absurd h2 h4
              · exact red_of_not_black h4
            exact absurd ⟨hsb, h3, h2⟩ hg
        exact deleteCase6_RB_right pk pv pc sk sv sc sl sr tail H hp hscb hsl

theorem deleteCase4_RB (e : PathEntry α β) (tail : Path α β) (H : Nat)
    (hp : pathOK (e :: tail) (H + 1))
    (hsb : nodeColor e.sib = .black)
    (hflow : ¬(e.color = .black ∧ nodeColor e.sib = .black ∧
        nodeColor e.sib.left = .black ∧ nodeColor e.sib.right = .black)) :
    pathOK (deleteCase4 (e :: tail)) H ∧
    pColor (deleteCase4 (e :: tail)) = .black := by
  have hpc0 : ok e.sib ∧ balanced e.sib ∧ bh e.sib = H + 1 ∧
      (e.color = .red → nodeColor e.sib = .black ∧ pColor tail = .black) ∧
      pathOK tail ((H + 1) + (if e.color = .black then 1 else 0)) := hp
  obtain ⟨hos, hbs, hbhs, hredc, htail0⟩ := hpc0
  rw [deleteCase4]
  by_cases hg : e.color = .red ∧ nodeColor e.sib = .black ∧
      nodeColor e.sib.left = .black ∧ nodeColor e.sib.right = .black
  · rw [if_pos hg]
    rw [hg.1] at htail0
    have htail : pathOK tail (H + 1) := htail0
    obtain ⟨sk, sv, sc, sl, sr, hs⟩ := node_of_bh_pos hbhs
    have hscb : sc = .black := by rw [hs] at hsb; exact hsb
    subst hscb
    have hbsl : bh sl = H := by
      rw [hs] at hbhs
      have h6 : bh sl + 1 = H + 1 := hbhs
      omega
    have hokp : ok (e.sib.paint .red) := ok_paint_red hos hg.2.2.1 hg.2.2.2
    have hbalp : balanced (e.sib.paint .red) := balanced_paint _ hbs
    have hbhp : bh (e.sib.paint .red) = H := by
      rw [hs]
      show bh sl + (if Color.red = .black then 1 else 0) = H
      simpa using hbsl
    cases e with
    | left pk pv pc s1 =>
        refine ⟨⟨hokp, hbalp, hbhp, ?_, ?_⟩, rfl⟩
        · intro hc
          exact Color.noConfusion hc
        · show pathOK tail (H + (if Color.black = .black then 1 else 0))
          exact htail
    | right pk pv pc s1 =>
        refine ⟨⟨hokp, hbalp, hbhp, ?_, ?_⟩, rfl⟩
        · intro hc
          exact Color.noConfusion hc
        · show pathOK tail (H + (if Color.black = .black then 1 else 0))
          exact htail
  · rw [if_neg hg]
    have hnred : ¬(nodeColor e.sib.left = .black ∧
        nodeColor e.sib.right = .black) := by
      intro hkids
      by_cases hec : e.color = .red
      · exact hg ⟨hec, hsb, hkids.1, hkids.2⟩
      · exact hflow ⟨black_of_not_red hec, hsb, hkids.1, hkids.2⟩
    exact deleteCase5_RB e tail H hp hsb hnred

theorem deleteCase1_RB (n : RBNode α β) (p : Path α β) (H : Nat)
    (hp : pathOK p (H + 1)) :
    pathOK (deleteCase1 n p) H ∧
      (deleteCase1 n p = [] ∨ pColor (deleteCase1 n p) = .black) := by
  refine deleteCase1.induct
    (fun n p => ∀ H, pathOK p (H + 1) →
      pathOK (deleteCase1 n p) H ∧
        (deleteCase1 n p = [] ∨ pColor (deleteCase1 n p) = .black))
    (fun n p => ∀ H, pathOK p (H + 1) →
      pathOK (deleteCase2 n p) H ∧
        (deleteCase2 n p = [] ∨ pColor (deleteCase2 n p) = .black))
    (fun n p => ∀ H, pathOK p (H + 1) →
      (∀ e t2, p = e :: t2 → nodeColor e.sib = .black) →
      pathOK (deleteCase3 n p) H ∧
        (deleteCase3 n p = [] ∨ pColor (deleteCase3 n p) = .black))
    ?_ ?_ ?_ ?_ ?_ ?_ ?_ ?_ n p H hp
  · intro n H hp
    rw [deleteCase1]
    exact ⟨trivial, Or.inl rfl⟩
  · intro n e p ih H hp
    rw [deleteCase1]
    exact ih H hp
  · intro n pk pv c sk sv sl sr tail ih H hp
    rw [deleteCase2]
    have hpc0 : ok (RBNode.node sk sv .red sl sr) ∧
        balanced (RBNode.node sk sv .red sl sr) ∧
        bh (RBNode.node sk sv .red sl sr) = H + 1 ∧
        (c = .red → nodeColor (RBNode.node sk sv .red sl sr) = .black ∧
          pColor tail = .black) ∧
        pathOK tail ((H + 1) + (if c = .black then 1 else 0)) := hp
    obtain ⟨hos, hbs, hbhs, hredc, htail0⟩ := hpc0
    have hos2 : (Color.red = .red →
        nodeColor sl = .black ∧ nodeColor sr = .black) ∧ ok sl ∧ ok sr := hos
    obtain ⟨hcs, hosl, hosr⟩ := hos2
    have hbs2 : bh sl = bh sr ∧ balanced sl ∧ balanced sr := hbs
    obtain ⟨hbhe, hbsl, hbsr⟩ := hbs2
    have hkids := hcs rfl
    have hcb : c = .black := by
      refine black_of_not_red fun hcr => ?_
      exact Color.noConfusion (hredc hcr).1
    subst hcb
    have hbsl1 : bh sl = H + 1 := by
      have h6 : bh sl + 0 = H + 1 := hbhs
      omega
    have hbsr1 : bh sr = H + 1 := by rw [← hbhe]; exact hbsl1
    have htail1 : pathOK tail ((H + 1) + 1) := htail0
    have hq : pathOK
        (.left pk pv .red sl :: .left sk sv .black sr :: tail) (H + 1) :=
      ⟨hosl, hbsl, hbsl1, fun _ => ⟨hkids.1, rfl⟩, hosr, hbsr, hbsr1,
        fun hc2 => Color.noConfusion hc2, htail1⟩
    have hsibq : ∀ e2 t2, (PathEntry.left pk pv Color.red sl ::
        PathEntry.left sk sv Color.black sr :: tail : Path α β) = e2 :: t2 →
        nodeColor e2.sib = .black := by
      intro e2 t2 heq2
      injection heq2 with h1 h2
      rw [← h1]
      exact hkids.1
    exact ih H hq hsibq
  · intro n pk pv c sk sv sl sr tail ih H hp
    rw [deleteCase2]
    have hpc0 : ok (RBNode.node sk sv .red sl sr) ∧
        balanced (RBNode.node sk sv .red sl sr) ∧
        bh (RBNode.node sk sv .red sl sr) = H + 1 ∧
        (c = .red → nodeColor (RBNode.node sk sv .red sl sr) = .black ∧
          pColor tail = .black) ∧
        pathOK tail ((H + 1) + (if c = .black then 1 else 0)) := hp
    obtain ⟨hos, hbs, hbhs, hredc, htail0⟩ := hpc0
    have hos2 : (Color.red = .red →
        nodeColor sl = .black ∧ nodeColor sr = .black) ∧ ok sl ∧ ok sr := hos
    obtain ⟨hcs, hosl, hosr⟩ := hos2
    have hbs2 : bh sl = bh sr ∧ balanced sl ∧ balanced sr := hbs
    obtain ⟨hbhe, hbsl, hbsr⟩ := hbs2
    have hkids := hcs rfl
    have hcb : c = .black := by
      refine black_of_not_red fun hcr => ?_
      exact Color.noConfusion (hredc hcr).1
    subst hcb
    have hbsl1 : bh sl = H + 1 := by
      have h6 : bh sl + 0 = H + 1 := hbhs
      omega
    have hbsr1 : bh sr = H + 1 := by rw [← hbhe]; exact hbsl1
    have htail1 : pathOK tail ((H + 1) + 1) := htail0
    have hq : pathOK
        (.right pk pv .red sr :: .right sk sv .black sl :: tail) (H + 1) :=
      ⟨hosr, hbsr, hbsr1, fun _ => ⟨hkids.2, rfl⟩, hosl, hbsl, hbsl1,
        fun hc2 => Color.noConfusion hc2, htail1⟩
    have hsibq : ∀ e2 t2, (PathEntry.right pk pv Color.red sr ::
        PathEntry.right sk sv Color.black sl :: tail : Path α β) = e2 :: t2 →
        nodeColor e2.sib = .black := by
      intro e2 t2 heq2
      injection heq2 with h1 h2
      rw [← h1]
      exact hkids.2
    exact ih H hq hsibq
  · intro n p hn1 hn2 ih H hp
    have hsib2 : ∀ e2 t2, p = e2 :: t2 → nodeColor e2.sib = .black := by
      intro e2 t2 heq2
      subst heq2
      cases e2 with
      | left k2 v2 c2 s2 =>
          cases s2 with
          | nil => rfl
          | node k3 v3 c3 l3 r3 =>
              cases c3 with
              | red => exact absurd rfl (hn1 k2 v2 c2 k3 v3 l3 r3 t2)
              | black => rfl
      | right k2 v2 c2 s2 =>
          cases s2 with
          | nil => rfl
          | node k3 v3 c3 l3 r3 =>
              cases c3 with
              | red => exact absurd rfl (hn2 k2 v2 c2 k3 v3 l3 r3 t2)
              | black => rfl
    have heq : deleteCase2 n p = deleteCase3 n p := by
      match p with
      | [] => simp [deleteCase2]
      | .left pk pv pc .nil :: tail => simp [deleteCase2]
      | .left pk pv pc (.node sk sv .black sl sr) :: tail =>
          simp [deleteCase2]
      | .left pk pv pc (.node sk sv .red sl sr) :: tail =>
          exact absurd rfl (hn1 pk pv pc sk sv sl sr tail)
      | .right pk pv pc .nil :: tail => simp [deleteCase2]
      | .right pk pv pc (.node sk sv .black sl sr) :: tail =>
          simp [deleteCase2]
      | .right pk pv pc (.node sk sv .red sl sr) :: tail =>
          exact absurd rfl (hn2 pk pv pc sk sv sl sr tail)
    rw [heq]
    exact ih H hp hsib2
  · intro n e2 rest h ih H hp hsib
    simp only [deleteCase3.eq_def]
    rw [dif_pos h]
    cases e2 with
    | left k v c s =>
        have hpc0 : ok s ∧ balanced s ∧ bh s = H + 1 ∧
            (c = .red → nodeColor s = .black ∧ pColor rest = .black) ∧
            pathOK rest ((H + 1) + (if c = .black then 1 else 0)) := hp
        obtain ⟨hos, hbs, hbhs, hredc, htail0⟩ := hpc0
        have hc : c = .black := h.1
        subst hc
        have htail1 : pathOK rest ((H + 1) + 1) := htail0
        obtain ⟨hres, hcol⟩ := ih (H + 1) htail1
        obtain ⟨sk, sv, sc, sl, sr, hs⟩ := node_of_bh_pos hbhs
        have h21 : nodeColor s = .black := h.2.1
        rw [hs] at h21
        have hscb : sc = .black := h21
        subst hscb
        have hokp : ok (s.paint .red) := ok_paint_red hos h.2.2.1 h.2.2.2
        have hbalp : balanced (s.paint .red) := balanced_paint _ hbs
        have hbhp : bh (s.paint .red) = H := by
          rw [hs] at hbhs ⊢
          have h6 : bh sl + 1 = H + 1 := hbhs
          show bh sl = H
          omega
        refine ⟨⟨hokp, hbalp, hbhp, ?_, ?_⟩, Or.inr rfl⟩
        · intro hcr
          exact Color.noConfusion hcr
        · exact hres
    | right k v c s =>
        have hpc0 : ok s ∧ balanced s ∧ bh s = H + 1 ∧
            (c = .red → nodeColor s = .black ∧ pColor rest = .black) ∧
            pathOK rest ((H + 1) + (if c = .black then 1 else 0)) := hp
        obtain ⟨hos, hbs, hbhs, hredc, htail0⟩ := hpc0
        have hc : c = .black := h.1
        subst hc
        have htail1 : pathOK rest ((H + 1) + 1) := htail0
        obtain ⟨hres, hcol⟩ := ih (H + 1) htail1
        obtain ⟨sk, sv, sc, sl, sr, hs⟩ := node_of_bh_pos hbhs
        have h21 : nodeColor s = .black := h.2.1
        rw [hs] at h21
        have hscb : sc = .black := h21
        subst hscb
        have hokp : ok (s.paint .red) := ok_paint_red hos h.2.2.1 h.2.2.2
        have hbalp : balanced (s.paint .red) := balanced_paint _ hbs
        have hbhp : bh (s.paint .red) = H := by
          rw [hs] at hbhs ⊢
          have h6 : bh sl + 1 = H + 1 := hbhs
          show bh sl = H
          omega
        refine ⟨⟨hokp, hbalp, hbhp, ?_, ?_⟩, Or.inr rfl⟩
        · intro hcr
          exact Color.noConfusion hcr
        · exact hres
  · intro n e2 rest h H hp hsib
    simp only [deleteCase3.eq_def]
    rw [dif_neg h]
    obtain ⟨h1, h2⟩ := deleteCase4_RB e2 rest H hp (hsib e2 rest rfl) h
    exact ⟨h1, Or.inr h2⟩
  · intro n H hp hsib
    have hE : deleteCase3 n ([] : Path α β) = [] := by
      simp [deleteCase3.eq_def, deleteCase4, deleteCase5, deleteCase6]
    rw [hE]
    exact ⟨trivial, Or.inl rfl⟩

theorem lookupZip_colors (k : α) :
    ∀ (n : RBNode α β) (p : Path α β) (nd : RBNode α β) (p2 : Path α β),
    lookupZip k n p = some (nd, p2) →
    ok n → balanced n → pathOK p (bh n) →
    (nodeColor n = .red → pColor p = .black) →
    ok nd ∧ balanced nd ∧ pathOK p2 (bh nd) ∧
      (nodeColor nd = .red → pColor p2 = .black) := by
  intro n
  induction n with
  | nil =>
      intro p nd p2 hl
      simp [lookupZip] at hl
  | node nk nv c l r ihl ihr =>
      intro p nd p2 hl hok hbal hpok hred
      have hok2 : (c = .red → nodeColor l = .black ∧ nodeColor r = .black) ∧
          ok l ∧ ok r := hok
      obtain ⟨hcs, hol, hor⟩ := hok2
      have hbal2 : bh l = bh r ∧ balanced l ∧ balanced r := hbal
      obtain ⟨hbe, hbl, hbr⟩ := hbal2
      rw [lookupZip] at hl
      by_cases h0 : cmp k nk = 0
      · rw [if_pos h0] at hl
        obtain ⟨h1, h2⟩ := Prod.mk.injEq .. ▸ Option.some.injEq .. ▸ hl
        subst h1
        subst h2
        exact ⟨hok, hbal, hpok, hred⟩
      · rw [if_neg h0] at hl
        by_cases hlt : cmp k nk < 0
        · rw [if_pos hlt] at hl
          refine ihl (.left nk nv c r :: p) nd p2 hl hol hbl ?_ ?_
          · refine ⟨hor, hbr, hbe.symm, ?_, ?_⟩
            · intro hc
              exact ⟨(hcs hc).2, hred hc⟩
            · show pathOK p (bh l + (if c = .black then 1 else 0))
              exact hpok
          · intro hlred
            refine black_of_not_red fun hcred => ?_
            exact Color.noConfusion (((hcs hcred).1).symm.trans hlred)
        · rw [if_neg hlt] at hl
          refine ihr (.right nk nv c l :: p) nd p2 hl hor hbr ?_ ?_
          · refine ⟨hol, hbl, hbe, ?_, ?_⟩
            · intro hc
              exact ⟨(hcs hc).1, hred hc⟩
            · have hq : pathOK p (bh l + (if c = .black then 1 else 0)) :=
                hpok
              rw [hbe] at hq
              exact hq
          · intro hrred
            refine black_of_not_red fun hcred => ?_
            exact Color.noConfusion (((hcs hcred).2).symm.trans hrred)

omit [LinearOrder α] in
theorem maximumNode_shift : ∀ (n : RBNode α β) (q : Path α β),
    maximumNode n q = ((maximumNode n []).1, (maximumNode n []).2 ++ q) := by
  intro n
  induction n with
  | nil => intro q; rfl
  | node k v c l r ihl ihr =>
      intro q
      cases r with
      | nil => rfl
      | node rk rv rc rl rr =>
          rw [maximumNode, ihr (.right k v c l :: q),
            show maximumNode (RBNode.node k v c l (.node rk rv rc rl rr)) [] =
              maximumNode (.node rk rv rc rl rr) [.right k v c l] from by
                rw [maximumNode],
            ihr [.right k v c l]]
          simp

omit [LinearOrder α] in
theorem maximumNode_colors :
    ∀ (n : RBNode α β) (q : Path α β) (nd : RBNode α β) (q2 : Path α β),
    maximumNode n q = (nd, q2) →
    ok n → balanced n → pathOK q (bh n) →
    (nodeColor n = .red → pColor q = .black) →
    ok nd ∧ balanced nd ∧ pathOK q2 (bh nd) ∧
      (nodeColor nd = .red → pColor q2 = .black) := by
  intro n
  induction n with
  | nil =>
      intro q nd q2 hm hok hbal hpok hred
      obtain ⟨h1, h2⟩ := Prod.mk.injEq .. ▸ hm
      subst h1
      subst h2
      exact ⟨hok, hbal, hpok, hred⟩
  | node k v c l r ihl ihr =>
      intro q nd q2 hm hok hbal hpok hred
      have hok2 : (c = .red → nodeColor l = .black ∧ nodeColor r = .black) ∧
          ok l ∧ ok r := hok
      obtain ⟨hcs, hol, hor⟩ := hok2
      have hbal2 : bh l = bh r ∧ balanced l ∧ balanced r := hbal
      obtain ⟨hbe, hbl, hbr⟩ := hbal2
      cases r with
      | nil =>
          rw [maximumNode] at hm
          obtain ⟨h1, h2⟩ := Prod.mk.injEq .. ▸ hm
          subst h1
          subst h2
          exact ⟨hok, hbal, hpok, hred⟩
      | node rk rv rc rl rr =>
          rw [maximumNode] at hm
          refine ihr (.right k v c l :: q) nd q2 hm hor hbr ?_ ?_
          · refine ⟨hol, hbl, hbe, ?_, ?_⟩
            · intro hc
              exact ⟨(hcs hc).1, hred hc⟩
            · have hq : pathOK q (bh l + (if c = .black then 1 else 0)) :=
                hpok
              rw [hbe] at hq
              exact hq
          · intro hrred
            refine black_of_not_red fun hcred => ?_
            exact Color.noConfusion (((hcs hcred).2).symm.trans hrred)

theorem removeFinish_RB (t : Tree α β) (child : RBNode α β) (p3 : Path α β)
    (hok : ok child) (hbal : balanced child) (hbh : bh child = 0)
    (hpok : pathOK p3 0)
    (hcol : p3 = [] ∨ pColor p3 = .black) :
    ok (removeFinish t child p3).root ∧
    balanced (removeFinish t child p3).root ∧
    nodeColor (removeFinish t child p3).root = .black := by
  cases p3 with
  | nil =>
      show ok (child.paint .black) ∧ balanced (child.paint .black) ∧
        nodeColor (child.paint .black) = .black
      exact ⟨ok_paint_black hok, balanced_paint _ hbal, nodeColor_paint_black _⟩
  | cons e tail =>
      have hcb : pColor (e :: tail) = .black := by
        rcases hcol with h | h
        · exact absurd h (by simp)
        · exact h
      have hplug := plug_RB (e :: tail) 0 child hpok hok hbal hbh fun _ => hcb
      show ok (plug child (e :: tail)) ∧ balanced (plug child (e :: tail)) ∧
        nodeColor (plug child (e :: tail)) = .black
      exact ⟨hplug.1, hplug.2.1, hplug.2.2.2 (by simp)⟩

theorem removeUnlink_RB (t : Tree α β) (k2 : α) (v2 : β) (c2 : Color)
    (l2 r2 : RBNode α β) (p2 : Path α β)
    (hnil : l2 = .nil ∨ r2 = .nil)
    (hok : ok (RBNode.node k2 v2 c2 l2 r2))
    (hbal : balanced (RBNode.node k2 v2 c2 l2 r2))
    (hpok : pathOK p2 (bh (RBNode.node k2 v2 c2 l2 r2)))
    (hred : nodeColor (RBNode.node k2 v2 c2 l2 r2) = .red →
      pColor p2 = .black) :
    ok (removeUnlink t (RBNode.node k2 v2 c2 l2 r2, p2)).root ∧
    balanced (removeUnlink t (RBNode.node k2 v2 c2 l2 r2, p2)).root ∧
    nodeColor (removeUnlink t (RBNode.node k2 v2 c2 l2 r2, p2)).root =
      .black := by
  have hok2 : (c2 = .red → nodeColor l2 = .black ∧ nodeColor r2 = .black) ∧
      ok l2 ∧ ok r2 := hok
  obtain ⟨hcs, hol, hor⟩ := hok2
  have hbal2 : bh l2 = bh r2 ∧ balanced l2 ∧ balanced r2 := hbal
  obtain ⟨hbe, hbl, hbr⟩ := hbal2
  cases r2 with
  | nil =>
      have hbl0 : bh l2 = 0 := hbe
      rw [removeUnlink]
      rw [if_pos (Or.inr rfl : l2.isNil = true ∨
        (RBNode.nil : RBNode α β).isNil = true)]
      by_cases hc2 : c2 = .black
      · rw [if_pos hc2]
        have hpok2 : pathOK p2 (bh l2 + 1) := by
          rw [hc2] at hpok
          exact hpok
        rw [hbl0] at hpok2
        obtain ⟨hp3, hcol3⟩ := deleteCase1_RB
          ((RBNode.node k2 v2 c2 l2 .nil).paint
            (nodeColor (if (RBNode.nil : RBNode α β).isNil then l2
              else RBNode.nil))) p2 0 hpok2
        exact removeFinish_RB t l2 _ hol hbl hbl0 hp3 hcol3
      · rw [if_neg hc2]
        have hc2r : c2 = .red := red_of_not_black hc2
        have hpok2 : pathOK p2 (bh l2 + 0) := by
          rw [hc2r] at hpok
          exact hpok
        rw [hbl0] at hpok2
        have hpok3 : pathOK p2 0 := hpok2
        exact removeFinish_RB t l2 p2 hol hbl hbl0 hpok3
          (Or.inr (hred hc2r))
  | node rk rv rc rl rr =>
      have hl2 : l2 = .nil := by
        rcases hnil with h | h
        · exact h
        · exact absurd h (by simp)
      subst hl2
      have hbr0 : bh (RBNode.node rk rv rc rl rr) = 0 := hbe.symm
      rw [removeUnlink]
      rw [if_pos (Or.inl rfl : (RBNode.nil : RBNode α β).isNil = true ∨
        (RBNode.node rk rv rc rl rr).isNil = true)]
      by_cases hc2 : c2 = .black
      · rw [if_pos hc2]
        have hpok2 : pathOK p2 (bh (RBNode.nil : RBNode α β) + 1) := by
          rw [hc2] at hpok
          exact hpok
        have hpok3 : pathOK p2 (0 + 1) := hpok2
        obtain ⟨hp3, hcol3⟩ := deleteCase1_RB
          ((RBNode.node k2 v2 c2 .nil (.node rk rv rc rl rr)).paint
            (nodeColor (if (RBNode.node rk rv rc rl rr).isNil then
              (RBNode.nil : RBNode α β) else .node rk rv rc rl rr))) p2 0 hpok3
        exact removeFinish_RB t (.node rk rv rc rl rr) _ hor hbr hbr0 hp3 hcol3
      · rw [if_neg hc2]
        have hc2r : c2 = .red := red_of_not_black hc2
        have hpok2 : pathOK p2 (bh (RBNode.nil : RBNode α β) + 0) := by
          rw [hc2r] at hpok
          exact hpok
        have hpok3 : pathOK p2 0 := hpok2
        exact removeFinish_RB t (.node rk rv rc rl rr) p2 hor hbr hbr0 hpok3
          (Or.inr (hred hc2r))

theorem RB_Remove (t : Tree α β) (k : α) (h : t.RB) : (t.Remove k).RB := by
  obtain ⟨hwf, hroot, hok, hbal⟩ := h
  refine ⟨WF_Remove t k hwf, ?_⟩
  cases hl : lookupZip k t.root [] with
  | none =>
      have hrm : t.Remove k = t := by unfold Tree.Remove; rw [hl]
      rw [hrm]
      exact ⟨hroot, hok, hbal⟩
  | some x =>
      obtain ⟨nd, p⟩ := x
      have hrm : t.Remove k = removeUnlink t (removeTarget nd p) :=
        Remove_found t k nd p hl
      rw [hrm]
      have hcols := lookupZip_colors k t.root [] nd p hl hok hbal trivial
        fun hr => Color.noConfusion (hroot.symm.trans hr)
      obtain ⟨hoknd, hbalnd, hpoknd, hrednd⟩ := hcols
      obtain ⟨v, c, l, r, L0, R0, hnd, hLq, hRq, hio, hlt2, hgt2⟩ :=
        (lookupZip_spec k t.root none none [] hwf.1).2 nd p hl
      subst hnd
      cases l with
      | nil =>
          rw [removeTarget_nilL]
          obtain ⟨hA, hB, hC⟩ := removeUnlink_RB t k v c .nil r p
            (Or.inl rfl) hoknd hbalnd hpoknd hrednd
          exact ⟨hC, hA, hB⟩
      | node lk lv lc ll lr =>
          cases r with
          | nil =>
              rw [removeTarget_nilR]
              obtain ⟨hA, hB, hC⟩ := removeUnlink_RB t k v c
                (.node lk lv lc ll lr) .nil p (Or.inr rfl) hoknd hbalnd
                hpoknd hrednd
              exact ⟨hC, hA, hB⟩
          | node rk rv rc rl rr =>
              obtain ⟨pdk, pdv, pdc, pdl, mp, L1, hmax, hLmp, hRmp, hioL⟩ :=
                maximumNode_spec (RBNode.node lk lv lc ll lr) [] (by simp)
              have heqRT : removeTarget
                  (RBNode.node k v c (.node lk lv lc ll lr)
                    (.node rk rv rc rl rr)) p =
                  (.node pdk pdv pdc pdl .nil,
                    mp ++ (.left pdk pdv c (.node rk rv rc rl rr) :: p)) := by
                rw [removeTarget, hmax]
              rw [heqRT]
              have hok3 : (c = .red →
                  nodeColor (RBNode.node lk lv lc ll lr) = .black ∧
                  nodeColor (RBNode.node rk rv rc rl rr) = .black) ∧
                  ok (RBNode.node lk lv lc ll lr) ∧
                  ok (RBNode.node rk rv rc rl rr) := hoknd
              obtain ⟨hcs, holL, horR⟩ := hok3
              have hbal3 : bh (RBNode.node lk lv lc ll lr) =
                  bh (RBNode.node rk rv rc rl rr) ∧
                  balanced (RBNode.node lk lv lc ll lr) ∧
                  balanced (RBNode.node rk rv rc rl rr) := hbalnd
              obtain ⟨hbe, hbL, hbR⟩ := hbal3
              have hshift2 : maximumNode (RBNode.node lk lv lc ll lr)
                  (.left pdk pdv c (.node rk rv rc rl rr) :: p) =
                  (.node pdk pdv pdc pdl .nil,
                    mp ++ (.left pdk pdv c (.node rk rv rc rl rr) :: p)) := by
                rw [maximumNode_shift, hmax]
              have hpokq : pathOK
                  (.left pdk pdv c (.node rk rv rc rl rr) :: p)
                  (bh (RBNode.node lk lv lc ll lr)) :=
                ⟨horR, hbR, hbe.symm, fun hc => ⟨(hcs hc).2, hrednd hc⟩,
                  hpoknd⟩
              have hredq : nodeColor (RBNode.node lk lv lc ll lr) = .red →
                  pColor (.left pdk pdv c (.node rk rv rc rl rr) :: p) =
                    .black := by
                intro hLred
                refine black_of_not_red fun hcred => ?_
                exact Color.noConfusion (((hcs hcred).1).symm.trans hLred)
              obtain ⟨hokpd, hbalpd, hpokpd, hredpd⟩ :=
                maximumNode_colors _ _ _ _ hshift2 holL hbL hpokq hredq
              obtain ⟨hA, hB, hC⟩ := removeUnlink_RB t pdk pdv pdc pdl .nil _
                (Or.inr rfl) hokpd hbalpd hpokpd hredpd
              exact ⟨hC, hA, hB⟩

theorem RB_new : (Tree.new : Tree α β).RB := ⟨WF_new, rfl, trivial, trivial⟩

theorem RB_Clear (t : Tree α β) : t.Clear.RB := RB_new

theorem RB_applyOp (t : Tree α β) (op : Op α β) (h : t.RB) :
    (t.applyOp op).RB := by
  cases op with
  | put k v => exact RB_Put t k v h
  | remove k => exact RB_Remove t k h
  | clear => exact RB_Clear t

theorem RB_foldl (ops : List (Op α β)) :
    ∀ t : Tree α β, t.RB → (ops.foldl Tree.applyOp t).RB := by
  induction ops with
  | nil => intro t h; exact h
  | cons op ops ih => intro t h; exact ih _ (RB_applyOp t op h)

theorem RB_applyOps (ops : List (Op α β)) : (applyOps ops).RB :=
  RB_foldl ops Tree.new RB_new

/-- C1: after every finite sequence of Put and Remove operations (and
Clear) starting from the empty tree, the node graph satisfies all the
structural invariants: BST ordering (every key in a left subtree is
smaller than the node's key and every key in a right subtree larger,
under the comparator), the root is black, no red node has a red child,
and every path from any node to a descendant null reference passes
through the same number of black nodes. -/
theorem C1_invariants (ops : List (Op α β)) :
    BST (applyOps ops).root ∧
    nodeColor (applyOps ops).root = .black ∧
    ok (applyOps ops).root ∧
    balanced (applyOps ops).root := by
  obtain ⟨hwf, hroot, hok, hbal⟩ := RB_applyOps ops
  exact ⟨hwf.1, hroot, hok, hbal⟩

end GodsRBT
